import Mathlib

/-!
# Verification of the healer program generator and case record

Shallow embedding of `src/core/src/gen.rs` (program generator, sequence
planner, value builder, resource/string memory) and `src/fuzzer/src/report.rs`
(test-case record) of the healer fuzzer, together with proofs settling the
frozen claims about them.

Conventions of the embedding:
* Randomness is modelled by an explicit oracle (`Oracle`): a stream of boolean
  draws (one per `rng.gen::<f64>()`/`rng.gen::<bool>()` comparison) and a
  stream of natural-number draws (one per index / integer draw), indexed by a
  counter that is threaded through the state.  Every theorem quantifies over
  all oracles, so every probabilistic branch is covered.
* Rust `usize`/`u64` values are `Nat`; `i64`/`isize` are `Int`; where Rust
  wraps or panics on overflow the embedding makes the event explicit (the
  `uflow` flag, `Option` results).
* Functions that can panic in Rust (failed `assert!`, empty-range
  `gen_range`, out-of-bounds index, `unwrap` of `None`) return `Option`;
  `none` is a panic.  Potentially non-terminating recursion (type recursion
  through the schema, `loop`s) takes explicit fuel; exhausted fuel is also
  `none`.
-/

/-! ## Identifiers and schema data model

Modelled from the spec: the `fots::types` crate (TypeId/GroupId/FnId,
`TypeInfo`, `NumInfo`, `NumLimit`, `PtrDir`, `StrType`, `Field`, `Flag`,
`FnInfo`) is a dependency of `src/core/src/gen.rs` that is not under `src/`;
its shape is taken from spec §3 "DATA MODEL". -/

abbrev TypeId := Nat
abbrev GroupId := Nat
abbrev FnId := Nat

/-- Modelled from the spec: pointer direction (`fots::types::PtrDir`). -/
inductive PtrDir
  | In
  | Out
  | InOut
deriving DecidableEq, Repr

/-- Modelled from the spec: string kind (`fots::types::StrType`). -/
inductive StrType
  | Str
  | CStr
  | FileName
deriving DecidableEq, Repr

/-- Modelled from the spec: numeric width/signedness kind.  The Rust
`NumInfo` enum has one variant per width (`I8 ... Isize`), each carrying its
limit; the embedding factors the common limit out (`NumInfo` below). -/
inductive NumKind
  | i8
  | i16
  | i32
  | i64
  | u8
  | u16
  | u32
  | u64
  | usizeK
  | isizeK
deriving DecidableEq, Repr

/-- Signedness of a numeric kind. -/
def NumKind.signed : NumKind → Bool
  | .i8 | .i16 | .i32 | .i64 | .isizeK => true
  | _ => false

/-- Bit width of a numeric kind (`usize`/`isize` are modelled as 64-bit). -/
def NumKind.width : NumKind → Nat
  | .i8 | .u8 => 8
  | .i16 | .u16 => 16
  | .i32 | .u32 => 32
  | _ => 64

/-- Modelled from the spec: numeric limit (`fots::types::NumLimit`):
`Vals` (enumerated values), `Range` (`lo` inclusive, `hi` exclusive), or
unconstrained.  Payload integers are the mathematical values of the typed
Rust integers. -/
inductive NumLimit
  | Vals (vs : List Int)
  | Range (lo hi : Int)
  | NoneL
deriving DecidableEq, Repr

/-- Modelled from the spec: numeric type description. -/
structure NumInfo where
  kind : NumKind
  limit : NumLimit
deriving DecidableEq, Repr

/-- Modelled from the spec: a named field of a struct/union (`(TypeId, name)`). -/
structure FieldDef where
  ident : String
  tid : TypeId
deriving DecidableEq, Repr

/-- Modelled from the spec: one named flag bit (`fots::types::Flag`).  The
Rust value is an `i64`; we carry its 64-bit two's-complement bit pattern as a
`Nat` (bitwise operations agree with the signed Rust ones on patterns). -/
structure FlagDef where
  ident : String
  val : Nat
deriving DecidableEq, Repr

/-- Modelled from the spec: `fots::types::TypeInfo` (spec §3). -/
inductive TypeInfo
  | Num (info : NumInfo)
  | Ptr (dir : PtrDir) (tid : TypeId) (depth : Nat)
  | Slice (tid : TypeId) (l h : Int)
  | Str (str_type : StrType) (vals : Option (List String))
  | Struct (ident : String) (fields : List FieldDef)
  | Union (ident : String) (fields : List FieldDef)
  | Flag (ident : String) (flags : List FlagDef)
  | Alias (ident : String) (tid : TypeId)
  | Res (tid : TypeId)
  | Len (tid : TypeId) (path : String) (is_param : Bool)
deriving DecidableEq, Repr

/-- Modelled from the spec: a function description (`fots::types::FnInfo`):
id, ordered parameters, optional return TypeId. -/
structure FnInfo where
  id : FnId
  params : List FieldDef
  r_tid : Option TypeId
deriving DecidableEq, Repr

/-- Modelled from the spec: a group (kernel subsystem) owning an ordered
list of functions. -/
structure GroupDef where
  id : GroupId
  fns : List FnInfo
deriving DecidableEq, Repr

/-- Modelled from the spec: the materialized schema (`core::target::Target`):
a type table and a group table, both immutable.  Maps are association
lists. -/
structure Target where
  types : List (TypeId × TypeInfo)
  groups : List (GroupId × GroupDef)
deriving DecidableEq, Repr

/-- `Target::type_of`: look up a type.  A missing id is a Rust panic at the
lookup site, hence `Option`. -/
def Target.type_of (t : Target) (tid : TypeId) : Option TypeInfo :=
  (t.types.find? (fun e => e.1 == tid)).map (·.2)

/-- Modelled from the spec: `Target::is_res` — `Res(underlying)` is "a
resource handle type" (spec §3). -/
def Target.is_res (t : Target) (tid : TypeId) : Bool :=
  match t.type_of tid with
  | some (.Res _) => true
  | _ => false

/-! ## Values and programs

Modelled from the spec: `core::prog` (`ArgPos`, `ArgIndex`, `Arg`, `Call`,
`Prog`) and `core::value` (`Value`, `NumValue`) are healer modules not under
`src/`; their shape is spec §3 ("Value (variants)", "Arg", "Call", "Prog"). -/

/-- Modelled from the spec: a slot inside a call: the return slot or the
`k`-th argument. -/
inductive ArgPos
  | Ret
  | Arg (k : Nat)
deriving DecidableEq, Repr

instance : Inhabited ArgPos := ⟨ArgPos.Ret⟩

/-- Modelled from the spec: `(call_index, slot)` — an intra-program
reference target. -/
abbrev ArgIndex := Nat × ArgPos

/-- Modelled from the spec: a numeric value, widened to `i64`/`u64` storage:
signed values are `Int`, unsigned are `Nat` (< 2^64 in Rust). -/
inductive NumValue
  | Signed (v : Int)
  | Unsigned (v : Nat)
deriving DecidableEq, Repr

/-- Modelled from the spec: `core::value::Value` (spec §3). -/
inductive Value
  | Num (n : NumValue)
  | Str (s : String)
  | Ref (r : ArgIndex)
  | Group (vs : List Value)
  | Opt (choice : Nat) (val : Value)
  | NoneV
  | Default (tid : TypeId)

/-- Modelled from the spec: `Value::default_val(tid, t)` — the
output-pointer placeholder value `Default(TypeId)` (spec §3). -/
def Value.default_val (tid : TypeId) (_t : Target) : Value :=
  Value.Default tid

/-- Modelled from the spec: an argument: declared TypeId plus value.
`Arg::new` gives the placeholder value (overwritten by the generator). -/
structure Arg where
  tid : TypeId
  val : Value

/-- Modelled from the spec: `Arg::new(tid)` — placeholder argument. -/
def Arg.new (tid : TypeId) : Arg := ⟨tid, Value.NoneV⟩

/-- Modelled from the spec: a call: function id, ordered args, optional
return arg. -/
structure Call where
  fid : FnId
  args : List Arg
  ret : Option Arg

/-- Modelled from the spec: `Call::new(fid)`. -/
def Call.new (fid : FnId) : Call := ⟨fid, [], none⟩

/-- Modelled from the spec: `Call::add_arg`. -/
def Call.add_arg (c : Call) (a : Arg) : Call := { c with args := c.args ++ [a] }

/-- Modelled from the spec: a program: group id plus ordered calls. -/
structure Prog where
  gid : GroupId
  calls : List Call

/-- Modelled from the spec: `Prog::new(gid)`. -/
def Prog.new (gid : GroupId) : Prog := ⟨gid, []⟩

/-- Modelled from the spec: `Prog::add_call` (append). -/
def Prog.add_call (p : Prog) (c : Call) : Prog := { p with calls := p.calls ++ [c] }

/-! ## Relation table (`core::analyze`) -/

/-- Modelled from the spec: one entry of the relation table
(`core::analyze::Relation`). -/
inductive Relation
  | NoneR
  | SomeR
  | UnknownR
deriving DecidableEq, Repr

/-- Modelled from the spec: the square relation matrix of one group
(`core::analyze::RTable`, an `ndarray` matrix): side length `n` and entry
function. -/
structure RTable where
  n : Nat
  rel : Nat → Nat → Relation

/-! ## The randomness oracle -/

/-- Oracle for `thread_rng()`: `bool i` is the outcome of the `i`-th
boolean/threshold draw, `nat i` of the `i`-th numeric draw; `i` is a global
draw counter threaded through the computation. -/
structure Oracle where
  bool : Nat → Bool
  nat : Nat → Nat

/-- `rng.gen_range(lo, hi)` on `usize`: uniform in `[lo, hi)`; Rust panics
when the range is empty. -/
def genRangeN (r : Oracle) (k lo hi : Nat) : Option (Nat × Nat) :=
  if lo < hi then some (lo + r.nat k % (hi - lo), k + 1) else none

/-- Two's-complement truncation of a `Nat` draw to a `w`-bit signed value. -/
def toSigned (w : Nat) (n : Nat) : Int :=
  let m := n % 2 ^ w
  if m < 2 ^ (w - 1) then (m : Int) else (m : Int) - 2 ^ w

/-- The `usize` cast of a Rust `isize` (`l as usize`): the value modulo
`2^64`. -/
def toU64 (x : Int) : Nat := (x % (2 : Int) ^ 64).toNat

/-! ## `gen_slice_len` (src/core/src/gen.rs lines 326-332)

```rust
match (l, h) {
    (-1, -1) => thread_rng().gen_range(0, 8),
    (l, -1) => thread_rng().gen_range(0, l as usize),
    (l, h) => thread_rng().gen_range(l as usize, h as usize),
}
``` -/

def gen_slice_len (l h : Int) (r : Oracle) (k : Nat) : Option (Nat × Nat) :=
  if l = -1 ∧ h = -1 then genRangeN r k 0 8
  else if h = -1 then genRangeN r k 0 (toU64 l)
  else genRangeN r k (toU64 l) (toU64 h)

/-! ## Generator configuration and state (src/core/src/gen.rs lines 19-146) -/

/-- `Config` (gen.rs lines 19-25). -/
structure Config where
  prog_max_len : Nat
  prog_min_len : Nat
  str_min_len : Nat
  str_max_len : Nat
  path_max_depth : Nat
deriving DecidableEq, Repr

/-- `Config::default` (gen.rs lines 27-37). -/
def Config.default : Config := ⟨15, 3, 4, 128, 4⟩

/-- `State` (gen.rs lines 64-69) plus the embedding bookkeeping.

* `res` / `strs`: the Rust `HashMap<_, Vec<_>>` pools are flattened to
  ordered association lists; the per-key `Vec` order (insertion order) is the
  filtered order of the flat list.  `State::new` seeds `strs` with an empty
  `FileName` entry, which is observably identical to the empty flat list.
* `rand`/`k`: the randomness oracle and the draw counter.
* `uflow`: set when the `args.len() - 1` (or `prog.len() - 1`) unsigned
  subtraction in `record_res` underflows — a Rust debug-build panic; release
  builds wrap, and the wrapped value is what the embedding stores. -/
structure State where
  res : List (TypeId × ArgIndex)
  strs : List (StrType × String)
  prog : Prog
  rand : Oracle
  k : Nat
  uflow : Bool

/-- `State::new` (gen.rs lines 72-79), plus the oracle and counter. -/
def State.new (prog : Prog) (r : Oracle) (k : Nat) : State :=
  ⟨[], [], prog, r, k, false⟩

/-- Draw one boolean from the oracle. -/
def State.flip (s : State) : Bool × State :=
  (s.rand.bool s.k, { s with k := s.k + 1 })

/-- Draw one natural number from the oracle. -/
def State.pick (s : State) : Nat × State :=
  (s.rand.nat s.k, { s with k := s.k + 1 })

/-- Modify the last element of a list (Rust `xs[xs.len()-1]` updates; all
call sites guarantee the list is non-empty — on the empty list Rust panics
on the underflowed index while this helper is the identity). -/
def modifyLast {α : Type} (f : α → α) : List α → List α
  | [] => []
  | [a] => [f a]
  | a :: b :: rest => a :: modifyLast f (b :: rest)

/-- `State::record_res` (gen.rs lines 81-91):

```rust
let cid = self.prog.len() - 1;
let arg_pos = self.prog.calls[cid].args.len() - 1;
let idx = self.res.entry(tid).or_insert_with(Default::default);
if is_ret { idx.push((cid, ArgPos::Ret)) } else { idx.push((cid, ArgPos::Arg(arg_pos))) }
```

Both `- 1` subtractions are on `usize`: the embedding records the wrapped
release-build value and raises `uflow` (debug builds panic there).  The
`self.prog.calls[cid]` index is a genuine panic when the program is empty,
hence `Option`. -/
def State.record_res (s : State) (tid : TypeId) (is_ret : Bool) : Option State :=
  match s.prog.calls.getLast? with
  | none => none
  | some c =>
    let cid := s.prog.calls.length - 1
    let argsLen := c.args.length
    let arg_pos := if argsLen = 0 then 2 ^ 64 - 1 else argsLen - 1
    let entry : TypeId × ArgIndex :=
      (tid, (cid, if is_ret then ArgPos.Ret else ArgPos.Arg arg_pos))
    some { s with res := s.res ++ [entry], uflow := s.uflow || argsLen == 0 }

/-- `State::record_str` (gen.rs lines 93-96). -/
def State.record_str (s : State) (t : StrType) (val : String) : State :=
  { s with strs := s.strs ++ [(t, val)] }

/-- The `Vec` behind `self.res.get(&tid)`. -/
def State.resPool (s : State) (tid : TypeId) : List ArgIndex :=
  (s.res.filter (fun e => e.1 == tid)).map (·.2)

/-- The `Vec` behind `self.strs.get(&t)`. -/
def State.strPool (s : State) (t : StrType) : List String :=
  (s.strs.filter (fun e => e.1 == t)).map (·.2)

/-- `State::try_reuse_res` (gen.rs lines 98-107): choose uniformly from the
pool of `tid`, if non-empty (no coin; `choose` consumes one draw). -/
def State.try_reuse_res (s : State) (tid : TypeId) : Option Value × State :=
  let pool := s.resPool tid
  if pool.isEmpty then (none, s)
  else
    let (i, s) := s.pick
    (some (Value.Ref (pool.getD (i % pool.length) (0, ArgPos.Ret))), s)

/-- `State::try_reuse_str` (gen.rs lines 109-118): when the pool of
`str_type` is non-empty, a fair coin decides reuse; on heads one more draw
chooses the string. -/
def State.try_reuse_str (s : State) (str_type : StrType) : Option Value × State :=
  let pool := s.strPool str_type
  if pool.isEmpty then (none, s)
  else
    let (b, s) := s.flip
    if b then
      let (i, s) := s.pick
      (some (Value.Str (pool.getD (i % pool.length) "")), s)
    else (none, s)

/-- `State::add_call` / `Prog::add_call` (gen.rs lines 121-124). -/
def State.add_call (s : State) (c : Call) : State :=
  { s with prog := s.prog.add_call c }

/-- `State::add_arg` (gen.rs lines 127-131): append an argument to the last
call. -/
def State.add_arg (s : State) (a : Arg) : State :=
  { s with prog := { s.prog with calls := modifyLast (fun c => c.add_arg a) s.prog.calls } }

/-- `State::add_ret` (gen.rs lines 133-138): set the return arg of the last
call. -/
def State.add_ret (s : State) (a : Arg) : State :=
  { s with prog := { s.prog with calls := modifyLast (fun c => { c with ret := some a }) s.prog.calls } }

/-- `State::update_val` (gen.rs lines 140-145): overwrite the value of the
last argument of the last call. -/
def State.update_val (s : State) (val : Value) : State :=
  let upd : Call → Call := fun c =>
    { c with args := modifyLast (fun a => { a with val := val }) c.args }
  { s with prog := { s.prog with calls := modifyLast upd s.prog.calls } }

/-! ## Numeric values: `gen_num` (gen.rs lines 334-429)

The ten Rust match arms (`I8` … `Isize`) all have the same three cases
(`Vals` / `Range` / `None`); the embedding parameterizes over the kind.
In-range typed Rust values are preserved by the `as i64` / `as u64` widening
casts, so `Vals`/`Range` payloads go through unchanged; the `as u64` cast of
an unsigned value is `Int.toNat`. -/

/-- Wrap a chosen in-range integer into the stored `NumValue` (`x as i64` /
`x as u64` on an already-typed value). -/
def mkNumVal (kind : NumKind) (v : Int) : Value :=
  if kind.signed then Value.Num (NumValue.Signed v)
  else Value.Num (NumValue.Unsigned v.toNat)

/-- A width-`w` random draw (`rng.gen::<iN>()` / `rng.gen::<uN>()`). -/
def mkNumRandom (kind : NumKind) (n : Nat) : Value :=
  if kind.signed then Value.Num (NumValue.Signed (toSigned kind.width n))
  else Value.Num (NumValue.Unsigned (n % 2 ^ kind.width))

/-- `gen_num` (gen.rs lines 334-429).  `Vals`: `vals.choose(&mut rng).unwrap()`
panics on an empty list; `Range`: `rng.gen_range(r.start, r.end)` panics on
an empty range. -/
def gen_num (ni : NumInfo) (s : State) : Option (Value × State) :=
  match ni.limit with
  | NumLimit.Vals vs =>
    if vs.isEmpty then none
    else
      let (i, s) := s.pick
      some (mkNumVal ni.kind (vs.getD (i % vs.length) 0), s)
  | NumLimit.Range lo hi =>
    if lo < hi then
      let (i, s) := s.pick
      some (mkNumVal ni.kind (lo + (i % (hi - lo).toNat : Nat)), s)
    else none
  | NumLimit.NoneL =>
    let (i, s) := s.pick
    some (mkNumRandom ni.kind i, s)

/-! ## Flags: `gen_flag` (gen.rs lines 220-241) -/

/-- The accumulator loop of `gen_flag`:

```rust
loop {
    if rng.gen() {
        let flag = flags.iter().choose(&mut rng).unwrap();
        val &= flag.val;
    } else { break; }
}
```

The unbounded `loop` is modelled with fuel (the loop exits as soon as one
coin comes up tails, so any run in which infinitely many coins are heads is
the probability-zero non-terminating run). -/
def gen_flag_loop (flags : List FlagDef) : Nat → Nat → State → Nat × State
  | 0, v, s => (v, s)
  | fuel + 1, v, s =>
    let (b, s) := s.flip
    if b then
      let (i, s) := s.pick
      gen_flag_loop flags fuel (v &&& (flags.getD (i % flags.length) ⟨"", 0⟩).val) s
    else (v, s)

/-- `gen_flag` (gen.rs lines 220-241).  `assert!(!flags.is_empty())`; a
first draw decides between the random-`i32` branch (`rng.gen::<f64>() >=
0.8`, oracle boolean `true`) and the flag-combination branch. -/
def gen_flag (flags : List FlagDef) (fuel : Nat) (s : State) : Option (Value × State) :=
  if flags.isEmpty then none
  else
    let (b, s) := s.flip
    if b then
      let (n, s) := s.pick
      some (Value.Num (NumValue.Signed (toSigned 32 n)), s)
    else
      let (i, s) := s.pick
      let first := (flags.getD (i % flags.length) ⟨"", 0⟩).val
      let (v, s) := gen_flag_loop flags fuel first s
      some (Value.Num (NumValue.Signed (toSigned 64 v)), s)

/-! ## Strings: `gen_str` (gen.rs lines 263-314) -/

/-- The `rand::distributions::Alphanumeric` alphabet. -/
def alphanumChars : List Char :=
  [ 'A', 'B', 'C', 'D', 'E', 'F', 'G', 'H', 'I', 'J', 'K', 'L', 'M',
    'N', 'O', 'P', 'Q', 'R', 'S', 'T', 'U', 'V', 'W', 'X', 'Y', 'Z',
    'a', 'b', 'c', 'd', 'e', 'f', 'g', 'h', 'i', 'j', 'k', 'l', 'm',
    'n', 'o', 'p', 'q', 'r', 's', 't', 'u', 'v', 'w', 'x', 'y', 'z',
    '0', '1', '2', '3', '4', '5', '6', '7', '8', '9' ]

/-- One `Alphanumeric` sample. -/
def alphanumChar (n : Nat) : Char := alphanumChars.getD (n % 62) 'A'

/-- One `Standard` `char` sample (an arbitrary unicode scalar; the draw is
truncated into the valid scalar range). -/
def uniChar (n : Nat) : Char := Char.ofNat (n % 55296)

/-- `rng.sample_iter(...).take(len)`: draw `len` characters. -/
def drawChars (f : Nat → Char) : Nat → State → List Char × State
  | 0, s => ([], s)
  | n + 1, s =>
    let (i, s) := s.pick
    let (cs, s) := drawChars f n s
    (f i :: cs, s)

/-- The filename construction loop of `gen_str` (gen.rs lines 296-311),
starting from `PathBuf::from(".")`: append alphanumeric segments; below the
depth cap a `rng.gen::<f64>() > 0.4` draw continues the loop.  The
`into_os_string().into_string()` conversion always succeeds for these
segments, so the restart branch is unreachable; the unbounded `loop` takes
fuel. -/
def gen_fname (conf : Config) : Nat → Nat → String → Nat → State → Option (Value × State)
  | 0, _, _, _, _ => none
  | fuel + 1, len, path, depth, s =>
    let (cs, s) := drawChars alphanumChar len s
    let path' := path ++ "/" ++ String.mk cs
    let depth' := depth + 1
    if depth' < conf.path_max_depth then
      let (b, s) := s.flip
      if b then gen_fname conf fuel len path' depth' s
      else some (Value.Str path', s.record_str StrType.FileName path')
    else some (Value.Str path', s.record_str StrType.FileName path')

/-- `gen_str` after the explicit-values check (gen.rs lines 271-313): draw
the length `uniform[str_min_len, str_max_len)` (panic on an empty range),
then branch by kind.  Note the `CStr` arm queries the `Str` pool
(`s.try_reuse_str(StrType::Str)`, gen.rs line 285) but records into the
`CStr` pool (line 289). -/
def gen_str_default (conf : Config) (fuel : Nat) (str_type : StrType) (s : State) : Option (Value × State) :=
  if conf.str_min_len < conf.str_max_len then
    let (i, s) := s.pick
    let len := conf.str_min_len + i % (conf.str_max_len - conf.str_min_len)
    match str_type with
    | StrType.Str =>
      match s.try_reuse_str StrType.Str with
      | (some v, s) => some (v, s)
      | (none, s) =>
        let (cs, s) := drawChars uniChar len s
        let val := String.mk cs
        some (Value.Str val, s.record_str StrType.Str val)
    | StrType.CStr =>
      match s.try_reuse_str StrType.Str with
      | (some v, s) => some (v, s)
      | (none, s) =>
        let (cs, s) := drawChars alphanumChar len s
        let val := String.mk cs
        some (Value.Str val, s.record_str StrType.CStr val)
    | StrType.FileName =>
      match s.try_reuse_str StrType.FileName with
      | (some v, s) => some (v, s)
      | (none, s) => gen_fname conf fuel len "." 0 s
  else none

/-- `gen_str` (gen.rs lines 263-314): a non-empty explicit value set
short-circuits to a uniform pick from it. -/
def gen_str (conf : Config) (fuel : Nat) (str_type : StrType)
    (vals : Option (List String)) (s : State) : Option (Value × State) :=
  match vals with
  | some vs =>
    if vs.isEmpty then gen_str_default conf fuel str_type s
    else
      let (i, s) := s.pick
      some (Value.Str (vs.getD (i % vs.length) ""), s)
  | none => gen_str_default conf fuel str_type s

/-! ## Sequence planner: `push_deps` / `choose_seq` (gen.rs lines 431-481)

The `BitSet` of visited indices is modelled as the list of marked indices;
randomness is the oracle with an explicit counter `k` (`push_deps` uses the
free function `random()`, which also draws from the thread rng). -/

/-- The row scan of `push_deps` (gen.rs lines 460-478): for each `j` of the
row of `src`, at most one threshold draw decides whether `j` is appended
(`Some`: fresh `> 0.25`, repeat `> 0.75`; `Unknown`: fresh fair coin, repeat
`> 0.875`; the `&&` short-circuit means exactly one draw per non-`None`
entry). Returns the collected `deps`, the updated visited set and counter. -/
def push_deps_row (rt : RTable) (r : Oracle) (src : Nat) :
    List Nat → List Nat → Nat → List Nat × List Nat × Nat
  | [], set, k => ([], set, k)
  | j :: js, set, k =>
    match rt.rel src j with
    | Relation.SomeR =>
      if set.contains j then
        let b := r.bool k
        let (ds, set', k') := push_deps_row rt r src js set (k + 1)
        (if b then j :: ds else ds, set', k')
      else
        let b := r.bool k
        let (ds, set', k') := push_deps_row rt r src js (if b then j :: set else set) (k + 1)
        (if b then j :: ds else ds, set', k')
    | Relation.UnknownR =>
      if set.contains j then
        let b := r.bool k
        let (ds, set', k') := push_deps_row rt r src js set (k + 1)
        (if b then j :: ds else ds, set', k')
      else
        let b := r.bool k
        let (ds, set', k') := push_deps_row rt r src js (if b then j :: set else set) (k + 1)
        (if b then j :: ds else ds, set', k')
    | Relation.NoneR => push_deps_row rt r src js set k

/-- `push_deps` (gen.rs lines 454-481):

```rust
if i >= seq.len() || seq.len() >= conf.prog_max_len { return; }
let index = seq[i];
... collect deps over row `index` ...
seq.extend(deps);
push_deps(rs, set, seq, i + 1, conf);
```

Returns `(seq, set, k)`. -/
def push_deps (rt : RTable) (r : Oracle) (conf : Config) :
    List Nat → List Nat → Nat → Nat → List Nat × List Nat × Nat
  | seq, set, i, k =>
    if h : i ≥ seq.length ∨ seq.length ≥ conf.prog_max_len then (seq, set, k)
    else
      let index := seq.getD i 0
      let (deps, set', k') := push_deps_row rt r index (List.range rt.n) set k
      push_deps rt r conf (seq ++ deps) set' (i + 1) k'
termination_by seq _ i _ => conf.prog_max_len - i
decreasing_by
  push_neg at h
  omega

/-- `push_deps` only extends the sequence. -/
theorem push_deps_length_le (rt : RTable) (r : Oracle) (conf : Config) :
    ∀ (seq set : List Nat) (i k : Nat),
      seq.length ≤ (push_deps rt r conf seq set i k).1.length := by
  intro seq set i k
  induction seq, set, i, k using push_deps.induct rt r conf with
  | case1 seq set i k h => rw [push_deps]; simp [h]
  | case2 seq set i k h index deps set' k' hrow ih =>
    rw [push_deps]
    simp only [h, dite_false]
    have hrow' : push_deps_row rt r (seq.getD i 0) (List.range rt.n) set k = (deps, set', k') := hrow
    rw [hrow']
    simp only
    calc seq.length ≤ (seq ++ deps).length := by simp
      _ ≤ _ := ih

/-- The iteration of `choose_seq` (gen.rs lines 438-450): append a uniform
index, mark it, run the dependency closure from its position, then
`if seq.len() <= conf.prog_max_len && rng.gen() { continue } else { break }`
(the coin is only drawn when the length check passes). -/
def choose_seq_loop (rt : RTable) (conf : Config) (r : Oracle)
    (seq set : List Nat) (k : Nat) : List Nat × Nat :=
  let res := push_deps rt r conf (seq ++ [r.nat k % rt.n]) (r.nat k % rt.n :: set) seq.length (k + 1)
  if h : res.1.length ≤ conf.prog_max_len then
    if r.bool res.2.2 then choose_seq_loop rt conf r res.1 res.2.1 (res.2.2 + 1)
    else (res.1, res.2.2 + 1)
  else (res.1, res.2.2)
termination_by conf.prog_max_len + 1 - seq.length
decreasing_by
  have h1 := push_deps_length_le rt r conf (seq ++ [r.nat k % rt.n]) (r.nat k % rt.n :: set) seq.length (k + 1)
  simp only [List.length_append, List.length_cons, List.length_nil] at h1
  simp only [res] at h ⊢
  omega

/-- `choose_seq` (gen.rs lines 431-452): `assert!(!rs.is_empty())` then the
seeding loop starting from the empty sequence and visited set.  Note the
seeded position handed to `push_deps` is `seq.len() - 1`, i.e. the length
before the push. -/
def choose_seq (rt : RTable) (conf : Config) (r : Oracle) (k : Nat) : Option (List Nat × Nat) :=
  if rt.n = 0 then none
  else some (choose_seq_loop rt conf r [] [] k)

/-! ## The value builder: `gen_value` and helpers (gen.rs lines 167-332)

The Rust recursion goes through `TypeId` indirections in the schema and can
loop on cyclic types; the embedding gives every recursive call fuel
(decreasing at each `gen_value` dispatch), with exhaustion mapped to `none`. -/

mutual

/-- `gen_value` (gen.rs lines 167-187): dispatch on the `TypeInfo` of `tid`.
`Ptr`: `assert!(*depth == 1)`. -/
def gen_value (t : Target) (conf : Config) : Nat → TypeId → State → Option (Value × State)
  | 0, _, _ => none
  | fuel + 1, tid, s =>
    match t.type_of tid with
    | none => none
    | some ti =>
      match ti with
      | TypeInfo.Num ni => gen_num ni s
      | TypeInfo.Ptr dir inner depth =>
        if depth = 1 then gen_ptr t conf fuel dir inner s else none
      | TypeInfo.Slice inner l h => gen_slice t conf fuel inner l h s
      | TypeInfo.Str st vals => gen_str conf fuel st vals s
      | TypeInfo.Struct _ fields => gen_struct t conf fuel fields s
      | TypeInfo.Union _ fields => gen_union t conf fuel fields s
      | TypeInfo.Flag _ flags => gen_flag flags fuel s
      | TypeInfo.Alias _ under => gen_alias t conf fuel tid under s
      | TypeInfo.Res under => gen_res t conf fuel tid under s
      | TypeInfo.Len _ _ _ => some (Value.Num (NumValue.Unsigned 0), s)
termination_by fuel tid s => (fuel, 0)

/-- `gen_alias` (gen.rs lines 189-195): a resource alias behaves as `Res`
keyed by the alias id, otherwise recurse into the underlying type. -/
def gen_alias (t : Target) (conf : Config) (fuel : Nat) (tid under : TypeId) (s : State) :
    Option (Value × State) :=
  if t.is_res tid then gen_res t conf fuel tid under s
  else gen_value t conf fuel under s
termination_by (fuel, 2)

/-- `gen_res` (gen.rs lines 197-203): try to reuse a recorded handle of
`res_tid`; otherwise generate the underlying type fresh. -/
def gen_res (t : Target) (conf : Config) (fuel : Nat) (res_tid tid : TypeId) (s : State) :
    Option (Value × State) :=
  match s.try_reuse_res res_tid with
  | (some v, s) => some (v, s)
  | (none, s) => gen_value t conf fuel tid s
termination_by (fuel, 1)

/-- `gen_ptr` (gen.rs lines 205-218): a non-`In` pointer records a resource
pointee as a produced handle and yields the `Default` placeholder; an `In`
pointer generates the pointee with probability 0.9 (`gen::<f64>() >= 0.1`,
oracle boolean `true`) and a null pointer otherwise. -/
def gen_ptr (t : Target) (conf : Config) (fuel : Nat) (dir : PtrDir) (tid : TypeId) (s : State) :
    Option (Value × State) :=
  if dir ≠ PtrDir.In then
    if t.is_res tid then
      match s.record_res tid false with
      | none => none
      | some s => some (Value.default_val tid t, s)
    else some (Value.default_val tid t, s)
  else
    let (b, s) := s.flip
    if b then gen_value t conf fuel tid s
    else some (Value.NoneV, s)
termination_by (fuel, 1)

/-- `gen_union` (gen.rs lines 243-253): `assert!(!fields.is_empty())`, pick
a field uniformly, recurse, tag the result. -/
def gen_union (t : Target) (conf : Config) (fuel : Nat) (fields : List FieldDef) (s : State) :
    Option (Value × State) :=
  if fields.isEmpty then none
  else
    let (i, s) := s.pick
    match gen_value t conf fuel (fields.getD (i % fields.length) ⟨"", 0⟩).tid s with
    | none => none
    | some (v, s) => some (Value.Opt (i % fields.length) v, s)
termination_by (fuel, 1)

/-- `gen_struct` (gen.rs lines 255-261): generate every field in order. -/
def gen_struct (t : Target) (conf : Config) (fuel : Nat) (fields : List FieldDef) (s : State) :
    Option (Value × State) :=
  match gen_value_list t conf fuel (fields.map (·.tid)) s with
  | none => none
  | some (vs, s) => some (Value.Group vs, s)
termination_by (fuel, 1)

/-- `gen_slice` (gen.rs lines 316-324): draw the length via
`gen_slice_len`, then generate that many element values. -/
def gen_slice (t : Target) (conf : Config) (fuel : Nat) (tid : TypeId) (l h : Int) (s : State) :
    Option (Value × State) :=
  match gen_slice_len l h s.rand s.k with
  | none => none
  | some (len, k') =>
    match gen_value_list t conf fuel (List.replicate len tid) { s with k := k' } with
    | none => none
    | some (vs, s) => some (Value.Group vs, s)
termination_by (fuel, 1)

/-- Generate a list of values in order (the `for` loops of `gen_struct` /
`gen_slice`). -/
def gen_value_list (t : Target) (conf : Config) : Nat → List TypeId → State → Option (List Value × State)
  | 0, _, _ => none
  | _ + 1, [], s => some ([], s)
  | fuel + 1, tid :: tids, s =>
    match gen_value t conf fuel tid s with
    | none => none
    | some (v, s) =>
      match gen_value_list t conf fuel tids s with
      | none => none
      | some (vs, s) => some (v :: vs, s)
termination_by fuel tids s => (fuel, 0)

end

/-! ## `gen_call` and `gen` (gen.rs lines 39-62 and 148-165) -/

/-- The parameter loop of `gen_call` (gen.rs lines 151-157): for each
parameter append a placeholder arg, generate its value, overwrite. -/
def gen_args (t : Target) (conf : Config) (fuel : Nat) :
    List FieldDef → State → Option State
  | [], s => some s
  | p :: ps, s =>
    let s := s.add_arg (Arg.new p.tid)
    match gen_value t conf fuel p.tid s with
    | none => none
    | some (val, s) => gen_args t conf fuel ps (s.update_val val)

/-- `gen_call` (gen.rs lines 148-165): append the call, generate the
arguments, and if the function returns a resource type attach a placeholder
return arg and record the produced handle. -/
def gen_call (t : Target) (conf : Config) (fuel : Nat) (f : FnInfo) (s : State) : Option State :=
  let s := s.add_call (Call.new f.id)
  match gen_args t conf fuel f.params s with
  | none => none
  | some s =>
    match f.r_tid with
    | some tid =>
      if t.is_res tid then (s.add_ret (Arg.new tid)).record_res tid true
      else some s
    | none => some s

/-- The sequence loop of `gen` (gen.rs lines 58-60): `g.fns[i]` panics on an
out-of-range planner index. -/
def gen_calls (t : Target) (conf : Config) (fuel : Nat) (g : GroupDef) :
    List Nat → State → Option State
  | [], s => some s
  | i :: is', s =>
    match g.fns[i]? with
    | none => none
    | some f =>
      match gen_call t conf fuel f s with
      | none => none
      | some s => gen_calls t conf fuel g is' s

/-- Placeholder entry for the (unreachable) out-of-range default of the
group draw. -/
def defaultRT : GroupId × RTable := (0, ⟨0, fun _ _ => Relation.NoneR⟩)

/-- `gen` (gen.rs lines 39-62), returning the final generator state:
`assert!(!rs.is_empty())`, `assert_eq!(t.groups.len(), rs.len())`, choose a
group uniformly among the rtable keys (the `HashMap` is an association
list; iteration order is covered by the oracle), plan the sequence, then
generate each call from the fresh `State`. -/
def genS (t : Target) (rs : List (GroupId × RTable)) (conf : Config) (r : Oracle) (fuel : Nat) :
    Option State :=
  if rs.isEmpty then none
  else if t.groups.length ≠ rs.length then none
  else
    match (t.groups.find? (fun e => e.1 == (rs.getD (r.nat 0 % rs.length) defaultRT).1)).map (·.2) with
    | none => none
    | some g =>
      match choose_seq (rs.getD (r.nat 0 % rs.length) defaultRT).2 conf r 1 with
      | none => none
      | some (seq, k) =>
        gen_calls t conf fuel g seq
          (State.new (Prog.new (rs.getD (r.nat 0 % rs.length) defaultRT).1) r k)

/-- `gen` (gen.rs lines 39-62): the generated program (`s.prog`). -/
def gen (t : Target) (rs : List (GroupId × RTable)) (conf : Config) (r : Oracle) (fuel : Nat) :
    Option Prog :=
  (genS t rs conf r fuel).map (·.prog)

/-! ## Case record: `TestCaseRecord` (src/fuzzer/src/report.rs)

The record holds three bounded `CircularQueue` buffers of case payloads
(rendered program, coverage counts, crash data) plus the shared id counter
`id_n` behind a mutex.  The embedding keeps the id-assignment structure:
each insertion event appends `(kind, assigned id)` to an insertion log (the
mutex serializes insertions, so a run is a list of events); the three
buffers are the by-kind projections of the log.  Payloads and the
ring-buffer eviction do not affect id assignment and are abstracted. -/

/-- Which buffer an insertion goes to (`insert_executed` / `insert_failed`
/ `insert_crash`, report.rs lines 83-162). -/
inductive CaseKind
  | executed
  | failed
  | crashed
deriving DecidableEq, Repr

/-- The id counter plus the insertion log. -/
structure TestCaseRecord where
  id_n : Nat
  log : List (CaseKind × Nat)
deriving DecidableEq, Repr

/-- `TestCaseRecord::new` (report.rs lines 68-81): `id_n` starts at 0. -/
def TestCaseRecord.new : TestCaseRecord := ⟨0, []⟩

/-- `TestCaseRecord::next_id` (report.rs lines 241-246): return the current
counter and increment it. -/
def TestCaseRecord.next_id (r : TestCaseRecord) : Nat × TestCaseRecord :=
  (r.id_n, { r with id_n := r.id_n + 1 })

/-- One insertion (`insert_executed` / `insert_failed` / `insert_crash`,
report.rs lines 83-162): obtain the id from `next_id`, push the case. -/
def TestCaseRecord.insert_case (r : TestCaseRecord) (kind : CaseKind) : TestCaseRecord :=
  let (id, r) := r.next_id
  { r with log := r.log ++ [(kind, id)] }

/-- The contents of one buffer (`normal` / `failed` / `crash`): the by-kind
projection of the insertion log (eviction by the bounded ring only drops a
prefix, which cannot affect distinctness or relative order of ids). -/
def TestCaseRecord.buffer (r : TestCaseRecord) (kind : CaseKind) : List Nat :=
  (r.log.filter (fun e => e.1 == kind)).map (·.2)

/-- Run a sequence of insertion events. -/
def run_record : TestCaseRecord → List CaseKind → TestCaseRecord
  | r, [] => r
  | r, e :: es => run_record (r.insert_case e) es

/-! ## Reference and slot predicates over programs -/

mutual

/-- All `Ref` targets occurring inside a value. -/
def refsIn : Value → List ArgIndex
  | Value.Num _ => []
  | Value.Str _ => []
  | Value.Ref x => [x]
  | Value.Group vs => refsInList vs
  | Value.Opt _ v => refsIn v
  | Value.NoneV => []
  | Value.Default _ => []

/-- All `Ref` targets occurring inside a list of values. -/
def refsInList : List Value → List ArgIndex
  | [] => []
  | v :: vs => refsIn v ++ refsInList vs

end

/-- All `Ref` targets occurring in the argument values of a call. -/
def callRefs : List Arg → List ArgIndex
  | [] => []
  | a :: args => refsIn a.val ++ callRefs args

/-- Does `x` name an existing slot of program `p` (the call exists, and the
slot is its present return slot resp. an argument index in range)? -/
def slotOK (p : Prog) (x : ArgIndex) : Bool :=
  match p.calls[x.1]? with
  | none => false
  | some c =>
    match x.2 with
    | ArgPos.Ret => c.ret.isSome
    | ArgPos.Arg j => j < c.args.length

/-- The declared TypeId of slot `x` of program `p`. -/
def slotTid (p : Prog) (x : ArgIndex) : Option TypeId :=
  match p.calls[x.1]? with
  | none => none
  | some c =>
    match x.2 with
    | ArgPos.Ret => c.ret.map (·.tid)
    | ArgPos.Arg j => (c.args[j]?).map (·.tid)

/-! ## Claim C10: totality domain of `gen_slice_len` -/

/-- An oracle with all-tails coins and all-zero numeric draws (used for
concrete witness runs). -/
def oracleZ : Oracle := ⟨fun _ => false, fun _ => 0⟩

/-- C10 (amended): `gen_slice_len l h` returns normally exactly when the
bounds fall in the first arm `(-1,-1)`, or in the second arm (`h = -1`,
`l ≠ -1`) with a non-zero `usize` cast of `l` — which includes every
`l ≤ -2`, not only `l ≥ 1` — or in the third arm with `(l as usize) <
(h as usize)`.  In particular `(-1, h≥0)`, `(0,-1)` and `0 ≤ l, l ≥ h`
panic, and under the claimed preconditions the returned length lies in
`[0,8)`, `[0,l)` resp. `[l,h)`. -/
theorem gen_slice_len_domain (l h : Int) (r : Oracle) (k : Nat) :
    ((gen_slice_len l h r k).isSome = true ↔
      ((l = -1 ∧ h = -1) ∨ (¬(l = -1 ∧ h = -1) ∧ h = -1 ∧ 0 < toU64 l) ∨
        (¬(l = -1 ∧ h = -1) ∧ h ≠ -1 ∧ toU64 l < toU64 h))) ∧
    (∀ n k', l = -1 → h = -1 → gen_slice_len l h r k = some (n, k') → n < 8) ∧
    (∀ n k', 1 ≤ l → l < 2 ^ 63 → h = -1 → gen_slice_len l h r k = some (n, k') →
      (n : Int) < l) ∧
    (∀ n k', 0 ≤ l → l < h → h < 2 ^ 63 → gen_slice_len l h r k = some (n, k') →
      l ≤ (n : Int) ∧ (n : Int) < h) := by
  have htoU : ∀ x : Int, 0 ≤ x → x < 2 ^ 64 → toU64 x = x.toNat := by
    intro x h0 h1
    unfold toU64
    rw [Int.emod_eq_of_lt h0 (by exact_mod_cast h1)]
  have harm : gen_slice_len l h r k =
      (if l = -1 ∧ h = -1 then some (r.nat k % 8, k + 1)
       else if h = -1 then
         (if 0 < toU64 l then some (r.nat k % toU64 l, k + 1) else none)
       else if toU64 l < toU64 h then
         some (toU64 l + r.nat k % (toU64 h - toU64 l), k + 1)
       else none) := by
    unfold gen_slice_len genRangeN
    by_cases h1 : l = -1 ∧ h = -1
    · simp [h1]
    · simp only [h1, if_false]
      by_cases h2 : h = -1
      · by_cases h3 : 0 < toU64 l
        · simp [h2, h3]
        · simp [h2, h3]
      · by_cases h4 : toU64 l < toU64 h
        · simp [h2, h4]
        · simp [h2, h4]
  refine ⟨?_, ?_, ?_, ?_⟩
  · rw [harm]
    by_cases h1 : l = -1 ∧ h = -1
    · simp [h1]
    · by_cases h2 : h = -1
      · have hl : l ≠ -1 := fun hc => h1 ⟨hc, h2⟩
        by_cases h3 : 0 < toU64 l
        · simp [h1, hl, h2, h3]
        · simp [h1, hl, h2, h3]
      · by_cases h4 : toU64 l < toU64 h
        · simp [h1, h2, h4]
        · simp [h1, h2, h4]
  · intro n k' hl hh heq
    subst hl
    subst hh
    rw [harm] at heq
    norm_num at heq
    have h8 : r.nat k % 8 < 8 := Nat.mod_lt _ (by omega)
    omega
  · intro n k' hl1 hl2 hh heq
    subst hh
    have hne : ¬(l = -1 ∧ (-1 : Int) = -1) := by intro hc; omega
    have hcast : toU64 l = l.toNat := htoU l (by omega) (by omega)
    have hpos : 0 < toU64 l := by rw [hcast]; omega
    rw [harm] at heq
    rw [if_neg hne, if_pos rfl, if_pos hpos] at heq
    simp only [Option.some.injEq, Prod.mk.injEq] at heq
    have hmod : r.nat k % toU64 l < toU64 l := Nat.mod_lt _ hpos
    omega
  · intro n k' hl0 hlh hh2 heq
    have hne : ¬(l = -1 ∧ h = -1) := by intro hc; omega
    have hhne : h ≠ -1 := by omega
    have hcl : toU64 l = l.toNat := htoU l hl0 (by omega)
    have hch : toU64 h = h.toNat := htoU h (by omega) (by omega)
    have hlt : toU64 l < toU64 h := by rw [hcl, hch]; omega
    rw [harm] at heq
    rw [if_neg hne, if_neg hhne, if_pos hlt] at heq
    simp only [Option.some.injEq, Prod.mk.injEq] at heq
    have hmod : r.nat k % (toU64 h - toU64 l) < toU64 h - toU64 l := Nat.mod_lt _ (by omega)
    constructor <;> omega

/-- C10 counterexample: the claim's totality precondition excludes
`(l,h) = (-2,-1)`, yet `gen_slice_len (-2) (-1)` returns normally (the
second arm casts `-2` to the huge `usize` `2^64 - 2`, a non-empty range). -/
theorem gen_slice_len_claim_counterexample :
    (gen_slice_len (-2) (-1) oracleZ 0).isSome = true ∧
    ¬(((-2 : Int) = -1 ∧ (-1 : Int) = -1) ∨ ((-1 : Int) = -1 ∧ 1 ≤ (-2 : Int)) ∨
      (0 ≤ (-2 : Int) ∧ (-2 : Int) < -1)) := by
  constructor
  · decide
  · intro hc
    rcases hc with ⟨h1, _⟩ | ⟨_, h2⟩ | ⟨h3, _⟩ <;> omega

/-- C10 witness: the amended theorem applied at `(l,h) = (10,20)` with the
all-zero oracle, which draws length 10. -/
theorem gen_slice_len_domain_witness :
    (0 : Int) ≤ 10 ∧ (10 : Int) < 20 ∧ (20 : Int) < 2 ^ 63 ∧
      ((10 : Int) ≤ ((10 : Nat) : Int) ∧ (((10 : Nat) : Int) < 20)) :=
  ⟨by norm_num, by norm_num, by norm_num,
    (gen_slice_len_domain 10 20 oracleZ 0).2.2.2 10 1 (by norm_num) (by norm_num)
      (by norm_num) (by decide)⟩

/-! ## Claim C4: the flag-combination branch of `gen_flag` -/

/-- `a & x₁ & x₂ & …` — the accumulator shape of the combination loop. -/
def and_fold (a : Nat) (l : List Nat) : Nat := l.foldl (· &&& ·) a

/-- The bitwise OR of all declared flag values. -/
def or_all (flags : List FlagDef) : Nat := (flags.map FlagDef.val).foldl (· ||| ·) 0

theorem and_fold_testBit {a : Nat} {l : List Nat} {i : Nat}
    (h : (and_fold a l).testBit i = true) : a.testBit i = true := by
  induction l generalizing a with
  | nil => exact h
  | cons x xs ih =>
    have := ih (a := a &&& x) h
    rw [Nat.testBit_and] at this
    exact (Bool.and_eq_true _ _ ▸ this).1

theorem or_fold_testBit (a : Nat) (l : List Nat) (i : Nat) :
    (l.foldl (· ||| ·) a).testBit i = (a.testBit i || l.any (fun x => x.testBit i)) := by
  induction l generalizing a with
  | nil => simp
  | cons x xs ih =>
    simp only [List.foldl_cons, List.any_cons]
    rw [ih, Nat.testBit_or, Bool.or_assoc]

/-- The combination loop only ANDs declared flag values into the
accumulator. -/
theorem gen_flag_loop_shape (flags : List FlagDef) (hne : flags ≠ []) :
    ∀ (fuel v₀ : Nat) (s : State),
      ∃ picks : List Nat, (∀ x ∈ picks, x ∈ flags.map FlagDef.val) ∧
        (gen_flag_loop flags fuel v₀ s).1 = and_fold v₀ picks := by
  intro fuel
  induction fuel with
  | zero => intro v₀ s; exact ⟨[], by simp, rfl⟩
  | succ n ih =>
    intro v₀ s
    rw [gen_flag_loop]
    by_cases hb : (s.flip).1 = true
    · simp only [hb, if_true]
      set s₁ := (s.flip).2
      set j := (s₁.pick).1 % flags.length with hj
      have hlen : 0 < flags.length := List.length_pos.mpr hne
      have hjlt : j < flags.length := Nat.mod_lt _ hlen
      obtain ⟨picks, hmem, hshape⟩ :=
        ih (v₀ &&& (flags.getD j ⟨"", 0⟩).val) (s₁.pick).2
      refine ⟨(flags.getD j ⟨"", 0⟩).val :: picks, ?_, ?_⟩
      · intro x hx
        rcases List.mem_cons.mp hx with hx | hx
        · subst hx
          rw [List.getD_eq_getElem _ _ hjlt]
          exact List.mem_map_of_mem _ (List.getElem_mem hjlt)
        · exact hmem x hx
      · exact hshape
    · simp only [Bool.not_eq_true] at hb
      simp only [hb, if_false]
      exact ⟨[], by simp, rfl⟩

/-- C4: whenever `gen_flag` takes the flag-combination branch (the first
threshold draw is `false`, i.e. `rng.gen::<f64>() < 0.8`), the produced
bit pattern `v` is the bitwise AND of one or more declared flag values, and
in particular `v & !(f₁ | f₂ | …) == 0` for the OR of all declared values
(64-bit complement). -/
theorem gen_flag_comb_submask (flags : List FlagDef) (fuel : Nat) (s : State)
    (hne : flags ≠ []) (hbranch : s.rand.bool s.k = false)
    (hw : ∀ f ∈ flags, f.val < 2 ^ 64) :
    ∃ v s', gen_flag flags fuel s = some (Value.Num (NumValue.Signed (toSigned 64 v)), s') ∧
      (∃ x ∈ flags.map FlagDef.val, ∃ picks : List Nat,
        (∀ y ∈ picks, y ∈ flags.map FlagDef.val) ∧ v = and_fold x picks) ∧
      v &&& (2 ^ 64 - 1 ^^^ or_all flags) = 0 := by
  have hlen : 0 < flags.length := List.length_pos.mpr hne
  rw [gen_flag]
  have hemp : flags.isEmpty = false := by
    cases flags with
    | nil => exact absurd rfl hne
    | cons a l => rfl
  rw [hemp]
  simp only [Bool.false_eq_true, if_false]
  have hflip : (s.flip).1 = false := hbranch
  rw [hflip]
  simp only [Bool.false_eq_true, if_false]
  set s₁ := (s.flip).2 with hs₁
  set j := (s₁.pick).1 % flags.length with hj
  have hjlt : j < flags.length := Nat.mod_lt _ hlen
  set first := (flags.getD j ⟨"", 0⟩).val with hfirst
  have hfmem : first ∈ flags.map FlagDef.val := by
    rw [hfirst, List.getD_eq_getElem _ _ hjlt]
    exact List.mem_map_of_mem _ (List.getElem_mem hjlt)
  obtain ⟨picks, hmem, hshape⟩ := gen_flag_loop_shape flags hne fuel first (s₁.pick).2
  set v := (gen_flag_loop flags fuel first (s₁.pick).2).1 with hv
  refine ⟨v, (gen_flag_loop flags fuel first (s₁.pick).2).2, rfl, ⟨first, hfmem, picks, hmem, hshape⟩, ?_⟩
  -- the mask property
  have hfirst_lt : first < 2 ^ 64 := by
    rcases List.mem_map.mp hfmem with ⟨f, hf, hfv⟩
    exact hfv ▸ hw f hf
  apply Nat.eq_of_testBit_eq
  intro i
  simp only [Nat.testBit_and, Nat.zero_testBit]
  by_cases hvb : v.testBit i = true
  · have hfb : first.testBit i = true := by
      have := hvb
      rw [hshape] at this
      exact and_fold_testBit this
    by_cases hi : i < 64
    · have hor : (or_all flags).testBit i = true := by
        unfold or_all
        rw [or_fold_testBit]
        have : (flags.map FlagDef.val).any (fun x => x.testBit i) = true :=
          List.any_eq_true.mpr ⟨first, hfmem, hfb⟩
        rw [this]
        simp
      rw [Nat.testBit_xor, Nat.testBit_two_pow_sub_one]
      simp [hi, hor]
    · have hlt64 : first < 2 ^ i :=
        lt_of_lt_of_le hfirst_lt (Nat.pow_le_pow_right (by omega) (by omega))
      rw [Nat.testBit_lt_two_pow hlt64] at hfb
      exact absurd hfb (by simp)
  · rw [Bool.not_eq_true] at hvb
    simp [hvb]

/-- A concrete flag list `{A=1, B=2, C=4}` (spec scenario S4). -/
def flagsABC : List FlagDef := [⟨"A", 1⟩, ⟨"B", 2⟩, ⟨"C", 4⟩]

/-- A state over the all-tails/all-zeros oracle. -/
def stateZ : State := State.new (Prog.new 0) oracleZ 0

/-- C4 witness: the combination-branch theorem applied to the concrete flag
list `{1,2,4}` and the all-tails oracle. -/
theorem gen_flag_comb_submask_witness :
    flagsABC ≠ [] ∧ stateZ.rand.bool stateZ.k = false ∧
      (∃ v s', gen_flag flagsABC 5 stateZ =
          some (Value.Num (NumValue.Signed (toSigned 64 v)), s') ∧
        (∃ x ∈ flagsABC.map FlagDef.val, ∃ picks : List Nat,
          (∀ y ∈ picks, y ∈ flagsABC.map FlagDef.val) ∧ v = and_fold x picks) ∧
        v &&& (2 ^ 64 - 1 ^^^ or_all flagsABC) = 0) :=
  ⟨by decide, rfl, gen_flag_comb_submask flagsABC 5 stateZ (by decide) rfl (by decide)⟩

/-! ## Claim C7: `gen_num` under `Vals` and `Range` limits -/

/-- The widened mathematical value of an emitted number. -/
def numToInt : Value → Int
  | Value.Num (NumValue.Signed v) => v
  | Value.Num (NumValue.Unsigned v) => (v : Int)
  | _ => 0

/-- C7: for every numeric kind, a non-empty `Vals` limit yields a member of
the value list (after widening; unsigned value lists are lists of
non-negative typed values), and a non-empty `Range(lo,hi)` limit yields a
number `n` with `lo ≤ n < hi`. -/
theorem gen_num_limits (kind : NumKind) (vs : List Int) (lo hi : Int) (s : State) :
    (vs ≠ [] → (kind.signed = false → ∀ x ∈ vs, 0 ≤ x) →
      ∃ v ∈ vs, ∃ s', gen_num ⟨kind, NumLimit.Vals vs⟩ s = some (mkNumVal kind v, s') ∧
        numToInt (mkNumVal kind v) = v) ∧
    (lo < hi → (kind.signed = false → 0 ≤ lo) →
      ∃ n s', gen_num ⟨kind, NumLimit.Range lo hi⟩ s = some (n, s') ∧
        lo ≤ numToInt n ∧ numToInt n < hi) := by
  constructor
  · intro hne hpos
    have hlen : 0 < vs.length := List.length_pos.mpr hne
    have hemp : vs.isEmpty = false := by
      cases vs with
      | nil => exact absurd rfl hne
      | cons a l => rfl
    have hjlt : (s.pick).1 % vs.length < vs.length := Nat.mod_lt _ hlen
    set v := vs.getD ((s.pick).1 % vs.length) 0 with hv
    have hvm : v ∈ vs := by
      rw [hv, List.getD_eq_getElem _ _ hjlt]
      exact List.getElem_mem hjlt
    refine ⟨v, hvm, (s.pick).2, ?_, ?_⟩
    · rw [gen_num]
      simp only [hemp, Bool.false_eq_true, if_false]
    · unfold mkNumVal numToInt
      by_cases hs : kind.signed = true
      · simp [hs]
      · rw [Bool.not_eq_true] at hs
        simp only [hs, Bool.false_eq_true, if_false]
        exact Int.toNat_of_nonneg (hpos hs v hvm)
  · intro hlt hpos
    have htpos : 0 < (hi - lo).toNat := by omega
    have hmod : ((s.pick).1 % (hi - lo).toNat : Nat) < (hi - lo).toNat :=
      Nat.mod_lt _ htpos
    set c : Int := lo + ((s.pick).1 % (hi - lo).toNat : Nat) with hc
    have hcb : lo ≤ c ∧ c < hi := by
      constructor <;> omega
    have hnum : numToInt (mkNumVal kind c) = c := by
      unfold mkNumVal numToInt
      by_cases hs : kind.signed = true
      · simp [hs]
      · rw [Bool.not_eq_true] at hs
        simp only [hs, Bool.false_eq_true, if_false]
        exact Int.toNat_of_nonneg (by have := hpos hs; omega)
    refine ⟨mkNumVal kind c, (s.pick).2, ?_, ?_, ?_⟩
    · rw [gen_num]
      simp only [hlt, if_true]
    · rw [hnum]; exact hcb.1
    · rw [hnum]; exact hcb.2

/-- C7 witness: the theorem applied at `i32` with `Vals [3,5]` and at
`Range(10,20)` (the all-zero oracle draws `3` resp. `10`). -/
theorem gen_num_limits_witness :
    ([3, 5] : List Int) ≠ [] ∧ (10 : Int) < 20 ∧
      (∃ v ∈ ([3, 5] : List Int), ∃ s',
        gen_num ⟨NumKind.i32, NumLimit.Vals [3, 5]⟩ stateZ = some (mkNumVal NumKind.i32 v, s') ∧
          numToInt (mkNumVal NumKind.i32 v) = v) ∧
      (∃ n s', gen_num ⟨NumKind.i32, NumLimit.Range 10 20⟩ stateZ = some (n, s') ∧
        10 ≤ numToInt n ∧ numToInt n < 20) :=
  ⟨by decide, by norm_num,
    (gen_num_limits NumKind.i32 [3, 5] 10 20 stateZ).1 (by decide) (by decide),
    (gen_num_limits NumKind.i32 [3, 5] 10 20 stateZ).2 (by norm_num) (by decide)⟩

/-! ## Claim C8: case-id uniqueness and monotonicity -/

theorem run_record_invariant (evs : List CaseKind) :
    ∀ r : TestCaseRecord, (∀ e ∈ r.log, e.2 < r.id_n) →
      r.log.Pairwise (fun a b => a.2 < b.2) →
      (∀ e ∈ (run_record r evs).log, e.2 < (run_record r evs).id_n) ∧
        (run_record r evs).log.Pairwise (fun a b => a.2 < b.2) := by
  induction evs with
  | nil => intro r hb hp; exact ⟨hb, hp⟩
  | cons e es ih =>
    intro r hb hp
    apply ih
    · intro x hx
      unfold TestCaseRecord.insert_case TestCaseRecord.next_id at hx ⊢
      simp only [List.mem_append, List.mem_singleton] at hx
      rcases hx with hx | hx
      · exact Nat.lt_succ_of_lt (hb x hx)
      · subst hx; exact Nat.lt_succ_self _
    · unfold TestCaseRecord.insert_case TestCaseRecord.next_id
      simp only
      rw [List.pairwise_append]
      refine ⟨hp, List.pairwise_singleton _ _, ?_⟩
      intro a ha b hbm
      simp only [List.mem_singleton] at hbm
      subst hbm
      exact hb a ha

/-- C8: every insertion into the executed / failed / crashed record draws
its id from the single shared counter (`next_id`), which starts at 0 and
increments by exactly one per insertion; hence over any insertion sequence
the assigned ids are strictly increasing in insertion order (so pairwise
distinct), and each per-kind buffer inherits strictly increasing ids. -/
theorem record_ids_strictmono (evs : List CaseKind) :
    (run_record TestCaseRecord.new evs).log.Pairwise (fun a b => a.2 < b.2) ∧
      ∀ kind, ((run_record TestCaseRecord.new evs).buffer kind).Pairwise (· < ·) := by
  have h := run_record_invariant evs TestCaseRecord.new (by simp [TestCaseRecord.new])
    (by simp [TestCaseRecord.new])
  refine ⟨h.2, ?_⟩
  intro kind
  unfold TestCaseRecord.buffer
  rw [List.pairwise_map]
  exact h.2.filter _

/-! ## Claim C5: dependency closure appends only related indices -/

/-- Everything the row scan collects is `Some`- or `Unknown`-related to the
row's function. -/
theorem push_deps_row_related (rt : RTable) (r : Oracle) (src : Nat) :
    ∀ (js set : List Nat) (k : Nat),
      ∀ x ∈ (push_deps_row rt r src js set k).1, rt.rel src x ≠ Relation.NoneR := by
  intro js
  induction js with
  | nil => intro set k x hx; simp [push_deps_row] at hx
  | cons j js ih =>
    intro set k x hx
    rw [push_deps_row] at hx
    cases hrel : rt.rel src j with
    | NoneR =>
      rw [hrel] at hx
      exact ih set k x hx
    | SomeR =>
      rw [hrel] at hx
      by_cases hset : set.contains j
      · simp only [hset, if_true] at hx
        rcases hp : push_deps_row rt r src js set (k + 1) with ⟨ds, set', k'⟩
        rw [hp] at hx
        simp only at hx
        by_cases hb : r.bool k = true
        · simp only [hb, if_true, List.mem_cons] at hx
          rcases hx with hx | hx
          · subst hx; rw [hrel]; simp
          · have := ih set (k + 1) x (by rw [hp]; exact hx)
            exact this
        · rw [Bool.not_eq_true] at hb
          simp only [hb, Bool.false_eq_true, if_false] at hx
          exact ih set (k + 1) x (by rw [hp]; exact hx)
      · simp only [hset, Bool.false_eq_true, if_false] at hx
        rcases hp : push_deps_row rt r src js (if r.bool k then j :: set else set) (k + 1)
          with ⟨ds, set', k'⟩
        rw [hp] at hx
        simp only at hx
        by_cases hb : r.bool k = true
        · simp only [hb, if_true, List.mem_cons] at hx
          rcases hx with hx | hx
          · subst hx; rw [hrel]; simp
          · exact ih _ (k + 1) x (by rw [hp]; exact hx)
        · rw [Bool.not_eq_true] at hb
          simp only [hb, Bool.false_eq_true, if_false] at hx
          exact ih _ (k + 1) x (by rw [hp]; exact hx)
    | UnknownR =>
      rw [hrel] at hx
      by_cases hset : set.contains j
      · simp only [hset, if_true] at hx
        rcases hp : push_deps_row rt r src js set (k + 1) with ⟨ds, set', k'⟩
        rw [hp] at hx
        simp only at hx
        by_cases hb : r.bool k = true
        · simp only [hb, if_true, List.mem_cons] at hx
          rcases hx with hx | hx
          · subst hx; rw [hrel]; simp
          · exact ih set (k + 1) x (by rw [hp]; exact hx)
        · rw [Bool.not_eq_true] at hb
          simp only [hb, Bool.false_eq_true, if_false] at hx
          exact ih set (k + 1) x (by rw [hp]; exact hx)
      · simp only [hset, Bool.false_eq_true, if_false] at hx
        rcases hp : push_deps_row rt r src js (if r.bool k then j :: set else set) (k + 1)
          with ⟨ds, set', k'⟩
        rw [hp] at hx
        simp only at hx
        by_cases hb : r.bool k = true
        · simp only [hb, if_true, List.mem_cons] at hx
          rcases hx with hx | hx
          · subst hx; rw [hrel]; simp
          · exact ih _ (k + 1) x (by rw [hp]; exact hx)
        · rw [Bool.not_eq_true] at hb
          simp only [hb, Bool.false_eq_true, if_false] at hx
          exact ih _ (k + 1) x (by rw [hp]; exact hx)

/-- C5: `push_deps` only extends the planner sequence, and every index the
dependency-closure step appends comes from a row scan: the element at
appended position `n` is `Some`- or `Unknown`-related (never `None`) to the
collecting row's entry, which sits at a strictly earlier position `p` of
the final sequence with `i ≤ p < seq.length + n`; only `choose_seq`'s outer
seeding loop can add an index with no relation to a previous element. -/
theorem push_deps_appended_related (rt : RTable) (r : Oracle) (conf : Config) :
    ∀ (seq set : List Nat) (i k : Nat),
    ∃ extra, (push_deps rt r conf seq set i k).1 = seq ++ extra ∧
      ∀ n, n < extra.length → ∃ p, i ≤ p ∧ p < seq.length + n ∧
        rt.rel ((push_deps rt r conf seq set i k).1.getD p 0) (extra.getD n 0) ≠
          Relation.NoneR := by
  intro seq set i k
  induction seq, set, i, k using push_deps.induct rt r conf with
  | case1 seq set i k h =>
    rw [push_deps]
    simp only [h, dite_true]
    exact ⟨[], by simp, fun n hn => absurd hn (by simp)⟩
  | case2 seq set i k h index deps set' k' hrow ih =>
    rw [push_deps]
    simp only [h, dite_false]
    have hrow' : push_deps_row rt r (seq.getD i 0) (List.range rt.n) set k =
        (deps, set', k') := hrow
    rw [hrow']
    simp only
    obtain ⟨extra', hx1, hx2⟩ := ih
    push_neg at h
    refine ⟨deps ++ extra', by rw [hx1, List.append_assoc], ?_⟩
    intro n hn
    by_cases hnd : n < deps.length
    · refine ⟨i, Nat.le.refl, by omega, ?_⟩
      have hmem : deps.getD n 0 ∈ deps := by
        rw [List.getD_eq_getElem _ _ hnd]
        exact List.getElem_mem hnd
      have hrel := push_deps_row_related rt r (seq.getD i 0) (List.range rt.n) set k
        (deps.getD n 0) (by rw [hrow']; exact hmem)
      have hgd1 : (deps ++ extra').getD n 0 = deps.getD n 0 := by
        simp only [List.getD_eq_getElem?_getD]
        rw [List.getElem?_append_left hnd]
      have hgd2 : (push_deps rt r conf (seq ++ deps) set' (i + 1) k').1.getD i 0 =
          seq.getD i 0 := by
        rw [hx1]
        simp only [List.getD_eq_getElem?_getD]
        rw [List.getElem?_append_left (by rw [List.length_append]; omega)]
        rw [List.getElem?_append_left h.1]
      rw [hgd1, hgd2]
      exact hrel
    · have hm : n - deps.length < extra'.length := by
        rw [List.length_append] at hn
        omega
      obtain ⟨p, hp1, hp2, hp3⟩ := hx2 (n - deps.length) hm
      refine ⟨p, by omega, ?_, ?_⟩
      · rw [List.length_append] at hp2
        omega
      · have hgd : (deps ++ extra').getD n 0 = extra'.getD (n - deps.length) 0 := by
          simp only [List.getD_eq_getElem?_getD]
          rw [List.getElem?_append_right (by omega)]
        rw [hgd]
        exact hp3

/-! ## Claim C2: planner length bounds -/

theorem push_deps_row_length (rt : RTable) (r : Oracle) (src : Nat) :
    ∀ (js set : List Nat) (k : Nat),
      (push_deps_row rt r src js set k).1.length ≤ js.length := by
  intro js
  induction js with
  | nil => intro set k; simp [push_deps_row]
  | cons j js ih =>
    intro set k
    rw [push_deps_row]
    cases hrel : rt.rel src j with
    | NoneR =>
      calc (push_deps_row rt r src js set k).1.length ≤ js.length := ih set k
        _ ≤ (j :: js).length := by simp
    | SomeR =>
      by_cases hset : set.contains j
      · simp only [hset, if_true]
        rcases hp : push_deps_row rt r src js set (k + 1) with ⟨ds, set', k'⟩
        have hds := ih set (k + 1)
        rw [hp] at hds
        simp only at hds ⊢
        by_cases hb : r.bool k = true <;> simp [hb] <;> omega
      · simp only [hset, Bool.false_eq_true, if_false]
        rcases hp : push_deps_row rt r src js (if r.bool k then j :: set else set) (k + 1)
          with ⟨ds, set', k'⟩
        have hds := ih (if r.bool k then j :: set else set) (k + 1)
        rw [hp] at hds
        simp only at hds ⊢
        by_cases hb : r.bool k = true <;> simp [hb] <;> omega
    | UnknownR =>
      by_cases hset : set.contains j
      · simp only [hset, if_true]
        rcases hp : push_deps_row rt r src js set (k + 1) with ⟨ds, set', k'⟩
        have hds := ih set (k + 1)
        rw [hp] at hds
        simp only at hds ⊢
        by_cases hb : r.bool k = true <;> simp [hb] <;> omega
      · simp only [hset, Bool.false_eq_true, if_false]
        rcases hp : push_deps_row rt r src js (if r.bool k then j :: set else set) (k + 1)
          with ⟨ds, set', k'⟩
        have hds := ih (if r.bool k then j :: set else set) (k + 1)
        rw [hp] at hds
        simp only at hds ⊢
        by_cases hb : r.bool k = true <;> simp [hb] <;> omega

theorem push_deps_length_upper (rt : RTable) (r : Oracle) (conf : Config) :
    ∀ (seq set : List Nat) (i k : Nat),
      (push_deps rt r conf seq set i k).1.length ≤
        max seq.length (conf.prog_max_len - 1 + rt.n) := by
  intro seq set i k
  induction seq, set, i, k using push_deps.induct rt r conf with
  | case1 seq set i k h =>
    rw [push_deps]
    simp [h]
  | case2 seq set i k h index deps set' k' hrow ih =>
    have hrow' : push_deps_row rt r (seq.getD i 0) (List.range rt.n) set k = (deps, set', k') :=
      hrow
    have hstep : (push_deps rt r conf seq set i k) =
        push_deps rt r conf (seq ++ deps) set' (i + 1) k' := by
      conv_lhs => rw [push_deps]
      simp only [h, dite_false]
      rw [hrow']
    rw [hstep]
    push_neg at h
    have hdeps : deps.length ≤ rt.n := by
      have := push_deps_row_length rt r (seq.getD i 0) (List.range rt.n) set k
      rw [hrow'] at this
      simpa using this
    have happ : (seq ++ deps).length ≤ conf.prog_max_len - 1 + rt.n := by
      simp only [List.length_append]
      omega
    calc (push_deps rt r conf (seq ++ deps) set' (i + 1) k').1.length
        ≤ max (seq ++ deps).length (conf.prog_max_len - 1 + rt.n) := ih
      _ ≤ conf.prog_max_len - 1 + rt.n := by omega
      _ ≤ _ := le_max_right _ _

theorem choose_seq_loop_lower (rt : RTable) (conf : Config) (r : Oracle) :
    ∀ (seq set : List Nat) (k : Nat),
      seq.length < (choose_seq_loop rt conf r seq set k).1.length := by
  intro seq set k
  induction seq, set, k using choose_seq_loop.induct rt conf r with
  | case1 a b c d e f g =>
    have hd : d = push_deps rt r conf (a ++ [r.nat c % rt.n]) (r.nat c % rt.n :: b)
        a.length (c + 1) := rfl
    have hdlen : a.length + 1 ≤ d.1.length := by
      have := push_deps_length_le rt r conf (a ++ [r.nat c % rt.n]) (r.nat c % rt.n :: b)
        a.length (c + 1)
      rw [← hd] at this
      simpa using this
    have hstep : choose_seq_loop rt conf r a b c =
        choose_seq_loop rt conf r d.1 d.2.1 (d.2.2 + 1) := by
      conv_lhs => rw [choose_seq_loop]
      rw [dif_pos e, if_pos f]
    rw [hstep]
    omega
  | case2 a b c d e f =>
    have hd : d = push_deps rt r conf (a ++ [r.nat c % rt.n]) (r.nat c % rt.n :: b)
        a.length (c + 1) := rfl
    have hdlen : a.length + 1 ≤ d.1.length := by
      have := push_deps_length_le rt r conf (a ++ [r.nat c % rt.n]) (r.nat c % rt.n :: b)
        a.length (c + 1)
      rw [← hd] at this
      simpa using this
    have hstep : choose_seq_loop rt conf r a b c = (d.1, d.2.2 + 1) := by
      conv_lhs => rw [choose_seq_loop]
      rw [dif_pos e, if_neg f]
    rw [hstep]
    show a.length < d.1.length
    omega
  | case3 a b c d e =>
    have hd : d = push_deps rt r conf (a ++ [r.nat c % rt.n]) (r.nat c % rt.n :: b)
        a.length (c + 1) := rfl
    have hdlen : a.length + 1 ≤ d.1.length := by
      have := push_deps_length_le rt r conf (a ++ [r.nat c % rt.n]) (r.nat c % rt.n :: b)
        a.length (c + 1)
      rw [← hd] at this
      simpa using this
    have hstep : choose_seq_loop rt conf r a b c = (d.1, d.2.2) := by
      conv_lhs => rw [choose_seq_loop]
      rw [dif_neg e]
    rw [hstep]
    show a.length < d.1.length
    omega

theorem choose_seq_loop_upper (rt : RTable) (conf : Config) (r : Oracle) :
    ∀ (seq set : List Nat) (k : Nat), seq.length ≤ conf.prog_max_len →
      (choose_seq_loop rt conf r seq set k).1.length ≤
        max (conf.prog_max_len + 1) (conf.prog_max_len - 1 + rt.n) := by
  intro seq set k
  induction seq, set, k using choose_seq_loop.induct rt conf r with
  | case1 a b c d e f g =>
    intro _
    have hstep : choose_seq_loop rt conf r a b c =
        choose_seq_loop rt conf r d.1 d.2.1 (d.2.2 + 1) := by
      conv_lhs => rw [choose_seq_loop]
      rw [dif_pos e, if_pos f]
    rw [hstep]
    exact g e
  | case2 a b c d e f =>
    intro _
    have hstep : choose_seq_loop rt conf r a b c = (d.1, d.2.2 + 1) := by
      conv_lhs => rw [choose_seq_loop]
      rw [dif_pos e, if_neg f]
    rw [hstep]
    show d.1.length ≤ _
    omega
  | case3 a b c d e =>
    intro ha
    have hd : d = push_deps rt r conf (a ++ [r.nat c % rt.n]) (r.nat c % rt.n :: b)
        a.length (c + 1) := rfl
    have hup : d.1.length ≤ max (a ++ [r.nat c % rt.n]).length (conf.prog_max_len - 1 + rt.n) := by
      have := push_deps_length_upper rt r conf (a ++ [r.nat c % rt.n]) (r.nat c % rt.n :: b)
        a.length (c + 1)
      rw [← hd] at this
      exact this
    simp only [List.length_append, List.length_cons, List.length_nil] at hup
    have hstep : choose_seq_loop rt conf r a b c = (d.1, d.2.2) := by
      conv_lhs => rw [choose_seq_loop]
      rw [dif_neg e]
    rw [hstep]
    show d.1.length ≤ _
    omega

/-! ## The generator invariant: reference targets are valid slots -/

/-- Predicates for the reference invariant. -/
def lastArgsNE (p : Prog) : Prop :=
  match p.calls.getLast? with
  | some c => c.args ≠ []
  | none => False

def ResEntryOK (t : Target) (p : Prog) (e : TypeId × ArgIndex) : Prop :=
  e.2.1 < p.calls.length ∧ slotOK p e.2 = true ∧ t.is_res e.1 = true ∧
    (e.2.2 = ArgPos.Ret → slotTid p e.2 = some e.1)

def StResOK (t : Target) (s : State) : Prop := ∀ e ∈ s.res, ResEntryOK t s.prog e

def RefConc (t : Target) (p : Prog) (x : ArgIndex) : Prop :=
  x.1 < p.calls.length ∧ slotOK p x = true ∧
    (x.2 = ArgPos.Ret → ∃ rt', slotTid p x = some rt' ∧ t.is_res rt' = true)

/-- prog, res and uflow unchanged (only the counter and string pool may
move). -/
def stateShape (s s' : State) : Prop :=
  s'.prog = s.prog ∧ s'.res = s.res ∧ s'.uflow = s.uflow

theorem stateShape_refl (s : State) : stateShape s s := ⟨rfl, rfl, rfl⟩

theorem stateShape_trans {s₁ s₂ s₃ : State} (h1 : stateShape s₁ s₂) (h2 : stateShape s₂ s₃) :
    stateShape s₁ s₃ :=
  ⟨h2.1.trans h1.1, h2.2.1.trans h1.2.1, h2.2.2.trans h1.2.2⟩

theorem stateShape_pick (s : State) : stateShape s (s.pick).2 := ⟨rfl, rfl, rfl⟩

theorem stateShape_flip (s : State) : stateShape s (s.flip).2 := ⟨rfl, rfl, rfl⟩

theorem stateShape_record_str (s : State) (t : StrType) (v : String) :
    stateShape s (s.record_str t v) := ⟨rfl, rfl, rfl⟩

theorem mkNumVal_refs (kind : NumKind) (v : Int) : refsIn (mkNumVal kind v) = [] := by
  unfold mkNumVal
  by_cases h : kind.signed = true <;> simp [h, refsIn]

theorem mkNumRandom_refs (kind : NumKind) (n : Nat) : refsIn (mkNumRandom kind n) = [] := by
  unfold mkNumRandom
  by_cases h : kind.signed = true <;> simp [h, refsIn]

theorem gen_num_shape {ni : NumInfo} {s : State} {v : Value} {s' : State}
    (h : gen_num ni s = some (v, s')) : stateShape s s' ∧ refsIn v = [] := by
  unfold gen_num at h
  cases hl : ni.limit with
  | Vals vs =>
    rw [hl] at h
    by_cases he : vs.isEmpty <;> simp [he] at h
    exact ⟨h.2 ▸ stateShape_pick s, h.1 ▸ mkNumVal_refs _ _⟩
  | Range lo hi =>
    rw [hl] at h
    by_cases he : lo < hi <;> simp [he] at h
    exact ⟨h.2 ▸ stateShape_pick s, h.1 ▸ mkNumVal_refs _ _⟩
  | NoneL =>
    rw [hl] at h
    simp at h
    exact ⟨h.2 ▸ stateShape_pick s, h.1 ▸ mkNumRandom_refs _ _⟩

theorem gen_flag_loop_shape' (flags : List FlagDef) :
    ∀ (fuel v₀ : Nat) (s : State), stateShape s (gen_flag_loop flags fuel v₀ s).2 := by
  intro fuel
  induction fuel with
  | zero => intro v₀ s; exact stateShape_refl s
  | succ n ih =>
    intro v₀ s
    rw [gen_flag_loop]
    by_cases hb : (s.flip).1 = true
    · simp only [hb, if_true]
      exact ih _ _
    · rw [Bool.not_eq_true] at hb
      simp only [hb, Bool.false_eq_true, if_false]
      exact stateShape_refl s


theorem gen_flag_shape {flags : List FlagDef} {fuel : Nat} {s : State} {v : Value} {s' : State}
    (h : gen_flag flags fuel s = some (v, s')) : stateShape s s' ∧ refsIn v = [] := by
  unfold gen_flag at h
  by_cases he : flags.isEmpty <;> simp [he] at h
  by_cases hb : ((s.flip).1 : Bool) = true
  · simp only [hb, if_true, Option.some.injEq, Prod.mk.injEq] at h
    obtain ⟨hv, hs⟩ := h
    subst hv
    subst hs
    exact ⟨stateShape_refl _, rfl⟩
  · rw [Bool.not_eq_true] at hb
    simp only [hb, Bool.false_eq_true, if_false, Option.some.injEq, Prod.mk.injEq] at h
    obtain ⟨hv, hs⟩ := h
    subst hv
    subst hs
    exact ⟨gen_flag_loop_shape' flags fuel _ _, rfl⟩

theorem drawChars_shape (f : Nat → Char) :
    ∀ (n : Nat) (s : State), stateShape s (drawChars f n s).2 := by
  intro n
  induction n with
  | zero => intro s; exact stateShape_refl s
  | succ m ih =>
    intro s
    rw [drawChars]
    exact ih _

theorem try_reuse_str_shape (s : State) (st : StrType) :
    stateShape s (s.try_reuse_str st).2 := by
  unfold State.try_reuse_str
  by_cases he : (s.strPool st).isEmpty
  · simp only [he, if_true]
    exact stateShape_refl s
  · simp only [he, Bool.false_eq_true, if_false]
    by_cases hb : ((s.flip).1 : Bool) = true
    · simp only [hb, if_true]
      exact stateShape_refl s
    · rw [Bool.not_eq_true] at hb
      simp only [hb, Bool.false_eq_true, if_false]
      exact stateShape_refl s

theorem try_reuse_str_some {s : State} {st : StrType} {v : Value} {s' : State}
    (h : s.try_reuse_str st = (some v, s')) :
    ∃ w ∈ s.strPool st, v = Value.Str w ∧ stateShape s s' := by
  unfold State.try_reuse_str at h
  by_cases he : (s.strPool st).isEmpty
  · simp [he] at h
  · simp only [he, Bool.false_eq_true, if_false] at h
    by_cases hb : ((s.flip).1 : Bool) = true
    · simp only [hb, if_true, Prod.mk.injEq, Option.some.injEq] at h
      obtain ⟨hv, hs⟩ := h
      have hlen : 0 < (s.strPool st).length := by
        cases hp : s.strPool st with
        | nil => rw [hp] at he; exact absurd rfl he
        | cons a l => simp [hp]
      have hjlt : (((s.flip).2.pick).1) % (s.strPool st).length < (s.strPool st).length :=
        Nat.mod_lt _ hlen
      refine ⟨(s.strPool st).getD ((((s.flip).2.pick).1) % (s.strPool st).length) "", ?_, hv.symm, ?_⟩
      · rw [List.getD_eq_getElem _ _ hjlt]
        exact List.getElem_mem hjlt
      · rw [← hs]
        exact stateShape_refl _
    · rw [Bool.not_eq_true] at hb
      simp [hb] at h

theorem try_reuse_str_none {s : State} {st : StrType} {s' : State}
    (h : s.try_reuse_str st = (none, s')) : stateShape s s' ∧ s'.strs = s.strs := by
  unfold State.try_reuse_str at h
  by_cases he : (s.strPool st).isEmpty
  · simp only [he, if_true, Prod.mk.injEq] at h
    rw [← h.2]
    exact ⟨stateShape_refl _, rfl⟩
  · simp only [he, Bool.false_eq_true, if_false] at h
    by_cases hb : ((s.flip).1 : Bool) = true
    · simp [hb] at h
    · rw [Bool.not_eq_true] at hb
      simp only [hb, Bool.false_eq_true, if_false, Prod.mk.injEq] at h
      rw [← h.2]
      exact ⟨stateShape_refl _, rfl⟩

theorem gen_fname_shape (conf : Config) :
    ∀ (fuel len : Nat) (path : String) (depth : Nat) (s : State) (v : Value) (s' : State),
      gen_fname conf fuel len path depth s = some (v, s') →
      stateShape s s' ∧ refsIn v = [] := by
  intro fuel
  induction fuel with
  | zero => intro len path depth s v s' h; exact absurd h (by simp [gen_fname])
  | succ n ih =>
    intro len path depth s v s' h
    rw [gen_fname] at h
    by_cases hd : depth + 1 < conf.path_max_depth
    · simp only [hd, if_true] at h
      by_cases hb : (((drawChars alphanumChar len s).2.flip).1 : Bool) = true
      · simp only [hb, if_true] at h
        have hrec := ih _ _ _ _ _ _ h
        have hX : stateShape s ((drawChars alphanumChar len s).2.flip).2 :=
          drawChars_shape alphanumChar len s
        exact ⟨stateShape_trans hX hrec.1, hrec.2⟩
      · rw [Bool.not_eq_true] at hb
        simp only [hb, Bool.false_eq_true, if_false, Option.some.injEq, Prod.mk.injEq] at h
        obtain ⟨hv, hs⟩ := h
        subst hv
        subst hs
        exact ⟨drawChars_shape alphanumChar len s, rfl⟩
    · simp only [hd, if_false, Option.some.injEq, Prod.mk.injEq] at h
      obtain ⟨hv, hs⟩ := h
      subst hv
      subst hs
      exact ⟨drawChars_shape alphanumChar len s, rfl⟩

theorem gen_str_default_shape {conf : Config} {fuel : Nat} {st : StrType}
    {s : State} {v : Value} {s' : State}
    (h : gen_str_default conf fuel st s = some (v, s')) :
    stateShape s s' ∧ refsIn v = [] := by
  unfold gen_str_default at h
  by_cases hm : conf.str_min_len < conf.str_max_len
  · simp only [hm, if_true] at h
    cases st with
    | Str =>
      rcases hr : ((s.pick).2).try_reuse_str StrType.Str with ⟨ov, s₁⟩
      rw [hr] at h
      have hsh₁ : stateShape s s₁ := by
        have := try_reuse_str_shape ((s.pick).2) StrType.Str
        rw [hr] at this
        exact this
      cases ov with
      | some w =>
        simp only [Option.some.injEq, Prod.mk.injEq] at h
        obtain ⟨hv, hs⟩ := h
        subst hs
        obtain ⟨w', _, hw', _⟩ := try_reuse_str_some hr
        rw [← hv, hw']
        exact ⟨hsh₁, rfl⟩
      | none =>
        simp only [Option.some.injEq, Prod.mk.injEq] at h
        obtain ⟨hv, hs⟩ := h
        subst hs
        rw [← hv]
        refine ⟨stateShape_trans hsh₁ ?_, rfl⟩
        exact drawChars_shape uniChar _ s₁
    | CStr =>
      rcases hr : ((s.pick).2).try_reuse_str StrType.Str with ⟨ov, s₁⟩
      rw [hr] at h
      have hsh₁ : stateShape s s₁ := by
        have := try_reuse_str_shape ((s.pick).2) StrType.Str
        rw [hr] at this
        exact this
      cases ov with
      | some w =>
        simp only [Option.some.injEq, Prod.mk.injEq] at h
        obtain ⟨hv, hs⟩ := h
        subst hs
        obtain ⟨w', _, hw', _⟩ := try_reuse_str_some hr
        rw [← hv, hw']
        exact ⟨hsh₁, rfl⟩
      | none =>
        simp only [Option.some.injEq, Prod.mk.injEq] at h
        obtain ⟨hv, hs⟩ := h
        subst hs
        rw [← hv]
        refine ⟨stateShape_trans hsh₁ ?_, rfl⟩
        exact drawChars_shape alphanumChar _ s₁
    | FileName =>
      rcases hr : ((s.pick).2).try_reuse_str StrType.FileName with ⟨ov, s₁⟩
      rw [hr] at h
      have hsh₁ : stateShape s s₁ := by
        have := try_reuse_str_shape ((s.pick).2) StrType.FileName
        rw [hr] at this
        exact this
      cases ov with
      | some w =>
        simp only [Option.some.injEq, Prod.mk.injEq] at h
        obtain ⟨hv, hs⟩ := h
        subst hs
        obtain ⟨w', _, hw', _⟩ := try_reuse_str_some hr
        rw [← hv, hw']
        exact ⟨hsh₁, rfl⟩
      | none =>
        have := gen_fname_shape conf fuel _ "." 0 s₁ v s' h
        exact ⟨stateShape_trans hsh₁ this.1, this.2⟩
  · simp [hm] at h

theorem gen_str_shape {conf : Config} {fuel : Nat} {st : StrType} {vals : Option (List String)}
    {s : State} {v : Value} {s' : State}
    (h : gen_str conf fuel st vals s = some (v, s')) : stateShape s s' ∧ refsIn v = [] := by
  cases vals with
  | none =>
    rw [gen_str] at h
    exact gen_str_default_shape h
  | some vs =>
    rw [gen_str] at h
    by_cases he : vs.isEmpty
    · rw [if_pos he] at h
      exact gen_str_default_shape h
    · rw [if_neg he] at h
      simp only [Option.some.injEq, Prod.mk.injEq] at h
      obtain ⟨hv, hs⟩ := h
      subst hs
      rw [← hv]
      exact ⟨stateShape_refl _, rfl⟩

theorem resPool_mem {s : State} {tid : TypeId} {x : ArgIndex} (h : x ∈ s.resPool tid) :
    (tid, x) ∈ s.res := by
  unfold State.resPool at h
  rcases List.mem_map.mp h with ⟨e, he, hx⟩
  have hmem := List.mem_filter.mp he
  have htid : e.1 = tid := by
    have := hmem.2
    simpa using this
  have : e = (tid, x) := by
    cases e
    simp only at htid hx
    rw [htid, hx]
  rw [← this]
  exact hmem.1

theorem try_reuse_res_some {s : State} {tid : TypeId} {v : Value} {s' : State}
    (h : s.try_reuse_res tid = (some v, s')) :
    ∃ x, v = Value.Ref x ∧ (tid, x) ∈ s.res ∧ stateShape s s' ∧ s'.strs = s.strs := by
  unfold State.try_reuse_res at h
  by_cases he : (s.resPool tid).isEmpty
  · simp [he] at h
  · simp only [he, Bool.false_eq_true, if_false, Prod.mk.injEq, Option.some.injEq] at h
    obtain ⟨hv, hs⟩ := h
    have hlen : 0 < (s.resPool tid).length := by
      cases hp : s.resPool tid with
      | nil => rw [hp] at he; exact absurd rfl he
      | cons a l => simp [hp]
    have hjlt : ((s.pick).1) % (s.resPool tid).length < (s.resPool tid).length :=
      Nat.mod_lt _ hlen
    refine ⟨(s.resPool tid).getD (((s.pick).1) % (s.resPool tid).length) (0, ArgPos.Ret),
      hv.symm, ?_, ?_, ?_⟩
    · apply resPool_mem
      rw [List.getD_eq_getElem _ _ hjlt]
      exact List.getElem_mem hjlt
    · rw [← hs]
      exact stateShape_refl _
    · rw [← hs]
      rfl

theorem try_reuse_res_none {s : State} {tid : TypeId} {s' : State}
    (h : s.try_reuse_res tid = (none, s')) : s' = s := by
  unfold State.try_reuse_res at h
  by_cases he : (s.resPool tid).isEmpty
  · simp only [he, if_true, Prod.mk.injEq] at h
    exact h.2.symm
  · simp [he] at h

theorem record_res_ret_spec {s : State} {tid : TypeId} {s' : State}
    (h : s.record_res tid true = some s') :
    s'.prog = s.prog ∧ s'.strs = s.strs ∧ (s.uflow = true → s'.uflow = true) ∧
      s'.res = s.res ++ [(tid, (s.prog.calls.length - 1, ArgPos.Ret))] := by
  unfold State.record_res at h
  cases hl : s.prog.calls.getLast? with
  | none => rw [hl] at h; exact absurd h (by simp)
  | some c =>
    rw [hl] at h
    simp only [Option.some.injEq] at h
    subst h
    refine ⟨rfl, rfl, ?_, rfl⟩
    intro hu
    simp [hu]

theorem record_res_arg_spec {t : Target} {s : State} {tid : TypeId} {s' : State}
    (h : s.record_res tid false = some s') (hne : lastArgsNE s.prog)
    (hres : t.is_res tid = true) :
    s'.prog = s.prog ∧ s'.strs = s.strs ∧ (s.uflow = true → s'.uflow = true) ∧
      ∃ e, s'.res = s.res ++ [e] ∧ ResEntryOK t s.prog e := by
  unfold State.record_res at h
  cases hl : s.prog.calls.getLast? with
  | none => rw [hl] at h; exact absurd h (by simp)
  | some c =>
    rw [hl] at h
    simp only [Option.some.injEq] at h
    subst h
    have hcne : s.prog.calls ≠ [] := by
      intro hc
      rw [hc] at hl
      simp at hl
    have hargs : c.args ≠ [] := by
      unfold lastArgsNE at hne
      rw [hl] at hne
      exact hne
    have hargs0 : c.args.length ≠ 0 := fun hz => hargs (List.length_eq_zero.mp hz)
    have hlenpos : 0 < s.prog.calls.length := List.length_pos.mpr hcne
    have hget : s.prog.calls[s.prog.calls.length - 1]? = some c := by
      rw [← List.getLast?_eq_getElem?]
      exact hl
    refine ⟨rfl, rfl, ?_, ?_⟩
    · intro hu; simp [hu]
    · refine ⟨(tid, (s.prog.calls.length - 1,
        ArgPos.Arg (if c.args.length = 0 then 2 ^ 64 - 1 else c.args.length - 1))), rfl, ?_⟩
      unfold ResEntryOK
      refine ⟨by show s.prog.calls.length - 1 < s.prog.calls.length; omega, ?_, hres, by simp⟩
      unfold slotOK
      rw [hget]
      simp only [hargs0, if_false]
      simp only [decide_eq_true_eq]
      omega

theorem record_res_shape {s : State} {tid : TypeId} {b : Bool} {s' : State}
    (h : s.record_res tid b = some s') :
    s'.prog = s.prog ∧ s'.strs = s.strs ∧ (s.uflow = true → s'.uflow = true) := by
  unfold State.record_res at h
  cases hl : s.prog.calls.getLast? with
  | none => rw [hl] at h; exact absurd h (by simp)
  | some c =>
    rw [hl] at h
    simp only [Option.some.injEq] at h
    subst h
    refine ⟨rfl, rfl, ?_⟩
    intro hu
    simp [hu]

/-- Conclusion of the `gen_value` specification for a produced value. -/
def GVConc (t : Target) (s s' : State) (rs : List ArgIndex) : Prop :=
  s'.prog = s.prog ∧ (s.uflow = true → s'.uflow = true) ∧
    (lastArgsNE s.prog → StResOK t s →
      StResOK t s' ∧ ∀ x ∈ rs, RefConc t s.prog x)

theorem GVConc_of_shape {t : Target} {s s' : State} (h : stateShape s s') :
    GVConc t s s' [] := by
  obtain ⟨hp, hr, hu⟩ := h
  refine ⟨hp, fun x => hu ▸ x, ?_⟩
  intro _ hok
  refine ⟨?_, by simp⟩
  intro e he
  rw [hp, hr] at *
  exact hok e (hr ▸ he)

theorem GVConc_trans {t : Target} {s₁ s₂ s₃ : State} {r₁ r₂ : List ArgIndex}
    (h1 : GVConc t s₁ s₂ r₁) (h2 : GVConc t s₂ s₃ r₂) :
    GVConc t s₁ s₃ (r₁ ++ r₂) := by
  obtain ⟨hp1, hu1, hc1⟩ := h1
  obtain ⟨hp2, hu2, hc2⟩ := h2
  refine ⟨hp2.trans hp1, fun hu => hu2 (hu1 hu), ?_⟩
  intro hne hok
  obtain ⟨hok1, hrefs1⟩ := hc1 hne hok
  have hne2 : lastArgsNE s₂.prog := by rw [hp1]; exact hne
  obtain ⟨hok2, hrefs2⟩ := hc2 hne2 hok1
  refine ⟨hok2, ?_⟩
  intro x hx
  rcases List.mem_append.mp hx with hx | hx
  · exact hrefs1 x hx
  · have := hrefs2 x hx
    rw [hp1] at this
    exact this

theorem GVConc_shape_left {t : Target} {s₀ s₁ s₂ : State} {rs : List ArgIndex}
    (hsh : stateShape s₀ s₁) (h : GVConc t s₁ s₂ rs) : GVConc t s₀ s₂ rs := by
  have := GVConc_trans (GVConc_of_shape (t := t) hsh) h
  simpa using this

theorem gen_value_spec : ∀ fuel : Nat,
    (∀ (t : Target) (conf : Config) (tid : TypeId) (s : State) (v : Value) (s' : State),
      gen_value t conf fuel tid s = some (v, s') → GVConc t s s' (refsIn v)) ∧
    (∀ (t : Target) (conf : Config) (tids : List TypeId) (s : State) (vs : List Value)
      (s' : State),
      gen_value_list t conf fuel tids s = some (vs, s') → GVConc t s s' (refsInList vs)) := by
  intro fuel
  induction fuel with
  | zero =>
    constructor
    · intro t conf tid s v s' h
      exact absurd h (by simp [gen_value])
    · intro t conf tids s vs s' h
      exact absurd h (by simp [gen_value_list])
  | succ n ih =>
    -- helper: gen_res at fuel n
    have hres : ∀ (t : Target) (conf : Config) (res_tid tid : TypeId) (s : State) (v : Value)
        (s' : State), gen_res t conf n res_tid tid s = some (v, s') →
        GVConc t s s' (refsIn v) := by
      intro t conf res_tid tid s v s' h
      rw [gen_res] at h
      rcases hr : s.try_reuse_res res_tid with ⟨ov, s₁⟩
      rw [hr] at h
      cases ov with
      | some w =>
        simp only [Option.some.injEq, Prod.mk.injEq] at h
        obtain ⟨hv, hs⟩ := h
        subst hs
        obtain ⟨x, hw, hmem, hsh, _⟩ := try_reuse_res_some hr
        refine ⟨hsh.1, fun hu => hsh.2.2 ▸ hu, ?_⟩
        intro hne hok
        constructor
        · intro e he
          rw [hsh.1]
          exact hok e (hsh.2.1 ▸ he)
        · intro y hy
          rw [← hv, hw] at hy
          simp only [refsIn, List.mem_singleton] at hy
          subst hy
          have hentry := hok _ hmem
          exact ⟨hentry.1, hentry.2.1, fun hret => ⟨res_tid, hentry.2.2.2 hret, hentry.2.2.1⟩⟩
      | none =>
        have hs1 : s₁ = s := try_reuse_res_none hr
        rw [hs1] at h
        exact ih.1 t conf tid s v s' h
    -- helper: gen_ptr at fuel n
    have hptr : ∀ (t : Target) (conf : Config) (dir : PtrDir) (tid : TypeId) (s : State)
        (v : Value) (s' : State), gen_ptr t conf n dir tid s = some (v, s') →
        GVConc t s s' (refsIn v) := by
      intro t conf dir tid s v s' h
      rw [gen_ptr] at h
      split at h
      · -- dir ≠ In
        split at h
        · -- is_res
          split at h
          · exact absurd h (by simp)
          · rename_i s₁ hrec
            rename_i hisres _
            simp only [Option.some.injEq, Prod.mk.injEq] at h
            obtain ⟨hv, hs⟩ := h
            subst hs
            have hshape := record_res_shape hrec
            refine ⟨hshape.1, hshape.2.2, ?_⟩
            intro hne hok
            obtain ⟨_, _, _, e, hres', hentry⟩ := record_res_arg_spec hrec hne hisres
            constructor
            · intro e' he'
              rw [hres'] at he'
              rw [hshape.1]
              rcases List.mem_append.mp he' with he' | he'
              · exact hok e' he'
              · rw [List.mem_singleton.mp he']
                exact hentry
            · rw [← hv]
              simp [Value.default_val, refsIn]
        · simp only [Option.some.injEq, Prod.mk.injEq] at h
          obtain ⟨hv, hs⟩ := h
          subst hs
          refine ⟨rfl, fun hu => hu, ?_⟩
          intro hne hok
          exact ⟨hok, by rw [← hv]; simp [Value.default_val, refsIn]⟩
      · -- dir = In
        split at h
        rename_i b₁ s₁ hflip
        have hs₁ : s₁ = (s.flip).2 := by rw [hflip]
        have hsh : stateShape s s₁ := by rw [hs₁]; exact stateShape_flip s
        split at h
        · exact GVConc_shape_left hsh (ih.1 t conf tid s₁ v s' h)
        · simp only [Option.some.injEq, Prod.mk.injEq] at h
          obtain ⟨hv, hs⟩ := h
          subst hs
          refine ⟨hsh.1, fun hu => hsh.2.2 ▸ hu, ?_⟩
          intro hne hok
          constructor
          · intro e he
            rw [hsh.1]
            exact hok e (hsh.2.1 ▸ he)
          · rw [← hv]
            simp [refsIn]
    -- helper: gen_alias at fuel n
    have halias : ∀ (t : Target) (conf : Config) (tid under : TypeId) (s : State) (v : Value)
        (s' : State), gen_alias t conf n tid under s = some (v, s') →
        GVConc t s s' (refsIn v) := by
      intro t conf tid under s v s' h
      rw [gen_alias] at h
      split at h
      · exact hres t conf tid under s v s' h
      · exact ih.1 t conf under s v s' h
    -- helper: gen_union at fuel n
    have hunion : ∀ (t : Target) (conf : Config) (fields : List FieldDef) (s : State) (v : Value)
        (s' : State), gen_union t conf n fields s = some (v, s') →
        GVConc t s s' (refsIn v) := by
      intro t conf fields s v s' h
      rw [gen_union] at h
      split at h
      · exact absurd h (by simp)
      · split at h
        rename_i i₁ s₁ hpick
        have hsh : stateShape s s₁ := by
          have : s₁ = (s.pick).2 := by rw [hpick]
          rw [this]
          exact stateShape_pick s
        split at h
        · exact absurd h (by simp)
        · rename_i w s₂ hw
          simp only [Option.some.injEq, Prod.mk.injEq] at h
          obtain ⟨hv, hs⟩ := h
          subst hs
          have := ih.1 t conf _ s₁ w _ hw
          have hconc : GVConc t s s₂ (refsIn w) := GVConc_shape_left hsh this
          rw [← hv]
          exact hconc
    -- helper: gen_struct at fuel n
    have hstruct : ∀ (t : Target) (conf : Config) (fields : List FieldDef) (s : State) (v : Value)
        (s' : State), gen_struct t conf n fields s = some (v, s') →
        GVConc t s s' (refsIn v) := by
      intro t conf fields s v s' h
      rw [gen_struct] at h
      split at h
      · exact absurd h (by simp)
      · rename_i vs s₁ hvs
        simp only [Option.some.injEq, Prod.mk.injEq] at h
        obtain ⟨hv, hs⟩ := h
        subst hs
        have := ih.2 t conf _ s vs _ hvs
        rw [← hv]
        exact this
    -- helper: gen_slice at fuel n
    have hslice : ∀ (t : Target) (conf : Config) (tid : TypeId) (l hh : Int) (s : State)
        (v : Value) (s' : State), gen_slice t conf n tid l hh s = some (v, s') →
        GVConc t s s' (refsIn v) := by
      intro t conf tid l hh s v s' h
      rw [gen_slice] at h
      split at h
      · exact absurd h (by simp)
      · rename_i len k' hlen
        split at h
        · exact absurd h (by simp)
        · rename_i vs s₁ hvs
          simp only [Option.some.injEq, Prod.mk.injEq] at h
          obtain ⟨hv, hs⟩ := h
          subst hs
          have := ih.2 t conf _ _ vs _ hvs
          have hsh : stateShape s { s with k := k' } := ⟨rfl, rfl, rfl⟩
          have hconc : GVConc t s s₁ (refsInList vs) := GVConc_shape_left hsh this
          rw [← hv]
          exact hconc
    constructor
    · -- gen_value (n+1)
      intro t conf tid s v s' h
      rw [gen_value] at h
      split at h
      · exact absurd h (by simp)
      · rename_i ti hti
        split at h
        · -- Num
          have := gen_num_shape h
          have h0 := GVConc_of_shape (t := t) this.1
          rw [this.2]
          exact h0
        · -- Ptr
          split at h
          · exact hptr t conf _ _ s v s' h
          · exact absurd h (by simp)
        · -- Slice
          exact hslice t conf _ _ _ s v s' h
        · -- Str
          have := gen_str_shape h
          have h0 := GVConc_of_shape (t := t) this.1
          rw [this.2]
          exact h0
        · -- Struct
          exact hstruct t conf _ s v s' h
        · -- Union
          exact hunion t conf _ s v s' h
        · -- Flag
          have := gen_flag_shape h
          have h0 := GVConc_of_shape (t := t) this.1
          rw [this.2]
          exact h0
        · -- Alias
          exact halias t conf _ _ s v s' h
        · -- Res
          exact hres t conf _ _ s v s' h
        · -- Len
          simp only [Option.some.injEq, Prod.mk.injEq] at h
          obtain ⟨hv, hs⟩ := h
          subst hs
          rw [← hv]
          exact GVConc_of_shape (t := t) (stateShape_refl s)
    · -- gen_value_list (n+1)
      intro t conf tids s vs s' h
      cases tids with
      | nil =>
        rw [gen_value_list] at h
        simp only [Option.some.injEq, Prod.mk.injEq] at h
        obtain ⟨hv, hs⟩ := h
        subst hs
        rw [← hv]
        exact GVConc_of_shape (t := t) (stateShape_refl s)
      | cons tid tids =>
        rw [gen_value_list] at h
        split at h
        · exact absurd h (by simp)
        · rename_i w s₁ hw
          split at h
          · exact absurd h (by simp)
          · rename_i ws s₂ hws
            simp only [Option.some.injEq, Prod.mk.injEq] at h
            obtain ⟨hv, hs⟩ := h
            subst hs
            have h1 := ih.1 t conf tid s w s₁ hw
            have h2 := ih.2 t conf tids s₁ ws _ hws
            have := GVConc_trans h1 h2
            rw [← hv]
            exact this

/-! ## Call-level invariant machinery -/

theorem modifyLast_length {α : Type} (f : α → α) :
    ∀ l : List α, (modifyLast f l).length = l.length := by
  intro l
  induction l with
  | nil => rfl
  | cons a rest ih =>
    cases rest with
    | nil => rfl
    | cons b rest' =>
      rw [modifyLast]
      simp only [List.length_cons]
      simpa using ih

theorem modifyLast_getElem?_of_ne {α : Type} (f : α → α) :
    ∀ (l : List α) (i : Nat), i + 1 ≠ l.length → (modifyLast f l)[i]? = l[i]? := by
  intro l
  induction l with
  | nil => intro i _; rfl
  | cons a rest ih =>
    intro i hi
    cases rest with
    | nil =>
      simp only [List.length_cons, List.length_nil] at hi
      rw [modifyLast]
      cases i with
      | zero => exact absurd rfl hi
      | succ j => simp
    | cons b rest' =>
      rw [modifyLast]
      cases i with
      | zero => simp
      | succ j =>
        simp only [List.length_cons] at hi ⊢
        simp only [List.getElem?_cons_succ]
        exact ih j (by simpa using hi)

theorem modifyLast_getElem?_last {α : Type} (f : α → α) :
    ∀ (l : List α) (i : Nat), i + 1 = l.length → (modifyLast f l)[i]? = (l[i]?).map f := by
  intro l
  induction l with
  | nil => intro i hi; simp at hi
  | cons a rest ih =>
    intro i hi
    cases rest with
    | nil =>
      simp only [List.length_cons, List.length_nil] at hi
      have : i = 0 := by omega
      subst this
      rfl
    | cons b rest' =>
      rw [modifyLast]
      cases i with
      | zero =>
        exfalso
        have hlen : (a :: b :: rest').length = rest'.length + 2 := by simp
        omega
      | succ j =>
        have hlen : (a :: b :: rest').length = (b :: rest').length + 1 := by simp
        simp only [List.getElem?_cons_succ]
        exact ih j (by omega)

theorem slotOK_some {p : Prog} {x : ArgIndex} (h : slotOK p x = true) :
    ∃ c, p.calls[x.1]? = some c := by
  unfold slotOK at h
  cases hc : p.calls[x.1]? with
  | none => rw [hc] at h; simp at h
  | some c => exact ⟨c, rfl⟩

theorem getElem?_lt {α : Type} {l : List α} {i : Nat} {a : α} (h : l[i]? = some a) :
    i < l.length := by
  by_contra hc
  rw [List.getElem?_eq_none (by omega)] at h
  exact absurd h (by simp)

theorem slot_append {p : Prog} {c : Call} {x : ArgIndex} (h : slotOK p x = true) :
    slotOK (p.add_call c) x = true ∧ slotTid (p.add_call c) x = slotTid p x := by
  obtain ⟨c₀, hc₀⟩ := slotOK_some h
  have hlt : x.1 < p.calls.length := getElem?_lt hc₀
  have hget : (p.add_call c).calls[x.1]? = p.calls[x.1]? := by
    unfold Prog.add_call
    simp only
    rw [List.getElem?_append_left hlt]
  constructor
  · unfold slotOK at h ⊢
    rw [hget]
    exact h
  · unfold slotTid
    rw [hget]

theorem slot_add_arg {s : State} {a : Arg} {x : ArgIndex} (h : slotOK s.prog x = true) :
    slotOK (s.add_arg a).prog x = true ∧ slotTid (s.add_arg a).prog x = slotTid s.prog x := by
  obtain ⟨c₀, hc₀⟩ := slotOK_some h
  by_cases hlast : x.1 + 1 = s.prog.calls.length
  · have hget : (s.add_arg a).prog.calls[x.1]? = some (c₀.add_arg a) := by
      unfold State.add_arg
      simp only
      rw [modifyLast_getElem?_last _ _ _ hlast, hc₀]
      rfl
    cases hx : x.2 with
    | Ret =>
      constructor
      · unfold slotOK at h ⊢
        rw [hc₀, hx] at h
        rw [hget, hx]
        simpa [Call.add_arg] using h
      · unfold slotTid
        rw [hget, hc₀, hx]
        rfl
    | Arg j =>
      have hj : j < c₀.args.length := by
        unfold slotOK at h
        rw [hc₀, hx] at h
        simpa using h
      constructor
      · unfold slotOK
        rw [hget, hx]
        unfold Call.add_arg
        simp only [List.length_append, List.length_cons, List.length_nil]
        simp only [decide_eq_true_eq]
        omega
      · unfold slotTid
        rw [hget, hc₀, hx]
        unfold Call.add_arg
        simp only
        rw [List.getElem?_append_left hj]
  · have hget : (s.add_arg a).prog.calls[x.1]? = s.prog.calls[x.1]? := by
      unfold State.add_arg
      simp only
      rw [modifyLast_getElem?_of_ne _ _ _ hlast]
    constructor
    · unfold slotOK at h ⊢
      rw [hget]
      exact h
    · unfold slotTid
      rw [hget]

theorem slot_add_ret {s : State} {a : Arg} {x : ArgIndex}
    (hnone : ∀ c, s.prog.calls.getLast? = some c → c.ret = none)
    (h : slotOK s.prog x = true) :
    slotOK (s.add_ret a).prog x = true ∧ slotTid (s.add_ret a).prog x = slotTid s.prog x := by
  obtain ⟨c₀, hc₀⟩ := slotOK_some h
  by_cases hlast : x.1 + 1 = s.prog.calls.length
  · have hlastc : s.prog.calls.getLast? = some c₀ := by
      rw [List.getLast?_eq_getElem?]
      have : s.prog.calls.length - 1 = x.1 := by omega
      rw [this]
      exact hc₀
    have hret : c₀.ret = none := hnone c₀ hlastc
    have hget : (s.add_ret a).prog.calls[x.1]? = some { c₀ with ret := some a } := by
      unfold State.add_ret
      simp only
      rw [modifyLast_getElem?_last _ _ _ hlast, hc₀]
      rfl
    cases hx : x.2 with
    | Ret =>
      exfalso
      unfold slotOK at h
      rw [hc₀, hx] at h
      simp only [hret] at h
      exact absurd h (by simp)
    | Arg j =>
      have hj : j < c₀.args.length := by
        unfold slotOK at h
        rw [hc₀, hx] at h
        simpa using h
      constructor
      · unfold slotOK
        rw [hget, hx]
        simpa using hj
      · unfold slotTid
        rw [hget, hc₀, hx]
  · have hget : (s.add_ret a).prog.calls[x.1]? = s.prog.calls[x.1]? := by
      unfold State.add_ret
      simp only
      rw [modifyLast_getElem?_of_ne _ _ _ hlast]
    constructor
    · unfold slotOK at h ⊢
      rw [hget]
      exact h
    · unfold slotTid
      rw [hget]

theorem slot_update_val {s : State} {v : Value} {x : ArgIndex} (h : slotOK s.prog x = true) :
    slotOK (s.update_val v).prog x = true ∧
      slotTid (s.update_val v).prog x = slotTid s.prog x := by
  obtain ⟨c₀, hc₀⟩ := slotOK_some h
  by_cases hlast : x.1 + 1 = s.prog.calls.length
  · have hget : (s.update_val v).prog.calls[x.1]? =
        some { c₀ with args := modifyLast (fun a => { a with val := v }) c₀.args } := by
      unfold State.update_val
      simp only
      rw [modifyLast_getElem?_last _ _ _ hlast, hc₀]
      rfl
    cases hx : x.2 with
    | Ret =>
      constructor
      · unfold slotOK at h ⊢
        rw [hc₀, hx] at h
        rw [hget, hx]
        simpa using h
      · unfold slotTid
        rw [hget, hc₀, hx]
    | Arg j =>
      have hj : j < c₀.args.length := by
        unfold slotOK at h
        rw [hc₀, hx] at h
        simpa using h
      constructor
      · unfold slotOK
        rw [hget, hx]
        simp only [decide_eq_true_eq]
        rw [modifyLast_length]
        exact hj
      · unfold slotTid
        rw [hget, hc₀, hx]
        simp only
        by_cases hjl : j + 1 = c₀.args.length
        · rw [modifyLast_getElem?_last _ _ _ hjl]
          cases hja : c₀.args[j]? with
          | none => rfl
          | some aj => rfl
        · rw [modifyLast_getElem?_of_ne _ _ _ hjl]
  · have hget : (s.update_val v).prog.calls[x.1]? = s.prog.calls[x.1]? := by
      unfold State.update_val
      simp only
      rw [modifyLast_getElem?_of_ne _ _ _ hlast]
    constructor
    · unfold slotOK at h ⊢
      rw [hget]
      exact h
    · unfold slotTid
      rw [hget]

theorem modifyLast_append_singleton {α : Type} (f : α → α) :
    ∀ (xs : List α) (a : α), modifyLast f (xs ++ [a]) = xs ++ [f a] := by
  intro xs
  induction xs with
  | nil => intro a; rfl
  | cons x xs ih =>
    intro a
    cases xs with
    | nil => rfl
    | cons y ys =>
      calc modifyLast f ((x :: y :: ys) ++ [a])
          = x :: modifyLast f ((y :: ys) ++ [a]) := rfl
        _ = x :: ((y :: ys) ++ [f a]) := by rw [ih a]
        _ = (x :: y :: ys) ++ [f a] := by simp

theorem callRefs_append : ∀ (l₁ l₂ : List Arg),
    callRefs (l₁ ++ l₂) = callRefs l₁ ++ callRefs l₂ := by
  intro l₁ l₂
  induction l₁ with
  | nil => rfl
  | cons a l ih =>
    simp only [List.cons_append, callRefs, List.append_eq, ih, List.append_assoc]

/-- The per-call reference condition of invariant 1. -/
def CallsOK (t : Target) (p : Prog) : Prop :=
  ∀ i c, p.calls[i]? = some c → ∀ x ∈ callRefs c.args,
    x.1 ≤ i ∧ slotOK p x = true ∧
      (x.2 = ArgPos.Ret → ∃ rt', slotTid p x = some rt' ∧ t.is_res rt' = true)

theorem ResEntryOK_mono {t : Target} {p p' : Prog} {e : TypeId × ArgIndex}
    (hlen : p.calls.length ≤ p'.calls.length)
    (hp : ∀ x, slotOK p x = true → slotOK p' x = true ∧ slotTid p' x = slotTid p x)
    (h : ResEntryOK t p e) : ResEntryOK t p' e := by
  obtain ⟨h1, h2, h3, h4⟩ := h
  obtain ⟨h5, h6⟩ := hp e.2 h2
  exact ⟨lt_of_lt_of_le h1 hlen, h5, h3, fun hr => by rw [h6]; exact h4 hr⟩

theorem CallsOK_of_sub {t : Target} {p p' : Prog}
    (hp : ∀ x, slotOK p x = true → slotOK p' x = true ∧ slotTid p' x = slotTid p x)
    (h : CallsOK t p)
    (hrefs : ∀ i c', p'.calls[i]? = some c' → ∀ x ∈ callRefs c'.args,
      (∃ c, p.calls[i]? = some c ∧ x ∈ callRefs c.args) ∨
        (x.1 ≤ i ∧ slotOK p x = true ∧
          (x.2 = ArgPos.Ret → ∃ rt', slotTid p x = some rt' ∧ t.is_res rt' = true))) :
    CallsOK t p' := by
  intro i c' hc' x hx
  rcases hrefs i c' hc' x hx with ⟨c, hc, hxc⟩ | ⟨h1, h2, h3⟩
  · obtain ⟨g1, g2, g3⟩ := h i c hc x hxc
    obtain ⟨m1, m2⟩ := hp x g2
    exact ⟨g1, m1, fun hr => by rw [m2]; exact g3 hr⟩
  · obtain ⟨m1, m2⟩ := hp x h2
    exact ⟨h1, m1, fun hr => by rw [m2]; exact h3 hr⟩

theorem CallsOK_add_call {t : Target} {p : Prog} (c : Call) (hc : callRefs c.args = [])
    (h : CallsOK t p) : CallsOK t (p.add_call c) := by
  intro i c' hc' x hx
  by_cases hi : i < p.calls.length
  · have hget : (p.add_call c).calls[i]? = p.calls[i]? := by
      unfold Prog.add_call
      simp only
      rw [List.getElem?_append_left hi]
    rw [hget] at hc'
    obtain ⟨g1, g2, g3⟩ := h i c' hc' x hx
    obtain ⟨m1, m2⟩ := slot_append (c := c) g2
    exact ⟨g1, m1, fun hr => by rw [m2]; exact g3 hr⟩
  · have hget : (p.add_call c).calls[i]? = [c][i - p.calls.length]? := by
      unfold Prog.add_call
      simp only
      rw [List.getElem?_append_right (by omega)]
    rw [hget] at hc'
    cases hd : i - p.calls.length with
    | zero =>
      rw [hd] at hc'
      simp only [List.getElem?_cons_zero, Option.some.injEq] at hc'
      subst hc'
      rw [hc] at hx
      exact absurd hx (by simp)
    | succ m =>
      rw [hd] at hc'
      exact absurd hc' (by simp)

theorem gen_args_spec (t : Target) (conf : Config) (fuel : Nat) :
    ∀ (ps : List FieldDef) (s s' : State), gen_args t conf fuel ps s = some s' →
      ∀ init c, s.prog.calls = init ++ [c] → c.ret = none →
        StResOK t s → CallsOK t s.prog →
        (s.uflow = true → s'.uflow = true) ∧ s'.prog.gid = s.prog.gid ∧
        ∃ c', s'.prog.calls = init ++ [c'] ∧ c'.fid = c.fid ∧ c'.ret = none ∧
          StResOK t s' ∧ CallsOK t s'.prog := by
  intro ps
  induction ps with
  | nil =>
    intro s s' h init c hcalls hret hres hcok
    rw [gen_args] at h
    simp only [Option.some.injEq] at h
    subst h
    exact ⟨fun hu => hu, rfl, c, hcalls, rfl, hret, hres, hcok⟩
  | cons p ps ih =>
    intro s s' h init c hcalls hret hres hcok
    rw [gen_args] at h
    have hcalls₁ : (s.add_arg (Arg.new p.tid)).prog.calls =
        init ++ [c.add_arg (Arg.new p.tid)] := by
      unfold State.add_arg
      simp only
      rw [hcalls, modifyLast_append_singleton]
    have hlen₁ : (s.add_arg (Arg.new p.tid)).prog.calls.length = s.prog.calls.length := by
      unfold State.add_arg
      simp only
      rw [modifyLast_length]
    have hres₁ : StResOK t (s.add_arg (Arg.new p.tid)) := by
      intro e he
      exact ResEntryOK_mono (by omega) (fun x hx => slot_add_arg hx) (hres e he)
    have hcok₁ : CallsOK t (s.add_arg (Arg.new p.tid)).prog := by
      apply CallsOK_of_sub (fun x hx => slot_add_arg hx) hcok
      intro i c' hc' x hx
      left
      by_cases hi : i < init.length
      · refine ⟨c', ?_, hx⟩
        rw [hcalls₁] at hc'
        rw [List.getElem?_append_left hi] at hc'
        rw [hcalls, List.getElem?_append_left hi]
        exact hc'
      · by_cases hieq : i = init.length
        · subst hieq
          rw [hcalls₁, List.getElem?_append_right (by omega)] at hc'
          simp only [Nat.sub_self, List.getElem?_cons_zero, Option.some.injEq] at hc'
          refine ⟨c, ?_, ?_⟩
          · rw [hcalls, List.getElem?_append_right (by omega)]
            simp
          · rw [← hc'] at hx
            unfold Call.add_arg at hx
            simp only at hx
            rw [callRefs_append] at hx
            rcases List.mem_append.mp hx with hx | hx
            · exact hx
            · exfalso
              simp [callRefs, Arg.new, refsIn] at hx
        · exfalso
          rw [hcalls₁, List.getElem?_append_right (by omega)] at hc'
          have : i - init.length ≠ 0 := by omega
          cases hd : i - init.length with
          | zero => exact absurd hd this
          | succ m => rw [hd] at hc'; exact absurd hc' (by simp)
    have hne₁ : lastArgsNE (s.add_arg (Arg.new p.tid)).prog := by
      unfold lastArgsNE
      rw [hcalls₁, List.getLast?_concat]
      unfold Call.add_arg
      simp
    split at h
    · exact absurd h (by simp)
    · rename_i v s₂ hv
      have hgv := (gen_value_spec fuel).1 t conf p.tid _ v s₂ hv
      obtain ⟨hprog₂, huflow₂, hcond₂⟩ := hgv
      obtain ⟨hres₂, hrefs₂⟩ := hcond₂ hne₁ hres₁
      -- the updated state s₃ := s₂.update_val v
      have hcalls₂ : s₂.prog.calls = init ++ [c.add_arg (Arg.new p.tid)] := by
        rw [hprog₂]
        exact hcalls₁
      have hcalls₃ : (s₂.update_val v).prog.calls =
          init ++ [{ c with args := c.args ++ [⟨p.tid, v⟩] }] := by
        unfold State.update_val
        simp only
        rw [hcalls₂, modifyLast_append_singleton]
        unfold Call.add_arg
        simp only
        rw [modifyLast_append_singleton]
        rfl
      have hlen₂ : s₂.prog.calls.length = init.length + 1 := by
        rw [hcalls₂]
        simp
      have hlen₃ : (s₂.update_val v).prog.calls.length = init.length + 1 := by
        rw [hcalls₃]
        simp
      have hres₃ : StResOK t (s₂.update_val v) := by
        intro e he
        exact ResEntryOK_mono (by omega) (fun x hx => slot_update_val hx) (hres₂ e he)
      have hcok₂ : CallsOK t s₂.prog := by
        rw [hprog₂]
        exact hcok₁
      have hcok₃ : CallsOK t (s₂.update_val v).prog := by
        apply CallsOK_of_sub (fun x hx => slot_update_val hx) hcok₂
        intro i c' hc' x hx
        by_cases hi : i < init.length
        · left
          refine ⟨c', ?_, hx⟩
          rw [hcalls₃, List.getElem?_append_left hi] at hc'
          rw [hcalls₂, List.getElem?_append_left hi]
          exact hc'
        · by_cases hieq : i = init.length
          · subst hieq
            rw [hcalls₃, List.getElem?_append_right (by omega)] at hc'
            simp only [Nat.sub_self, List.getElem?_cons_zero, Option.some.injEq] at hc'
            rw [← hc'] at hx
            simp only at hx
            rw [callRefs_append] at hx
            rcases List.mem_append.mp hx with hx | hx
            · left
              refine ⟨c.add_arg (Arg.new p.tid), ?_, ?_⟩
              · rw [hcalls₂, List.getElem?_append_right (by omega)]
                simp
              · unfold Call.add_arg
                simp only
                rw [callRefs_append]
                exact List.mem_append_left _ hx
            · right
              have hx' : x ∈ refsIn v := by
                simpa [callRefs, refsIn] using hx
              have hrc := hrefs₂ x hx'
              obtain ⟨r1, r2, r3⟩ := hrc
              rw [hprog₂] at *
              refine ⟨by omega, r2, r3⟩
          · exfalso
            rw [hcalls₃, List.getElem?_append_right (by omega)] at hc'
            cases hd : i - init.length with
            | zero => omega
            | succ m => rw [hd] at hc'; exact absurd hc' (by simp)
      have hih := ih _ s' h init { c with args := c.args ++ [⟨p.tid, v⟩] } hcalls₃
        (by simpa using hret) hres₃ hcok₃
      obtain ⟨ihu, ihg, c', ihcalls, ihfid, ihret, ihres, ihcok⟩ := hih
      refine ⟨?_, ?_, c', ihcalls, ?_, ihret, ihres, ihcok⟩
      · intro hu
        exact ihu (huflow₂ hu)
      · rw [ihg]
        have : (s₂.update_val v).prog.gid = s.prog.gid := by
          unfold State.update_val
          simp only
          rw [hprog₂]
          rfl
        exact this
      · rw [ihfid]

theorem gen_call_spec (t : Target) (conf : Config) (fuel : Nat) (f : FnInfo)
    (s s' : State) (h : gen_call t conf fuel f s = some s')
    (hres : StResOK t s) (hcok : CallsOK t s.prog) :
    (s.uflow = true → s'.uflow = true) ∧ s'.prog.gid = s.prog.gid ∧
      s'.prog.calls.length = s.prog.calls.length + 1 ∧
      StResOK t s' ∧ CallsOK t s'.prog := by
  rw [gen_call] at h
  have hcalls₀ : (s.add_call (Call.new f.id)).prog.calls =
      s.prog.calls ++ [Call.new f.id] := rfl
  have hres₀ : StResOK t (s.add_call (Call.new f.id)) := by
    intro e he
    refine ResEntryOK_mono ?_ (fun x hx => slot_append hx) (hres e he)
    rw [hcalls₀]
    simp
  have hcok₀ : CallsOK t (s.add_call (Call.new f.id)).prog :=
    CallsOK_add_call (Call.new f.id) rfl hcok
  split at h
  · exact absurd h (by simp)
  · rename_i s₁ hargs
    have hspec := gen_args_spec t conf fuel f.params _ s₁ hargs s.prog.calls
      (Call.new f.id) hcalls₀ rfl hres₀ hcok₀
    obtain ⟨hu₁, hg₁, c', hcalls₁, hfid₁, hret₁, hres₁, hcok₁⟩ := hspec
    have hlen₁ : s₁.prog.calls.length = s.prog.calls.length + 1 := by
      rw [hcalls₁]
      simp
    split at h
    · -- f.r_tid = some tid
      rename_i tid htid
      split at h
      · -- is_res tid
        rename_i hisres
        -- s₂ := s₁.add_ret (Arg.new tid)
        have hnone : ∀ cc, s₁.prog.calls.getLast? = some cc → cc.ret = none := by
          intro cc hcc
          rw [hcalls₁, List.getLast?_concat] at hcc
          simp only [Option.some.injEq] at hcc
          rw [← hcc]
          exact hret₁
        have hcalls₂ : (s₁.add_ret (Arg.new tid)).prog.calls =
            s.prog.calls ++ [{ c' with ret := some (Arg.new tid) }] := by
          unfold State.add_ret
          simp only
          rw [hcalls₁, modifyLast_append_singleton]
        have hlen₂ : (s₁.add_ret (Arg.new tid)).prog.calls.length =
            s.prog.calls.length + 1 := by
          rw [hcalls₂]
          simp
        have hres₂ : StResOK t (s₁.add_ret (Arg.new tid)) := by
          intro e he
          exact ResEntryOK_mono (by omega) (fun x hx => slot_add_ret hnone hx) (hres₁ e he)
        have hcok₂ : CallsOK t (s₁.add_ret (Arg.new tid)).prog := by
          apply CallsOK_of_sub (fun x hx => slot_add_ret hnone hx) hcok₁
          intro i c'' hc'' x hx
          left
          by_cases hi : i < s.prog.calls.length
          · refine ⟨c'', ?_, hx⟩
            rw [hcalls₂, List.getElem?_append_left hi] at hc''
            rw [hcalls₁, List.getElem?_append_left hi]
            exact hc''
          · by_cases hieq : i = s.prog.calls.length
            · subst hieq
              rw [hcalls₂, List.getElem?_append_right (by omega)] at hc''
              simp only [Nat.sub_self, List.getElem?_cons_zero, Option.some.injEq] at hc''
              refine ⟨c', ?_, ?_⟩
              · rw [hcalls₁, List.getElem?_append_right (by omega)]
                simp
              · rw [← hc''] at hx
                exact hx
            · exfalso
              rw [hcalls₂, List.getElem?_append_right (by omega)] at hc''
              cases hd : i - s.prog.calls.length with
              | zero => omega
              | succ m => rw [hd] at hc''; exact absurd hc'' (by simp)
        have hrr := record_res_ret_spec h
        obtain ⟨hprog', hstrs', huflow', hresval'⟩ := hrr
        have hget₂ : (s₁.add_ret (Arg.new tid)).prog.calls[s.prog.calls.length]? =
            some { c' with ret := some (Arg.new tid) } := by
          rw [hcalls₂, List.getElem?_append_right (by omega)]
          simp
        refine ⟨?_, ?_, ?_, ?_, ?_⟩
        · intro hu
          apply huflow'
          have : (s₁.add_ret (Arg.new tid)).uflow = s₁.uflow := rfl
          rw [this]
          exact hu₁ hu
        · rw [hprog']
          have : (s₁.add_ret (Arg.new tid)).prog.gid = s₁.prog.gid := rfl
          rw [this, hg₁]
          rfl
        · rw [hprog', hlen₂]
        · intro e he
          rw [hresval'] at he
          rcases List.mem_append.mp he with he | he
          · have := hres₂ e he
            rw [hprog']
            exact this
          · rw [List.mem_singleton.mp he]
            rw [hprog']
            unfold ResEntryOK
            have hlenval : (s₁.add_ret (Arg.new tid)).prog.calls.length - 1 =
                s.prog.calls.length := by omega
            refine ⟨?_, ?_, hisres, ?_⟩
            · show (s₁.add_ret (Arg.new tid)).prog.calls.length - 1 <
                (s₁.add_ret (Arg.new tid)).prog.calls.length
              omega
            · unfold slotOK
              simp only [hlenval, hget₂]
              rfl
            · intro _
              unfold slotTid
              simp only [hlenval, hget₂]
              rfl
        · rw [hprog']
          exact hcok₂
      · -- not a resource return
        simp only [Option.some.injEq] at h
        subst h
        exact ⟨hu₁, hg₁, hlen₁, hres₁, hcok₁⟩
    · -- f.r_tid = none
      simp only [Option.some.injEq] at h
      subst h
      exact ⟨hu₁, hg₁, hlen₁, hres₁, hcok₁⟩

theorem gen_calls_spec (t : Target) (conf : Config) (fuel : Nat) (g : GroupDef) :
    ∀ (seq : List Nat) (s s' : State), gen_calls t conf fuel g seq s = some s' →
      StResOK t s → CallsOK t s.prog →
      (s.uflow = true → s'.uflow = true) ∧ s'.prog.gid = s.prog.gid ∧
        s'.prog.calls.length = s.prog.calls.length + seq.length ∧
        StResOK t s' ∧ CallsOK t s'.prog := by
  intro seq
  induction seq with
  | nil =>
    intro s s' h hres hcok
    rw [gen_calls] at h
    simp only [Option.some.injEq] at h
    subst h
    exact ⟨fun hu => hu, rfl, by simp, hres, hcok⟩
  | cons i is ih =>
    intro s s' h hres hcok
    rw [gen_calls] at h
    split at h
    · exact absurd h (by simp)
    · rename_i f hf
      split at h
      · exact absurd h (by simp)
      · rename_i s₁ hcall
        have hc := gen_call_spec t conf fuel f s s₁ hcall hres hcok
        obtain ⟨hu₁, hg₁, hlen₁, hres₁, hcok₁⟩ := hc
        have hrest := ih s₁ s' h hres₁ hcok₁
        obtain ⟨hu₂, hg₂, hlen₂, hres₂, hcok₂⟩ := hrest
        refine ⟨fun hu => hu₂ (hu₁ hu), hg₂.trans hg₁, ?_, hres₂, hcok₂⟩
        rw [hlen₂, hlen₁]
        simp only [List.length_cons]
        omega

theorem genS_spec (t : Target) (rs : List (GroupId × RTable)) (conf : Config) (r : Oracle)
    (fuel : Nat) (st : State) (h : genS t rs conf r fuel = some st) :
    StResOK t st ∧ CallsOK t st.prog ∧
      ∃ seq k,
        choose_seq (rs.getD (r.nat 0 % rs.length) defaultRT).2
            conf r 1 = some (seq, k) ∧
        st.prog.calls.length = seq.length := by
  rw [genS] at h
  split at h
  · exact absurd h (by simp)
  · split at h
    · exact absurd h (by simp)
    · split at h
      · exact absurd h (by simp)
      · rename_i g hg
        split at h
        · exact absurd h (by simp)
        · rename_i seq k hseq
          have h0res : StResOK t (State.new
              (Prog.new (rs.getD (r.nat 0 % rs.length) defaultRT).1) r k) := by
            intro e he
            exact absurd he (by simp [State.new])
          have h0cok : CallsOK t (State.new
              (Prog.new (rs.getD (r.nat 0 % rs.length) defaultRT).1) r k).prog := by
            intro i c hc
            exact absurd hc (by simp [State.new, Prog.new])
          have := gen_calls_spec t conf fuel g seq _ st h h0res h0cok
          obtain ⟨_, _, hlen, hres, hcok⟩ := this
          refine ⟨hres, hcok, seq, k, hseq, ?_⟩
          rw [hlen]
          simp [State.new, Prog.new]

/-- Typed-reference judgment: the value `v`, sitting at a consuming
position of declared type `tid` inside the call at index `i` of program
`p`, carries only `Ref`s that are reached through the type structure of
`tid` at a `Res`-typed (or resource-alias-typed) consuming position, point
at an existing slot of a call with index at most `i`, and — when the slot
is a return slot — whose declared TypeId equals that consuming resource
TypeId. -/
inductive RefsTyped (t : Target) (p : Prog) (i : Nat) : TypeId → Value → Prop where
  | noRefs (tid : TypeId) (v : Value) :
      refsIn v = [] → RefsTyped t p i tid v
  | ref (tid under : TypeId) (x : ArgIndex) :
      t.type_of tid = some (TypeInfo.Res under) →
      x.1 ≤ i → slotOK p x = true →
      (x.2 = ArgPos.Ret → slotTid p x = some tid) →
      RefsTyped t p i tid (Value.Ref x)
  | refAlias (tid : TypeId) (nm : String) (under : TypeId) (x : ArgIndex) :
      t.type_of tid = some (TypeInfo.Alias nm under) →
      t.is_res tid = true →
      x.1 ≤ i → slotOK p x = true →
      (x.2 = ArgPos.Ret → slotTid p x = some tid) →
      RefsTyped t p i tid (Value.Ref x)
  | resFresh (tid under : TypeId) (v : Value) :
      t.type_of tid = some (TypeInfo.Res under) →
      RefsTyped t p i under v → RefsTyped t p i tid v
  | aliasUnder (tid : TypeId) (nm : String) (under : TypeId) (v : Value) :
      t.type_of tid = some (TypeInfo.Alias nm under) →
      RefsTyped t p i under v → RefsTyped t p i tid v
  | ptr (tid : TypeId) (dir : PtrDir) (inner : TypeId) (depth : Nat) (v : Value) :
      t.type_of tid = some (TypeInfo.Ptr dir inner depth) →
      RefsTyped t p i inner v → RefsTyped t p i tid v
  | opt (tid : TypeId) (nm : String) (fields : List FieldDef) (j : Nat) (v : Value) :
      t.type_of tid = some (TypeInfo.Union nm fields) →
      j < fields.length →
      RefsTyped t p i (fields.getD j ⟨"", 0⟩).tid v →
      RefsTyped t p i tid (Value.Opt j v)
  | struct (tid : TypeId) (nm : String) (fields : List FieldDef) (vs : List Value) :
      t.type_of tid = some (TypeInfo.Struct nm fields) →
      vs.length = fields.length →
      (∀ j, j < vs.length →
        RefsTyped t p i ((fields.map (·.tid)).getD j 0) (vs.getD j Value.NoneV)) →
      RefsTyped t p i tid (Value.Group vs)
  | slice (tid inner : TypeId) (l h : Int) (vs : List Value) :
      t.type_of tid = some (TypeInfo.Slice inner l h) →
      (∀ j, j < vs.length → RefsTyped t p i inner (vs.getD j Value.NoneV)) →
      RefsTyped t p i tid (Value.Group vs)

/-- The per-call typed-reference condition: every argument of every call is
typed-reference-correct for its declared TypeId at its call's index. -/
def CallsTyped (t : Target) (p : Prog) : Prop :=
  ∀ i c, p.calls[i]? = some c → ∀ a ∈ c.args, RefsTyped t p i a.tid a.val

theorem RefsTyped_mono {t : Target} {p p' : Prog} {i : Nat}
    (hp : ∀ x, slotOK p x = true → slotOK p' x = true ∧ slotTid p' x = slotTid p x) :
    ∀ {tid : TypeId} {v : Value}, RefsTyped t p i tid v → RefsTyped t p' i tid v := by
  intro tid v h
  induction h with
  | noRefs tid v hr => exact RefsTyped.noRefs tid v hr
  | ref tid under x hty hle hok hret =>
    obtain ⟨h1, h2⟩ := hp x hok
    exact RefsTyped.ref tid under x hty hle h1 (fun hr => by rw [h2]; exact hret hr)
  | refAlias tid nm under x hty hires hle hok hret =>
    obtain ⟨h1, h2⟩ := hp x hok
    exact RefsTyped.refAlias tid nm under x hty hires hle h1
      (fun hr => by rw [h2]; exact hret hr)
  | resFresh tid under v hty _ ih => exact RefsTyped.resFresh tid under v hty ih
  | aliasUnder tid nm under v hty _ ih => exact RefsTyped.aliasUnder tid nm under v hty ih
  | ptr tid dir inner depth v hty _ ih => exact RefsTyped.ptr tid dir inner depth v hty ih
  | opt tid nm fields j v hty hj _ ih => exact RefsTyped.opt tid nm fields j v hty hj ih
  | struct tid nm fields vs hty hlen _ ih => exact RefsTyped.struct tid nm fields vs hty hlen ih
  | slice tid inner l hh vs hty _ ih => exact RefsTyped.slice tid inner l hh vs hty ih

theorem gen_value_typed : ∀ fuel : Nat,
    (∀ (t : Target) (conf : Config) (tid : TypeId) (s : State) (v : Value) (s' : State),
      gen_value t conf fuel tid s = some (v, s') →
      lastArgsNE s.prog → StResOK t s →
      RefsTyped t s.prog (s.prog.calls.length - 1) tid v) ∧
    (∀ (t : Target) (conf : Config) (tids : List TypeId) (s : State) (vs : List Value)
      (s' : State),
      gen_value_list t conf fuel tids s = some (vs, s') →
      lastArgsNE s.prog → StResOK t s →
      vs.length = tids.length ∧
      ∀ j, j < vs.length →
        RefsTyped t s.prog (s.prog.calls.length - 1) (tids.getD j 0)
          (vs.getD j Value.NoneV)) := by
  intro fuel
  induction fuel with
  | zero =>
    constructor
    · intro t conf tid s v s' h
      exact absurd h (by simp [gen_value])
    · intro t conf tids s vs s' h
      exact absurd h (by simp [gen_value_list])
  | succ n ih =>
    have hres_t : ∀ (t : Target) (conf : Config) (res_tid tid : TypeId) (s : State) (v : Value)
        (s' : State), gen_res t conf n res_tid tid s = some (v, s') →
        lastArgsNE s.prog → StResOK t s →
        ((∃ x, v = Value.Ref x ∧ x.1 ≤ s.prog.calls.length - 1 ∧ slotOK s.prog x = true ∧
            (x.2 = ArgPos.Ret → slotTid s.prog x = some res_tid)) ∨
          RefsTyped t s.prog (s.prog.calls.length - 1) tid v) := by
      intro t conf res_tid tid s v s' h hne hok
      rw [gen_res] at h
      rcases hr : s.try_reuse_res res_tid with ⟨ov, s₁⟩
      rw [hr] at h
      cases ov with
      | some w =>
        simp only [Option.some.injEq, Prod.mk.injEq] at h
        obtain ⟨hv, hs⟩ := h
        obtain ⟨x, hw, hmem, hsh, _⟩ := try_reuse_res_some hr
        obtain ⟨e1, e2, e3, e4⟩ := hok _ hmem
        have e1' : x.1 < s.prog.calls.length := e1
        exact Or.inl ⟨x, by rw [← hv, hw], by omega, e2, e4⟩
      | none =>
        have hs1 : s₁ = s := try_reuse_res_none hr
        rw [hs1] at h
        exact Or.inr (ih.1 t conf tid s v s' h hne hok)
    have hptr_t : ∀ (t : Target) (conf : Config) (dir : PtrDir) (inner : TypeId) (s : State)
        (v : Value) (s' : State), gen_ptr t conf n dir inner s = some (v, s') →
        lastArgsNE s.prog → StResOK t s →
        (refsIn v = [] ∨ RefsTyped t s.prog (s.prog.calls.length - 1) inner v) := by
      intro t conf dir inner s v s' h hne hok
      rw [gen_ptr] at h
      split at h
      · split at h
        · split at h
          · exact absurd h (by simp)
          · simp only [Option.some.injEq, Prod.mk.injEq] at h
            obtain ⟨hv, hs⟩ := h
            exact Or.inl (by rw [← hv]; simp [Value.default_val, refsIn])
        · simp only [Option.some.injEq, Prod.mk.injEq] at h
          obtain ⟨hv, hs⟩ := h
          exact Or.inl (by rw [← hv]; simp [Value.default_val, refsIn])
      · split at h
        rename_i b₁ s₁ hflip
        have hs₁ : s₁ = (s.flip).2 := by rw [hflip]
        split at h
        · rw [hs₁] at h
          exact Or.inr (ih.1 t conf inner (s.flip).2 v s' h hne hok)
        · simp only [Option.some.injEq, Prod.mk.injEq] at h
          obtain ⟨hv, hs⟩ := h
          exact Or.inl (by rw [← hv]; rfl)
    have hunion_t : ∀ (t : Target) (conf : Config) (fields : List FieldDef) (s : State)
        (v : Value) (s' : State), gen_union t conf n fields s = some (v, s') →
        lastArgsNE s.prog → StResOK t s →
        ∃ j w, v = Value.Opt j w ∧ j < fields.length ∧
          RefsTyped t s.prog (s.prog.calls.length - 1) (fields.getD j ⟨"", 0⟩).tid w := by
      intro t conf fields s v s' h hne hok
      rw [gen_union] at h
      split at h
      · exact absurd h (by simp)
      · rename_i hfe
        split at h
        rename_i i₁ s₁ hpick
        have hs₁ : s₁ = (s.pick).2 := by rw [hpick]
        split at h
        · exact absurd h (by simp)
        · rename_i w s₂ hw
          simp only [Option.some.injEq, Prod.mk.injEq] at h
          obtain ⟨hv, hs⟩ := h
          rw [hs₁] at hw
          have hty := ih.1 t conf _ (s.pick).2 w s₂ hw hne hok
          have hflen : 0 < fields.length := by
            cases fields with
            | nil => exact absurd rfl hfe
            | cons a l => simp
          exact ⟨i₁ % fields.length, w, hv.symm, Nat.mod_lt _ hflen, hty⟩
    have hstruct_t : ∀ (t : Target) (conf : Config) (fields : List FieldDef) (s : State)
        (v : Value) (s' : State), gen_struct t conf n fields s = some (v, s') →
        lastArgsNE s.prog → StResOK t s →
        ∃ vs, v = Value.Group vs ∧ vs.length = fields.length ∧
          ∀ j, j < vs.length →
            RefsTyped t s.prog (s.prog.calls.length - 1) ((fields.map (·.tid)).getD j 0)
              (vs.getD j Value.NoneV) := by
      intro t conf fields s v s' h hne hok
      rw [gen_struct] at h
      split at h
      · exact absurd h (by simp)
      · rename_i vs s₁ hvs
        simp only [Option.some.injEq, Prod.mk.injEq] at h
        obtain ⟨hv, hs⟩ := h
        obtain ⟨hlen, hall⟩ := ih.2 t conf _ s vs s₁ hvs hne hok
        exact ⟨vs, hv.symm, by rw [hlen]; simp, hall⟩
    have hslice_t : ∀ (t : Target) (conf : Config) (tid : TypeId) (l hh : Int) (s : State)
        (v : Value) (s' : State), gen_slice t conf n tid l hh s = some (v, s') →
        lastArgsNE s.prog → StResOK t s →
        ∃ vs, v = Value.Group vs ∧
          ∀ j, j < vs.length →
            RefsTyped t s.prog (s.prog.calls.length - 1) tid (vs.getD j Value.NoneV) := by
      intro t conf tid l hh s v s' h hne hok
      rw [gen_slice] at h
      split at h
      · exact absurd h (by simp)
      · rename_i len k' hlk
        split at h
        · exact absurd h (by simp)
        · rename_i vs s₁ hvs
          simp only [Option.some.injEq, Prod.mk.injEq] at h
          obtain ⟨hv, hs⟩ := h
          obtain ⟨hlen, hall⟩ := ih.2 t conf _ { s with k := k' } vs s₁ hvs hne hok
          refine ⟨vs, hv.symm, ?_⟩
          intro j hj
          have hrep : (List.replicate len tid).getD j 0 = tid := by
            have hjl : j < len := by
              rw [hlen] at hj
              simpa using hj
            simp [List.getD_eq_getElem?_getD, List.getElem?_replicate, hjl]
          have := hall j hj
          rw [hrep] at this
          exact this
    constructor
    · intro t conf tid s v s' h hne hok
      rw [gen_value] at h
      split at h
      · exact absurd h (by simp)
      · rename_i ti hti
        split at h
        · exact RefsTyped.noRefs tid v (gen_num_shape h).2
        · rename_i dir inner depth
          split at h
          · rcases hptr_t t conf dir inner s v s' h hne hok with hrefs | hty
            · exact RefsTyped.noRefs tid v hrefs
            · exact RefsTyped.ptr tid dir inner depth v hti hty
          · exact absurd h (by simp)
        · rename_i inner l hh
          obtain ⟨vs, hv, hall⟩ := hslice_t t conf inner l hh s v s' h hne hok
          rw [hv]
          exact RefsTyped.slice tid inner l hh vs hti hall
        · exact RefsTyped.noRefs tid v (gen_str_shape h).2
        · rename_i nm fields
          obtain ⟨vs, hv, hlen, hall⟩ := hstruct_t t conf fields s v s' h hne hok
          rw [hv]
          exact RefsTyped.struct tid nm fields vs hti hlen hall
        · rename_i nm fields
          obtain ⟨j, w, hv, hj, hty⟩ := hunion_t t conf fields s v s' h hne hok
          rw [hv]
          exact RefsTyped.opt tid nm fields j w hti hj hty
        · exact RefsTyped.noRefs tid v (gen_flag_shape h).2
        · rename_i nm under
          rw [gen_alias] at h
          split at h
          · rename_i hires
            rcases hres_t t conf tid under s v s' h hne hok with
              ⟨x, hvx, hxle, hxok, hxret⟩ | hty
            · rw [hvx]
              exact RefsTyped.refAlias tid nm under x hti hires hxle hxok hxret
            · exact RefsTyped.aliasUnder tid nm under v hti hty
          · exact RefsTyped.aliasUnder tid nm under v hti
              (ih.1 t conf under s v s' h hne hok)
        · rename_i under
          rcases hres_t t conf tid under s v s' h hne hok with
            ⟨x, hvx, hxle, hxok, hxret⟩ | hty
          · rw [hvx]
            exact RefsTyped.ref tid under x hti hxle hxok hxret
          · exact RefsTyped.resFresh tid under v hti hty
        · simp only [Option.some.injEq, Prod.mk.injEq] at h
          obtain ⟨hv, hs⟩ := h
          rw [← hv]
          exact RefsTyped.noRefs tid _ rfl
    · intro t conf tids s vs s' h hne hok
      cases tids with
      | nil =>
        rw [gen_value_list] at h
        simp only [Option.some.injEq, Prod.mk.injEq] at h
        obtain ⟨hv, hs⟩ := h
        rw [← hv]
        exact ⟨rfl, fun j hj => absurd hj (by simp)⟩
      | cons tid tids =>
        rw [gen_value_list] at h
        split at h
        · exact absurd h (by simp)
        · rename_i w s₁ hw
          split at h
          · exact absurd h (by simp)
          · rename_i ws s₂ hws
            simp only [Option.some.injEq, Prod.mk.injEq] at h
            obtain ⟨hv, hs⟩ := h
            obtain ⟨hprog₁, _, hcond⟩ := (gen_value_spec n).1 t conf tid s w s₁ hw
            have hok₁ : StResOK t s₁ := (hcond hne hok).1
            have hne₁ : lastArgsNE s₁.prog := by rw [hprog₁]; exact hne
            have h1 := ih.1 t conf tid s w s₁ hw hne hok
            obtain ⟨hlen₂, hall₂⟩ := ih.2 t conf tids s₁ ws s₂ hws hne₁ hok₁
            rw [← hv]
            constructor
            · simp [hlen₂]
            · intro j hj
              cases j with
              | zero =>
                simp only [List.getD_cons_zero]
                exact h1
              | succ m =>
                simp only [List.getD_cons_succ]
                have hm : m < ws.length := by
                  simp only [List.length_cons] at hj
                  omega
                have := hall₂ m hm
                rw [hprog₁] at this
                exact this

theorem CallsTyped_add_call {t : Target} {p : Prog} (c : Call) (hc : c.args = [])
    (h : CallsTyped t p) : CallsTyped t (p.add_call c) := by
  intro i c' hc' a ha
  by_cases hi : i < p.calls.length
  · have hget : (p.add_call c).calls[i]? = p.calls[i]? := by
      unfold Prog.add_call
      simp only
      rw [List.getElem?_append_left hi]
    rw [hget] at hc'
    exact RefsTyped_mono (fun x hx => slot_append hx) (h i c' hc' a ha)
  · have hget : (p.add_call c).calls[i]? = [c][i - p.calls.length]? := by
      unfold Prog.add_call
      simp only
      rw [List.getElem?_append_right (by omega)]
    rw [hget] at hc'
    cases hd : i - p.calls.length with
    | zero =>
      rw [hd] at hc'
      simp only [List.getElem?_cons_zero, Option.some.injEq] at hc'
      subst hc'
      rw [hc] at ha
      exact absurd ha (by simp)
    | succ m =>
      rw [hd] at hc'
      exact absurd hc' (by simp)

theorem gen_args_typed (t : Target) (conf : Config) (fuel : Nat) :
    ∀ (ps : List FieldDef) (s s' : State), gen_args t conf fuel ps s = some s' →
      ∀ init c, s.prog.calls = init ++ [c] → c.ret = none →
        StResOK t s → CallsTyped t s.prog →
        ∃ c', s'.prog.calls = init ++ [c'] ∧ c'.ret = none ∧
          StResOK t s' ∧ CallsTyped t s'.prog := by
  intro ps
  induction ps with
  | nil =>
    intro s s' h init c hcalls hret hres hty
    rw [gen_args] at h
    simp only [Option.some.injEq] at h
    subst h
    exact ⟨c, hcalls, hret, hres, hty⟩
  | cons p ps ih =>
    intro s s' h init c hcalls hret hres hty
    rw [gen_args] at h
    have hcalls₁ : (s.add_arg (Arg.new p.tid)).prog.calls =
        init ++ [c.add_arg (Arg.new p.tid)] := by
      unfold State.add_arg
      simp only
      rw [hcalls, modifyLast_append_singleton]
    have hlen₁ : (s.add_arg (Arg.new p.tid)).prog.calls.length = s.prog.calls.length := by
      unfold State.add_arg
      simp only
      rw [modifyLast_length]
    have hres₁ : StResOK t (s.add_arg (Arg.new p.tid)) := by
      intro e he
      exact ResEntryOK_mono (by omega) (fun x hx => slot_add_arg hx) (hres e he)
    have hne₁ : lastArgsNE (s.add_arg (Arg.new p.tid)).prog := by
      unfold lastArgsNE
      rw [hcalls₁, List.getLast?_concat]
      unfold Call.add_arg
      simp
    have hty₁ : CallsTyped t (s.add_arg (Arg.new p.tid)).prog := by
      intro i c'' hc'' a ha
      by_cases hi : i < init.length
      · rw [hcalls₁, List.getElem?_append_left hi] at hc''
        have hcs : s.prog.calls[i]? = some c'' := by
          rw [hcalls, List.getElem?_append_left hi]
          exact hc''
        exact RefsTyped_mono (fun x hx => slot_add_arg hx) (hty i c'' hcs a ha)
      · by_cases hieq : i = init.length
        · subst hieq
          rw [hcalls₁, List.getElem?_append_right (by omega)] at hc''
          simp only [Nat.sub_self, List.getElem?_cons_zero, Option.some.injEq] at hc''
          subst hc''
          have ha' : a ∈ c.args ++ [Arg.new p.tid] := ha
          rcases List.mem_append.mp ha' with ha'' | ha''
          · have hcs : s.prog.calls[init.length]? = some c := by
              rw [hcalls, List.getElem?_append_right (by omega)]
              simp
            exact RefsTyped_mono (fun x hx => slot_add_arg hx)
              (hty init.length c hcs a ha'')
          · rw [List.mem_singleton.mp ha'']
            exact RefsTyped.noRefs _ _ rfl
        · exfalso
          rw [hcalls₁, List.getElem?_append_right (by omega)] at hc''
          cases hd : i - init.length with
          | zero => omega
          | succ m => rw [hd] at hc''; exact absurd hc'' (by simp)
    split at h
    · exact absurd h (by simp)
    · rename_i v s₂ hv
      obtain ⟨hprog₂, huflow₂, hcond₂⟩ := (gen_value_spec fuel).1 t conf p.tid _ v s₂ hv
      obtain ⟨hres₂, _⟩ := hcond₂ hne₁ hres₁
      have htyv := (gen_value_typed fuel).1 t conf p.tid _ v s₂ hv hne₁ hres₁
      have hidx : (s.add_arg (Arg.new p.tid)).prog.calls.length - 1 = init.length := by
        rw [hcalls₁]
        simp
      rw [hidx] at htyv
      have hcalls₂ : s₂.prog.calls = init ++ [c.add_arg (Arg.new p.tid)] := by
        rw [hprog₂]
        exact hcalls₁
      have hcalls₃ : (s₂.update_val v).prog.calls =
          init ++ [{ c with args := c.args ++ [⟨p.tid, v⟩] }] := by
        unfold State.update_val
        simp only
        rw [hcalls₂, modifyLast_append_singleton]
        unfold Call.add_arg
        simp only
        rw [modifyLast_append_singleton]
        rfl
      have hlen₂ : s₂.prog.calls.length = init.length + 1 := by
        rw [hcalls₂]
        simp
      have hlen₃ : (s₂.update_val v).prog.calls.length = init.length + 1 := by
        rw [hcalls₃]
        simp
      have hres₃ : StResOK t (s₂.update_val v) := by
        intro e he
        exact ResEntryOK_mono (by omega) (fun x hx => slot_update_val hx) (hres₂ e he)
      have hty₂ : CallsTyped t s₂.prog := by
        rw [hprog₂]
        exact hty₁
      have htyv₂ : RefsTyped t s₂.prog init.length p.tid v := by
        rw [hprog₂]
        exact htyv
      have hty₃ : CallsTyped t (s₂.update_val v).prog := by
        intro i c'' hc'' a ha
        by_cases hi : i < init.length
        · rw [hcalls₃, List.getElem?_append_left hi] at hc''
          have hcs : s₂.prog.calls[i]? = some c'' := by
            rw [hcalls₂, List.getElem?_append_left hi]
            exact hc''
          exact RefsTyped_mono (fun x hx => slot_update_val hx) (hty₂ i c'' hcs a ha)
        · by_cases hieq : i = init.length
          · subst hieq
            rw [hcalls₃, List.getElem?_append_right (by omega)] at hc''
            simp only [Nat.sub_self, List.getElem?_cons_zero, Option.some.injEq] at hc''
            subst hc''
            have ha' : a ∈ c.args ++ [(⟨p.tid, v⟩ : Arg)] := ha
            rcases List.mem_append.mp ha' with ha'' | ha''
            · have hcs : s₂.prog.calls[init.length]? =
                  some (c.add_arg (Arg.new p.tid)) := by
                rw [hcalls₂, List.getElem?_append_right (by omega)]
                simp
              have hmem : a ∈ (c.add_arg (Arg.new p.tid)).args := by
                unfold Call.add_arg
                simp only
                exact List.mem_append_left _ ha''
              exact RefsTyped_mono (fun x hx => slot_update_val hx)
                (hty₂ init.length _ hcs a hmem)
            · rw [List.mem_singleton.mp ha'']
              exact RefsTyped_mono (fun x hx => slot_update_val hx) htyv₂
          · exfalso
            rw [hcalls₃, List.getElem?_append_right (by omega)] at hc''
            cases hd : i - init.length with
            | zero => omega
            | succ m => rw [hd] at hc''; exact absurd hc'' (by simp)
      exact ih _ s' h init { c with args := c.args ++ [⟨p.tid, v⟩] } hcalls₃
        (by simpa using hret) hres₃ hty₃

theorem gen_call_typed (t : Target) (conf : Config) (fuel : Nat) (f : FnInfo)
    (s s' : State) (h : gen_call t conf fuel f s = some s')
    (hres : StResOK t s) (hcok : CallsOK t s.prog) (hty : CallsTyped t s.prog) :
    StResOK t s' ∧ CallsOK t s'.prog ∧ CallsTyped t s'.prog := by
  obtain ⟨_, _, _, hres', hcok'⟩ := gen_call_spec t conf fuel f s s' h hres hcok
  refine ⟨hres', hcok', ?_⟩
  rw [gen_call] at h
  have hcalls₀ : (s.add_call (Call.new f.id)).prog.calls =
      s.prog.calls ++ [Call.new f.id] := rfl
  have hres₀ : StResOK t (s.add_call (Call.new f.id)) := by
    intro e he
    refine ResEntryOK_mono ?_ (fun x hx => slot_append hx) (hres e he)
    rw [hcalls₀]
    simp
  have hty₀ : CallsTyped t (s.add_call (Call.new f.id)).prog :=
    CallsTyped_add_call (Call.new f.id) rfl hty
  split at h
  · exact absurd h (by simp)
  · rename_i s₁ hargs
    obtain ⟨c', hcalls₁, hret₁, hres₁, hty₁⟩ := gen_args_typed t conf fuel f.params _ s₁
      hargs s.prog.calls (Call.new f.id) hcalls₀ rfl hres₀ hty₀
    split at h
    · rename_i tid htid
      split at h
      · rename_i hisres
        have hnone : ∀ cc, s₁.prog.calls.getLast? = some cc → cc.ret = none := by
          intro cc hcc
          rw [hcalls₁, List.getLast?_concat] at hcc
          simp only [Option.some.injEq] at hcc
          rw [← hcc]
          exact hret₁
        have hcalls₂ : (s₁.add_ret (Arg.new tid)).prog.calls =
            s.prog.calls ++ [{ c' with ret := some (Arg.new tid) }] := by
          unfold State.add_ret
          simp only
          rw [hcalls₁, modifyLast_append_singleton]
        have hty₂ : CallsTyped t (s₁.add_ret (Arg.new tid)).prog := by
          intro i c'' hc'' a ha
          by_cases hi : i < s.prog.calls.length
          · rw [hcalls₂, List.getElem?_append_left hi] at hc''
            have hcs : s₁.prog.calls[i]? = some c'' := by
              rw [hcalls₁, List.getElem?_append_left hi]
              exact hc''
            exact RefsTyped_mono (fun x hx => slot_add_ret hnone hx) (hty₁ i c'' hcs a ha)
          · by_cases hieq : i = s.prog.calls.length
            · subst hieq
              rw [hcalls₂, List.getElem?_append_right (by omega)] at hc''
              simp only [Nat.sub_self, List.getElem?_cons_zero, Option.some.injEq] at hc''
              subst hc''
              have hcs : s₁.prog.calls[s.prog.calls.length]? = some c' := by
                rw [hcalls₁, List.getElem?_append_right (by omega)]
                simp
              have hmem : a ∈ c'.args := ha
              exact RefsTyped_mono (fun x hx => slot_add_ret hnone hx)
                (hty₁ s.prog.calls.length c' hcs a hmem)
            · exfalso
              rw [hcalls₂, List.getElem?_append_right (by omega)] at hc''
              cases hd : i - s.prog.calls.length with
              | zero => omega
              | succ m => rw [hd] at hc''; exact absurd hc'' (by simp)
        obtain ⟨hprog', _, _, _⟩ := record_res_ret_spec h
        intro i c'' hc'' a ha
        rw [hprog'] at hc''
        have := hty₂ i c'' hc'' a ha
        rw [hprog']
        exact this
      · simp only [Option.some.injEq] at h
        subst h
        exact hty₁
    · simp only [Option.some.injEq] at h
      subst h
      exact hty₁

theorem gen_calls_typed (t : Target) (conf : Config) (fuel : Nat) (g : GroupDef) :
    ∀ (seq : List Nat) (s s' : State), gen_calls t conf fuel g seq s = some s' →
      StResOK t s → CallsOK t s.prog → CallsTyped t s.prog →
      CallsTyped t s'.prog := by
  intro seq
  induction seq with
  | nil =>
    intro s s' h hres hcok hty
    rw [gen_calls] at h
    simp only [Option.some.injEq] at h
    subst h
    exact hty
  | cons i is ih =>
    intro s s' h hres hcok hty
    rw [gen_calls] at h
    split at h
    · exact absurd h (by simp)
    · rename_i f hf
      split at h
      · exact absurd h (by simp)
      · rename_i s₁ hcall
        obtain ⟨hres₁, hcok₁, hty₁⟩ := gen_call_typed t conf fuel f s s₁ hcall hres hcok hty
        exact ih s₁ s' h hres₁ hcok₁ hty₁

theorem genS_typed (t : Target) (rs : List (GroupId × RTable)) (conf : Config) (r : Oracle)
    (fuel : Nat) (st : State) (h : genS t rs conf r fuel = some st) :
    CallsTyped t st.prog := by
  rw [genS] at h
  split at h
  · exact absurd h (by simp)
  · split at h
    · exact absurd h (by simp)
    · split at h
      · exact absurd h (by simp)
      · rename_i g hg
        split at h
        · exact absurd h (by simp)
        · rename_i seq k hseq
          have h0res : StResOK t (State.new
              (Prog.new (rs.getD (r.nat 0 % rs.length) defaultRT).1) r k) := by
            intro e he
            exact absurd he (by simp [State.new])
          have h0cok : CallsOK t (State.new
              (Prog.new (rs.getD (r.nat 0 % rs.length) defaultRT).1) r k).prog := by
            intro i c hc
            exact absurd hc (by simp [State.new, Prog.new])
          have h0ty : CallsTyped t (State.new
              (Prog.new (rs.getD (r.nat 0 % rs.length) defaultRT).1) r k).prog := by
            intro i c hc
            exact absurd hc (by simp [State.new, Prog.new])
          exact gen_calls_typed t conf fuel g seq _ st h h0res h0cok h0ty

/-! ## Claim C1: reference targets in generated programs -/

/-- C1 (amended): in every program returned by `gen`, every argument value
is typed-reference-correct (`RefsTyped`) for its declared TypeId at its
call's index `i`: every `Value::Ref((c,p))` it contains sits at a
`Res`-typed (or resource-alias-typed) consuming position reached through
the structure of the declared type, satisfies `c ≤ i` (the producing call
is earlier, or the same call when a resource is produced through an
out-pointer of the same call), call `c` really has the slot `p`, and when
`p` is the return slot its declared TypeId equals the consuming position's
resource TypeId.  An `Arg(k)` slot denotes the whole recorded parameter
(e.g. the out-pointer), whose declared TypeId need not equal the consumed
resource TypeId (see the counterexample). -/
theorem gen_ref_targets (t : Target) (rs : List (GroupId × RTable)) (conf : Config)
    (r : Oracle) (fuel : Nat) (p : Prog) (h : gen t rs conf r fuel = some p) :
    CallsTyped t p ∧
    ∀ i c, p.calls[i]? = some c → ∀ x ∈ callRefs c.args,
      x.1 ≤ i ∧ slotOK p x = true ∧
        (x.2 = ArgPos.Ret → ∃ rt', slotTid p x = some rt' ∧ t.is_res rt' = true) := by
  unfold gen at h
  cases hS : genS t rs conf r fuel with
  | none => rw [hS] at h; exact absurd h (by simp)
  | some st =>
    rw [hS] at h
    simp at h
    obtain ⟨_, hcok, _⟩ := genS_spec t rs conf r fuel st hS
    have hty := genS_typed t rs conf r fuel st hS
    rw [← h]
    exact ⟨hty, hcok⟩

def T1 : Target :=
  { types := [(0, TypeInfo.Num ⟨NumKind.i32, NumLimit.NoneL⟩),
              (1, TypeInfo.Res 0),
              (2, TypeInfo.Ptr PtrDir.Out 1 1)],
    groups := [(0, ⟨0, [⟨0, [⟨"p", 2⟩], none⟩, ⟨1, [⟨"q", 1⟩], none⟩]⟩)] }

def rsT1 : List (GroupId × RTable) := [(0, ⟨2, fun _ _ => Relation.NoneR⟩)]

/-- Oracle steering the `T1` run: seed `f0` then `f1`, then reuse the
recorded handle. -/
def rC1 : Oracle := ⟨fun n => n == 2, fun n => if n == 3 then 1 else 0⟩

/-- The program `gen` produces on `T1` under `rC1`: `f0(out ptr fd)` then
`f1(fd := Ref((0, Arg 0)))`. -/
def P1 : Prog :=
  ⟨0, [⟨0, [⟨2, Value.Default 1⟩], none⟩, ⟨1, [⟨1, Value.Ref (0, ArgPos.Arg 0)⟩], none⟩]⟩

theorem gen_T1_eval : gen T1 rsT1 Config.default rC1 20 = some P1 := by
  have hseq : choose_seq (rsT1.getD (rC1.nat 0 % rsT1.length) defaultRT).2 Config.default rC1 1 =
      some ([0, 1], 5) := by
    simp [choose_seq, choose_seq_loop, push_deps, push_deps_row, rC1, rsT1, Config.default]
  unfold gen genS
  rw [hseq]
  simp [gen_calls, gen_call, gen_args, gen_value, gen_ptr, gen_res, gen_alias, gen_union,
    gen_struct, gen_slice, gen_value_list, gen_num, gen_str, gen_flag, State.add_call,
    State.add_arg, State.add_ret, State.update_val, State.record_res, State.try_reuse_res,
    State.resPool, State.new, T1, rsT1, rC1, P1, Prog.new, Prog.add_call, Call.new,
    Call.add_arg, Arg.new, Target.type_of, Target.is_res, Value.default_val, modifyLast,
    Config.default, State.pick, State.flip, List.getD]

/-- C1 counterexample: in program `P1` returned by `gen` on schema `T1`,
call 1 consumes a value of the resource type `1` (`Res 0`) through
`Ref((0, Arg 0))`, but the declared TypeId of slot `(0, Arg 0)` is `2` (the
out-pointer type through which the handle was recorded), not the resource
TypeId `1` — refuting the slot-type-equality conjunct of the claim as
stated. -/
theorem gen_ref_type_counterexample :
    gen T1 rsT1 Config.default rC1 20 = some P1 ∧
    (P1.calls[1]?).map (fun c => (c.args.map (fun a => (a.tid, a.val)))) =
      some [(1, Value.Ref (0, ArgPos.Arg 0))] ∧
    T1.type_of 1 = some (TypeInfo.Res 0) ∧
    slotTid P1 (0, ArgPos.Arg 0) = some 2 ∧ (2 : TypeId) ≠ 1 := by
  refine ⟨gen_T1_eval, rfl, rfl, rfl, by decide⟩

/-- C1 witness: the amended theorem applied to the concrete run `P1`: the
whole program is typed-reference-correct, and the untyped part is
instantiated at call index 1 and its reference `(0, Arg 0)`. -/
theorem gen_ref_targets_witness :
    gen T1 rsT1 Config.default rC1 20 = some P1 ∧
    CallsTyped T1 P1 ∧
    ((0, ArgPos.Arg 0).1 ≤ 1 ∧ slotOK P1 (0, ArgPos.Arg 0) = true ∧
      ((0, ArgPos.Arg 0).2 = ArgPos.Ret →
        ∃ rt', slotTid P1 (0, ArgPos.Arg 0) = some rt' ∧ T1.is_res rt' = true)) :=
  ⟨gen_T1_eval,
   (gen_ref_targets T1 rsT1 Config.default rC1 20 P1 gen_T1_eval).1,
   (gen_ref_targets T1 rsT1 Config.default rC1 20 P1 gen_T1_eval).2 1
     ⟨1, [⟨1, Value.Ref (0, ArgPos.Arg 0)⟩], none⟩ rfl (0, ArgPos.Arg 0)
     (by simp [callRefs, refsIn])⟩

/-! ## Claim C2 (continued): the planner length bounds -/

/-- C2 (amended): for every configuration and non-empty relation table the
sequence returned by `choose_seq` has length at least 1, and at most
`prog_max_len + max 1 (n - 1)` where `n` is the table side — the loop's
`seq.len() <= prog_max_len` check runs before the append, and a single
`push_deps` row extension can add up to `n - 1` entries past the cap, so
the result can exceed `prog_max_len` (see the counterexample) but never
this amended bound; the call list of every program returned by `gen`
satisfies the same bounds for the chosen group's table. -/
theorem gen_len_bounds_amended :
    (∀ (rt : RTable) (conf : Config) (r : Oracle) (k k' : Nat) (seq : List Nat),
      1 ≤ conf.prog_max_len → choose_seq rt conf r k = some (seq, k') →
      1 ≤ seq.length ∧ seq.length ≤ conf.prog_max_len + max 1 (rt.n - 1)) ∧
    (∀ (t : Target) (rs : List (GroupId × RTable)) (conf : Config) (r : Oracle)
      (fuel : Nat) (p : Prog), 1 ≤ conf.prog_max_len → gen t rs conf r fuel = some p →
      1 ≤ p.calls.length ∧
        ∃ e ∈ rs, p.calls.length ≤ conf.prog_max_len + max 1 (e.2.n - 1)) := by
  have hcs : ∀ (rt : RTable) (conf : Config) (r : Oracle) (k k' : Nat) (seq : List Nat),
      1 ≤ conf.prog_max_len → choose_seq rt conf r k = some (seq, k') →
      1 ≤ seq.length ∧ seq.length ≤ conf.prog_max_len + max 1 (rt.n - 1) := by
    intro rt conf r k k' seq hM h
    by_cases hn : rt.n = 0
    · rw [choose_seq, if_pos hn] at h
      exact absurd h (by simp)
    · rw [choose_seq, if_neg hn] at h
      simp only [Option.some.injEq] at h
      have hlow := choose_seq_loop_lower rt conf r [] [] k
      have hup := choose_seq_loop_upper rt conf r [] [] k (by simp)
      rw [h] at hlow hup
      have hlow' : 0 < seq.length := by simpa using hlow
      have hup' : seq.length ≤ max (conf.prog_max_len + 1) (conf.prog_max_len - 1 + rt.n) := by
        simpa using hup
      constructor
      · omega
      · omega
  refine ⟨hcs, ?_⟩
  intro t rs conf r fuel p hM h
  unfold gen at h
  cases hS : genS t rs conf r fuel with
  | none => rw [hS] at h; exact absurd h (by simp)
  | some st =>
    rw [hS] at h
    simp at h
    obtain ⟨_, _, seq, k, hseq, hlen⟩ := genS_spec t rs conf r fuel st hS
    have hrs : ¬rs.isEmpty = true := by
      intro he
      rw [genS] at hS
      rw [if_pos he] at hS
      exact absurd hS (by simp)
    have hmem : rs.getD (r.nat 0 % rs.length) defaultRT ∈ rs := by
      have hlenrs : 0 < rs.length := by
        cases hrsc : rs with
        | nil => rw [hrsc] at hrs; exact absurd rfl hrs
        | cons a l => simp [hrsc]
      have hlt : r.nat 0 % rs.length < rs.length := Nat.mod_lt _ hlenrs
      rw [List.getD_eq_getElem _ _ hlt]
      exact List.getElem_mem hlt
    have := hcs _ conf r 1 k seq hM hseq
    rw [← h]
    exact ⟨by omega, rs.getD (r.nat 0 % rs.length) defaultRT, hmem, by omega⟩

/-- Oracle with all-heads coins and all-zero numeric draws. -/
def oracleT : Oracle := ⟨fun _ => true, fun _ => 0⟩

/-- A 1×1 relation table with no relations. -/
def rt1 : RTable := ⟨1, fun _ _ => Relation.NoneR⟩

/-- A configuration with `prog_max_len = 1`. -/
def confMax1 : Config := ⟨1, 3, 4, 128, 4⟩

/-- C2 counterexample: with `prog_max_len = 1 ≥ 1` and the non-empty 1×1
table, `choose_seq` returns the sequence `[0, 0]` of length `2 >
prog_max_len` — the `seq.len() <= prog_max_len` continue-check runs before
the next append, so the cap can be exceeded. -/
theorem choose_seq_len_counterexample :
    choose_seq rt1 confMax1 oracleT 0 = some ([0, 0], 3) ∧
      1 ≤ confMax1.prog_max_len ∧ rt1.n ≠ 0 ∧
      ¬((2 : Nat) ≤ confMax1.prog_max_len) := by
  refine ⟨?_, by decide, by decide, by decide⟩
  simp [choose_seq, choose_seq_loop, push_deps, push_deps_row, oracleT, rt1, confMax1]

/-- C2 witness: the amended bounds applied to the concrete `choose_seq` run
above (`2 ≤ 1 + max 1 (1 - 1) = 2`). -/
theorem gen_len_bounds_witness :
    1 ≤ ([0, 0] : List Nat).length ∧
      ([0, 0] : List Nat).length ≤ confMax1.prog_max_len + max 1 (rt1.n - 1) :=
  gen_len_bounds_amended.1 rt1 confMax1 oracleT 0 3 [0, 0] (by decide)
    (by simp [choose_seq, choose_seq_loop, push_deps, push_deps_row, oracleT, rt1, confMax1])

/-! ## Claim C3: the two-function chain `open() → fd` / `close(fd)` (spec S2) -/

/-- The S2 schema: type 0 is `i32`, type 1 is the resource `fd = Res 0`;
group 7 has `open() → fd` (fn id 0) and `close(fd)` (fn id 1). -/
def T2 : Target :=
  { types := [(0, TypeInfo.Num ⟨NumKind.i32, NumLimit.NoneL⟩),
              (1, TypeInfo.Res 0)],
    groups := [(7, ⟨7, [⟨0, [], some 1⟩, ⟨1, [⟨"fd", 1⟩], none⟩]⟩)] }

/-- The S2 relation table: `[close][open] = Some`. -/
def rsT2 : List (GroupId × RTable) :=
  [(7, ⟨2, fun i j => if i == 1 && j == 0 then Relation.SomeR else Relation.NoneR⟩)]

/-- The S2 pool invariant: every recorded handle is an `fd` pointing at the
return slot of an existing `open` call. -/
def S2ResOK (s : State) : Prop :=
  ∀ e ∈ s.res, e.1 = 1 ∧ e.2.2 = ArgPos.Ret ∧ e.2.1 < s.prog.calls.length ∧
    ∃ c, s.prog.calls[e.2.1]? = some c ∧ c.fid = 0 ∧ c.ret = some (Arg.new 1)

/-- The S2 program invariant: every reference in any call's arguments
points strictly backwards at the return slot of an `open` call. -/
def S2CallsOK (p : Prog) : Prop :=
  ∀ i c, p.calls[i]? = some c → ∀ x ∈ callRefs c.args,
    x.1 < i ∧ x.2 = ArgPos.Ret ∧
      ∃ copen, p.calls[x.1]? = some copen ∧ copen.fid = 0 ∧ copen.ret = some (Arg.new 1)

theorem gen_call_open_spec (conf : Config) (fuel : Nat) (s s' : State)
    (h : gen_call T2 conf fuel ⟨0, [], some 1⟩ s = some s')
    (h1 : S2ResOK s) (h2 : S2CallsOK s.prog) :
    S2ResOK s' ∧ S2CallsOK s'.prog := by
  rw [gen_call] at h
  simp only [gen_args] at h
  norm_num [Target.is_res, Target.type_of, T2] at h
  -- h : (…add_ret…).record_res 1 true = some s'
  have hcalls : ((s.add_call (Call.new 0)).add_ret (Arg.new 1)).prog.calls =
      s.prog.calls ++ [⟨0, [], some (Arg.new 1)⟩] := by
    unfold State.add_call State.add_ret Prog.add_call Call.new
    simp only
    rw [modifyLast_append_singleton]
  have hrr := record_res_ret_spec h
  obtain ⟨hprog, hstrs, huflow, hresv⟩ := hrr
  have hresv' : s'.res = s.res ++
      [(1, (s.prog.calls.length, ArgPos.Ret))] := by
    rw [hresv]
    have : ((s.add_call (Call.new 0)).add_ret (Arg.new 1)).prog.calls.length =
        s.prog.calls.length + 1 := by
      rw [hcalls]; simp
    rw [this]
    simp only [Nat.add_sub_cancel]
    rfl
  have hcalls' : s'.prog.calls = s.prog.calls ++ [⟨0, [], some (Arg.new 1)⟩] := by
    rw [hprog, hcalls]
  constructor
  · intro e he
    rw [hresv'] at he
    rcases List.mem_append.mp he with he | he
    · obtain ⟨e1, e2, e3, c, hc, hfid, hret⟩ := h1 e he
      refine ⟨e1, e2, ?_, c, ?_, hfid, hret⟩
      · rw [hcalls']; simp; omega
      · rw [hcalls', List.getElem?_append_left e3]
        exact hc
    · rw [List.mem_singleton.mp he]
      refine ⟨rfl, rfl, ?_, ⟨0, [], some (Arg.new 1)⟩, ?_, rfl, rfl⟩
      · rw [hcalls']
        show s.prog.calls.length < (s.prog.calls ++ [(⟨0, [], some (Arg.new 1)⟩ : Call)]).length
        simp
      · rw [hcalls', List.getElem?_append_right (by exact Nat.le.refl)]
        show (([(⟨0, [], some (Arg.new 1)⟩ : Call)])[s.prog.calls.length - s.prog.calls.length]?) =
          some ⟨0, [], some (Arg.new 1)⟩
        simp
  · intro i c hc x hx
    rw [hcalls'] at hc
    by_cases hi : i < s.prog.calls.length
    · rw [List.getElem?_append_left hi] at hc
      obtain ⟨g1, g2, copen, hcopen, g3, g4⟩ := h2 i c hc x hx
      refine ⟨g1, g2, copen, ?_, g3, g4⟩
      rw [hcalls', List.getElem?_append_left (by omega)]
      exact hcopen
    · rw [List.getElem?_append_right (by omega)] at hc
      cases hd : i - s.prog.calls.length with
      | zero =>
        rw [hd] at hc
        simp only [List.getElem?_cons_zero, Option.some.injEq] at hc
        rw [← hc] at hx
        exact absurd hx (by simp [callRefs])
      | succ m => rw [hd] at hc; exact absurd hc (by simp)

theorem gen_value_T2_fd (conf : Config) :
    ∀ (fuel : Nat) (s₀ s₂ : State) (v : Value),
      gen_value T2 conf fuel 1 s₀ = some (v, s₂) →
      s₂.prog = s₀.prog ∧ s₂.res = s₀.res ∧
        (refsIn v = [] ∨ ∃ x, v = Value.Ref x ∧ (1, x) ∈ s₀.res) := by
  intro fuel
  cases fuel with
  | zero => intro s₀ s₂ v h; exact absurd h (by simp [gen_value])
  | succ n =>
    intro s₀ s₂ v h
    rw [gen_value] at h
    norm_num [Target.type_of, T2] at h
    -- h : gen_res T2 conf n 1 0 s₀ = some (v, s₂)
    rw [gen_res] at h
    cases hr : s₀.try_reuse_res 1 with
    | mk ov s₁ =>
      rw [hr] at h
      cases ov with
      | some w =>
        simp only [Option.some.injEq, Prod.mk.injEq] at h
        obtain ⟨hv, hs⟩ := h
        obtain ⟨x, hw, hmem, hsh, _⟩ := try_reuse_res_some hr
        subst hs
        refine ⟨hsh.1, hsh.2.1, Or.inr ⟨x, ?_, hmem⟩⟩
        rw [← hv, hw]
      | none =>
        have hs₁ : s₁ = s₀ := try_reuse_res_none hr
        rw [hs₁] at h
        have h' : gen_value T2 conf n 0 s₀ = some (v, s₂) := h
        cases n with
        | zero => exact absurd h' (by simp [gen_value])
        | succ m =>
          rw [gen_value] at h'
          norm_num [Target.type_of, T2] at h'
          have := gen_num_shape h'
          exact ⟨this.1.1, this.1.2.1, Or.inl this.2⟩

theorem gen_call_close_spec (conf : Config) (fuel : Nat) (s s' : State)
    (h : gen_call T2 conf fuel ⟨1, [⟨"fd", 1⟩], none⟩ s = some s')
    (h1 : S2ResOK s) (h2 : S2CallsOK s.prog) :
    S2ResOK s' ∧ S2CallsOK s'.prog := by
  rw [gen_call] at h
  simp only [gen_args] at h
  cases hv : gen_value T2 conf fuel 1 ((s.add_call (Call.new 1)).add_arg (Arg.new 1)) with
  | none => rw [hv] at h; exact absurd h (by simp)
  | some p =>
    obtain ⟨v, s₂⟩ := p
    rw [hv] at h
    simp only [Option.some.injEq] at h
    obtain ⟨hprog₂, hres₂, hrefs₂⟩ := gen_value_T2_fd conf fuel _ s₂ v hv
    have hcalls₁ : ((s.add_call (Call.new 1)).add_arg (Arg.new 1)).prog.calls =
        s.prog.calls ++ [⟨1, [Arg.new 1], none⟩] := by
      unfold State.add_call State.add_arg Prog.add_call Call.new
      simp only
      rw [modifyLast_append_singleton]
      rfl
    have hcalls' : s'.prog.calls = s.prog.calls ++ [⟨1, [⟨1, v⟩], none⟩] := by
      rw [← h]
      unfold State.update_val
      simp only
      rw [hprog₂, hcalls₁, modifyLast_append_singleton]
      rfl
    have hres' : s'.res = s.res := by
      rw [← h]
      have : (s₂.update_val v).res = s₂.res := rfl
      rw [this, hres₂]
      rfl
    constructor
    · intro e he
      rw [hres'] at he
      obtain ⟨e1, e2, e3, c, hc, hfid, hret⟩ := h1 e he
      refine ⟨e1, e2, ?_, c, ?_, hfid, hret⟩
      · rw [hcalls']
        simp only [List.length_append, List.length_cons, List.length_nil]
        omega
      · rw [hcalls', List.getElem?_append_left e3]
        exact hc
    · intro i c hc x hx
      rw [hcalls'] at hc
      by_cases hi : i < s.prog.calls.length
      · rw [List.getElem?_append_left hi] at hc
        obtain ⟨g1, g2, copen, hcopen, g3, g4⟩ := h2 i c hc x hx
        refine ⟨g1, g2, copen, ?_, g3, g4⟩
        rw [hcalls', List.getElem?_append_left (by omega)]
        exact hcopen
      · rw [List.getElem?_append_right (by omega)] at hc
        cases hd : i - s.prog.calls.length with
        | succ m => rw [hd] at hc; exact absurd hc (by simp)
        | zero =>
          rw [hd] at hc
          simp only [List.getElem?_cons_zero, Option.some.injEq] at hc
          have hieq : i = s.prog.calls.length := by omega
          subst hieq
          rw [← hc] at hx
          have hx' : x ∈ refsIn v := by
            simpa [callRefs] using hx
          rcases hrefs₂ with hre | ⟨y, hy, hmem⟩
          · rw [hre] at hx'
            exact absurd hx' (by simp)
          · rw [hy] at hx'
            simp only [refsIn, List.mem_singleton] at hx'
            subst hx'
            have hmem' : (1, x) ∈ s.res := by
              have : ((s.add_call (Call.new 1)).add_arg (Arg.new 1)).res = s.res := rfl
              rw [← this]
              exact hmem
            obtain ⟨e1, e2, e3, copen, hcopen, g3, g4⟩ := h1 (1, x) hmem'
            refine ⟨by simpa using e3, by simpa using e2, copen, ?_, g3, g4⟩
            rw [hcalls', List.getElem?_append_left (by simpa using e3)]
            exact hcopen

theorem gen_calls_S2 (conf : Config) (fuel : Nat) :
    ∀ (seq : List Nat) (s s' : State),
      gen_calls T2 conf fuel ⟨7, [⟨0, [], some 1⟩, ⟨1, [⟨"fd", 1⟩], none⟩]⟩ seq s = some s' →
      S2ResOK s → S2CallsOK s.prog → S2ResOK s' ∧ S2CallsOK s'.prog := by
  intro seq
  induction seq with
  | nil =>
    intro s s' h h1 h2
    simp only [gen_calls, Option.some.injEq] at h
    subst h
    exact ⟨h1, h2⟩
  | cons i is ih =>
    intro s s' h h1 h2
    match i with
    | 0 =>
      have h' : (match gen_call T2 conf fuel ⟨0, [], some 1⟩ s with
          | none => none
          | some s =>
            gen_calls T2 conf fuel ⟨7, [⟨0, [], some 1⟩, ⟨1, [⟨"fd", 1⟩], none⟩]⟩ is s)
            = some s' := h
      cases hc : gen_call T2 conf fuel ⟨0, [], some 1⟩ s with
      | none => rw [hc] at h'; exact absurd h' (by simp)
      | some s₁ =>
        rw [hc] at h'
        obtain ⟨k1, k2⟩ := gen_call_open_spec conf fuel s s₁ hc h1 h2
        exact ih s₁ s' h' k1 k2
    | 1 =>
      have h' : (match gen_call T2 conf fuel ⟨1, [⟨"fd", 1⟩], none⟩ s with
          | none => none
          | some s =>
            gen_calls T2 conf fuel ⟨7, [⟨0, [], some 1⟩, ⟨1, [⟨"fd", 1⟩], none⟩]⟩ is s)
            = some s' := h
      cases hc : gen_call T2 conf fuel ⟨1, [⟨"fd", 1⟩], none⟩ s with
      | none => rw [hc] at h'; exact absurd h' (by simp)
      | some s₁ =>
        rw [hc] at h'
        obtain ⟨k1, k2⟩ := gen_call_close_spec conf fuel s s₁ hc h1 h2
        exact ih s₁ s' h' k1 k2
    | (j + 2) =>
      have h' : (none : Option State) = some s' := h
      exact absurd h' (by simp)

theorem genS_T2_S2 (conf : Config) (r : Oracle) (fuel : Nat) (st : State)
    (h : genS T2 rsT2 conf r fuel = some st) :
    S2ResOK st ∧ S2CallsOK st.prog := by
  rw [genS] at h
  split at h
  · exact absurd h (by simp)
  · split at h
    · exact absurd h (by simp)
    · split at h
      · exact absurd h (by simp)
      · rename_i g hg
        split at h
        · exact absurd h (by simp)
        · rename_i seq k hseq
          have hg' : g = ⟨7, [⟨0, [], some 1⟩, ⟨1, [⟨"fd", 1⟩], none⟩]⟩ := by
            simp [T2, rsT2, Nat.mod_one, defaultRT, List.find?] at hg
            exact hg.symm
          subst hg'
          have h1 : S2ResOK (State.new
              (Prog.new (rsT2.getD (r.nat 0 % rsT2.length) defaultRT).1) r k) := by
            intro e he
            exact absurd he (by simp [State.new])
          have h2 : S2CallsOK (State.new
              (Prog.new (rsT2.getD (r.nat 0 % rsT2.length) defaultRT).1) r k).prog := by
            intro i c hc
            exact absurd hc (by simp [State.new, Prog.new])
          exact gen_calls_S2 conf fuel seq _ st h h1 h2

/-- A deterministic oracle for the S2 runs: every coin is `false` and the
`nat` stream is `1` at counter `1` (seeding the `close` call) and `0`
elsewhere. -/
def rC3 : Oracle := ⟨fun _ => false, fun n => if n == 1 then 1 else 0⟩

/-- The program `gen` produces over `T2` under `rC3`: a single `close`
call whose `fd` argument is a freshly generated number, with no `open`. -/
def P2 : Prog := ⟨7, [⟨1, [⟨1, Value.Num (NumValue.Signed 0)⟩], none⟩]⟩

theorem gen_T2_eval : gen T2 rsT2 Config.default rC3 20 = some P2 := by
  have hseq : choose_seq (rsT2.getD (rC3.nat 0 % rsT2.length) defaultRT).2
      Config.default rC3 1 = some ([1], 4) := by
    simp [choose_seq, choose_seq_loop, push_deps, push_deps_row, rC3, rsT2, Config.default]
  unfold gen genS
  rw [hseq]
  simp [gen_calls, gen_call, gen_args, gen_value, gen_ptr, gen_res, gen_alias,
    gen_union, gen_struct, gen_slice, gen_value_list, gen_num, gen_str, gen_flag,
    State.add_call, State.add_arg, State.add_ret, State.update_val, State.record_res,
    State.try_reuse_res, State.resPool, State.new, T2, rsT2, rC3, P2, Prog.new,
    Prog.add_call, Call.new, Call.add_arg, Arg.new, Target.type_of, Target.is_res,
    Value.default_val, modifyLast, Config.default, mkNumRandom, toSigned, State.pick,
    State.flip, NumKind.signed, mkNumVal, List.getD]

/-- C3 (amended): over the S2 schema `T2` with relation table `rsT2`,
in every program produced by `gen` every `Ref` occurring among a call's
arguments points *strictly backwards* at the return slot of an `open`
call; however a program may contain a `close` call with *no* prior `open`:
when the recorded-handle pool is empty, `gen_res` falls back to generating
the underlying type fresh, so `close`'s `fd` argument is then a plain
number rather than a `Ref` (see the counterexample). -/
theorem gen_s2_close_ref (conf : Config) (r : Oracle) (fuel : Nat) (p : Prog)
    (h : gen T2 rsT2 conf r fuel = some p) : S2CallsOK p := by
  unfold gen at h
  cases hS : genS T2 rsT2 conf r fuel with
  | none => rw [hS] at h; exact absurd h (by simp)
  | some st =>
    rw [hS] at h
    simp only [Option.map_some', Option.some.injEq] at h
    rw [← h]
    exact (genS_T2_S2 conf r fuel st hS).2

/-- C3 counterexample to the claim as stated: `gen` over `T2`/`rsT2`
with oracle `rC3` returns the program `P2`, which contains a `close` call
(fn id 1) but no `open` call (fn id 0), and whose argument is a plain
number, not a `Ref`. -/
theorem gen_s2_close_counterexample :
    gen T2 rsT2 Config.default rC3 20 = some P2 ∧
      (∃ c ∈ P2.calls, c.fid = 1) ∧ (∀ c ∈ P2.calls, c.fid ≠ 0) ∧
      (∀ c ∈ P2.calls, ∀ a ∈ c.args, ∀ x, a.val ≠ Value.Ref x) := by
  refine ⟨gen_T2_eval, ?_, ?_, ?_⟩
  · exact ⟨⟨1, [⟨1, Value.Num (NumValue.Signed 0)⟩], none⟩, by simp [P2], rfl⟩
  · intro c hc
    simp [P2] at hc
    simp [hc]
  · intro c hc a ha x
    simp [P2] at hc
    subst hc
    simp at ha
    subst ha
    simp

/-- C3 witness: the amended theorem applied at the concrete run `P2`. -/
theorem gen_s2_close_ref_witness :
    gen T2 rsT2 Config.default rC3 20 = some P2 ∧ S2CallsOK P2 :=
  ⟨gen_T2_eval, gen_s2_close_ref Config.default rC3 20 P2 gen_T2_eval⟩

theorem drawChars_spec (f : Nat → Char) :
    ∀ (n : Nat) (s : State),
      (drawChars f n s).1.length = n ∧
      (∀ c ∈ (drawChars f n s).1, ∃ i, c = f i) ∧
      (drawChars f n s).2.strs = s.strs := by
  intro n
  induction n with
  | zero => intro s; exact ⟨rfl, by simp [drawChars], rfl⟩
  | succ m ih =>
    intro s
    have hd : drawChars f (m + 1) s =
        (f (s.pick).1 :: (drawChars f m (s.pick).2).1, (drawChars f m (s.pick).2).2) := by
      rw [drawChars]
    obtain ⟨ih1, ih2, ih3⟩ := ih (s.pick).2
    rw [hd]
    refine ⟨by simp [ih1], ?_, ?_⟩
    · intro c hc
      rcases List.mem_cons.mp hc with hc | hc
      · exact ⟨(s.pick).1, hc⟩
      · exact ih2 c hc
    · exact ih3.trans rfl

theorem alphanumChar_mem (i : Nat) : alphanumChar i ∈ alphanumChars := by
  unfold alphanumChar
  have h : i % 62 < alphanumChars.length := Nat.mod_lt _ (by decide)
  rw [List.getD_eq_getElem _ _ h]
  exact List.getElem_mem h

theorem alphanumChars_isAlphanum : ∀ c ∈ alphanumChars, c.isAlphanum = true := by decide

theorem try_reuse_str_strs (s : State) (st : StrType) :
    ((s.try_reuse_str st).2).strs = s.strs := by
  unfold State.try_reuse_str
  by_cases he : (s.strPool st).isEmpty <;>
    simp [he, State.flip, State.pick] <;> split <;> rfl

/-- C6: building a `CStr` value with no non-empty enumerated value set
(`vals` absent or empty) either reuses a string drawn from the recorded
pool of kind `Str` — not the `CStr` pool — leaving the pools unchanged, or
freshly generates an ASCII-alphanumeric string whose length lies in
`[str_min_len, str_max_len)` and records it into the `CStr` pool. -/
theorem gen_str_cstr_pools (conf : Config) (fuel : Nat) (s : State)
    (vals : Option (List String)) (v : Value) (s' : State)
    (hv : vals = none ∨ vals = some [])
    (h : gen_str conf fuel StrType.CStr vals s = some (v, s')) :
    (∃ w ∈ s.strPool StrType.Str, v = Value.Str w ∧ s'.strs = s.strs) ∨
    (∃ cs, v = Value.Str (String.mk cs) ∧
      conf.str_min_len ≤ cs.length ∧ cs.length < conf.str_max_len ∧
      (∀ c ∈ cs, c.isAlphanum = true) ∧
      s'.strs = s.strs ++ [(StrType.CStr, String.mk cs)]) := by
  have hg : gen_str_default conf fuel StrType.CStr s = some (v, s') := by
    rcases hv with hv | hv <;> subst hv <;> exact h
  unfold gen_str_default at hg
  by_cases hm : conf.str_min_len < conf.str_max_len
  · simp only [hm, if_true] at hg
    rcases hr : ((s.pick).2).try_reuse_str StrType.Str with ⟨ov, s₁⟩
    rw [hr] at hg
    cases ov with
    | some w =>
      simp only [Option.some.injEq, Prod.mk.injEq] at hg
      obtain ⟨hw, hs⟩ := hg
      subst hs
      obtain ⟨w', hwmem, hw', hsh⟩ := try_reuse_str_some hr
      have h1 : s₁.strs = ((s.pick).2).strs := by
        have h2 := try_reuse_str_strs ((s.pick).2) StrType.Str
        rw [hr] at h2
        exact h2
      exact Or.inl ⟨w', hwmem, by rw [← hw, hw'], h1.trans rfl⟩
    | none =>
      have hstrs₁ : s₁.strs = s.strs := (try_reuse_str_none hr).2
      simp only [Option.some.injEq, Prod.mk.injEq] at hg
      obtain ⟨hw, hs⟩ := hg
      obtain ⟨hl, hmem, hstrs₂⟩ := drawChars_spec alphanumChar
        (conf.str_min_len + (s.pick).1 % (conf.str_max_len - conf.str_min_len)) s₁
      refine Or.inr ⟨(drawChars alphanumChar
        (conf.str_min_len + (s.pick).1 % (conf.str_max_len - conf.str_min_len)) s₁).1,
        hw.symm, ?_, ?_, ?_, ?_⟩
      · rw [hl]; omega
      · rw [hl]
        have : (s.pick).1 % (conf.str_max_len - conf.str_min_len) <
            conf.str_max_len - conf.str_min_len := Nat.mod_lt _ (by omega)
        omega
      · intro c hc
        obtain ⟨i, hi⟩ := hmem c hc
        rw [hi]
        exact alphanumChars_isAlphanum _ (alphanumChar_mem i)
      · rw [← hs]
        unfold State.record_str
        simp only
        rw [hstrs₂, hstrs₁]
  · simp [hm] at hg

/-- C6 witness: the theorem applied to a concrete fresh-generation run on
the empty-pool state `stateZ`. -/
theorem gen_str_cstr_pools_witness :
    gen_str Config.default 1 StrType.CStr none stateZ =
      some (Value.Str "AAAA", ⟨[], [(StrType.CStr, "AAAA")], Prog.new 0, oracleZ, 5, false⟩) ∧
    ((∃ w ∈ stateZ.strPool StrType.Str, Value.Str "AAAA" = Value.Str w ∧
        (⟨[], [(StrType.CStr, "AAAA")], Prog.new 0, oracleZ, 5, false⟩ : State).strs = stateZ.strs) ∨
     (∃ cs, Value.Str "AAAA" = Value.Str (String.mk cs) ∧
        Config.default.str_min_len ≤ cs.length ∧ cs.length < Config.default.str_max_len ∧
        (∀ c ∈ cs, c.isAlphanum = true) ∧
        (⟨[], [(StrType.CStr, "AAAA")], Prog.new 0, oracleZ, 5, false⟩ : State).strs =
          stateZ.strs ++ [(StrType.CStr, String.mk cs)])) := by
  have hEq : gen_str Config.default 1 StrType.CStr none stateZ =
      some (Value.Str "AAAA", ⟨[], [(StrType.CStr, "AAAA")], Prog.new 0, oracleZ, 5, false⟩) := by
    simp [gen_str, gen_str_default, stateZ, State.new, Config.default, State.pick,
      State.try_reuse_str, State.strPool, State.flip, drawChars, alphanumChar,
      alphanumChars, State.record_str, oracleZ, Prog.new]
  exact ⟨hEq, gen_str_cstr_pools Config.default 1 stateZ none _ _ (Or.inl rfl) hEq⟩

/-- The C9 schema: a single group (id 3) whose only function is
parameterless and returns the resource `fd = Res 0` over `i32`. -/
def T9 : Target :=
  { types := [(0, TypeInfo.Num ⟨NumKind.i32, NumLimit.NoneL⟩), (1, TypeInfo.Res 0)],
    groups := [(3, ⟨3, [⟨0, [], some 1⟩]⟩)] }

/-- The C9 relation table: a single function, no dependencies. -/
def rs9 : List (GroupId × RTable) := [(3, ⟨1, fun _ _ => Relation.NoneR⟩)]

theorem choose_seq_ne_nil {rt : RTable} {conf : Config} {r : Oracle} {k : Nat}
    {seq : List Nat} {k' : Nat} (h : choose_seq rt conf r k = some (seq, k')) :
    seq ≠ [] := by
  unfold choose_seq at h
  by_cases hn : rt.n = 0
  · simp [hn] at h
  · simp only [hn, if_false, Option.some.injEq] at h
    have hlow := choose_seq_loop_lower rt conf r [] [] k
    rw [h] at hlow
    intro hnil
    rw [hnil] at hlow
    simp at hlow

theorem gen_call_T9_uflow (conf : Config) (fuel : Nat) (s s' : State)
    (h : gen_call T9 conf fuel ⟨0, [], some 1⟩ s = some s') : s'.uflow = true := by
  rw [gen_call] at h
  simp only [gen_args] at h
  norm_num [Target.is_res, Target.type_of, T9] at h
  unfold State.record_res at h
  have hc : ((s.add_call (Call.new 0)).add_ret (Arg.new 1)).prog.calls
      = s.prog.calls ++ [⟨0, [], some (Arg.new 1)⟩] := by
    unfold State.add_call State.add_ret Prog.add_call Call.new
    simp only
    rw [modifyLast_append_singleton]
  rw [hc, List.getLast?_concat] at h
  simp only [Option.some.injEq] at h
  rw [← h]
  simp

theorem gen_calls_T9_uflow (conf : Config) (fuel : Nat) :
    ∀ (seq : List Nat) (s s' : State), seq ≠ [] →
      gen_calls T9 conf fuel ⟨3, [⟨0, [], some 1⟩]⟩ seq s = some s' → s'.uflow = true := by
  intro seq
  induction seq with
  | nil => intro s s' hne; exact absurd rfl hne
  | cons i is ih =>
    intro s s' _ h
    match i with
    | 0 =>
      have h' : (match gen_call T9 conf fuel ⟨0, [], some 1⟩ s with
          | none => none
          | some s => gen_calls T9 conf fuel ⟨3, [⟨0, [], some 1⟩]⟩ is s) = some s' := h
      cases hc : gen_call T9 conf fuel ⟨0, [], some 1⟩ s with
      | none => rw [hc] at h'; exact absurd h' (by simp)
      | some s₁ =>
        rw [hc] at h'
        have hu1 : s₁.uflow = true := gen_call_T9_uflow conf fuel s s₁ hc
        cases is with
        | nil =>
          simp only [gen_calls, Option.some.injEq] at h'
          rw [← h']
          exact hu1
        | cons j js => exact ih s₁ s' (by simp) h'
    | (j + 1) =>
      have h' : (none : Option State) = some s' := h
      exact absurd h' (by simp)

theorem genS_T9_uflow (conf : Config) (r : Oracle) (fuel : Nat) (st : State)
    (h : genS T9 rs9 conf r fuel = some st) : st.uflow = true := by
  rw [genS] at h
  split at h
  · exact absurd h (by simp)
  · split at h
    · exact absurd h (by simp)
    · split at h
      · exact absurd h (by simp)
      · rename_i g hg
        split at h
        · exact absurd h (by simp)
        · rename_i seq k hseq
          have hg' : g = ⟨3, [⟨0, [], some 1⟩]⟩ := by
            simp [T9, rs9, Nat.mod_one, defaultRT, List.find?] at hg
            exact hg.symm
          subst hg'
          exact gen_calls_T9_uflow conf fuel seq _ st (choose_seq_ne_nil hseq) h

/-- C9: `record_res` computes the last argument position as
`args.len() - 1` on the current call unconditionally (in the embedding the
wrapped value together with the sticky `uflow` underflow marker), so
whenever the current call has no arguments the underflow marker is set —
and running the generator on the schema `T9`, whose only function is
parameterless with a resource return type, always ends in a state with the
underflow marker set. -/
theorem record_res_underflow :
    (∀ (s : State) (tid : TypeId) (b : Bool) (s' : State) (c : Call),
        s.prog.calls.getLast? = some c → c.args = [] →
        s.record_res tid b = some s' → s'.uflow = true) ∧
    (∀ (conf : Config) (r : Oracle) (fuel : Nat) (st : State),
        genS T9 rs9 conf r fuel = some st → st.uflow = true) := by
  constructor
  · intro s tid b s' c hl hargs h
    unfold State.record_res at h
    rw [hl] at h
    simp only [Option.some.injEq] at h
    rw [← h]
    simp [hargs]
  · exact genS_T9_uflow

/-- C9 witness: both parts applied at concrete inputs — a direct
`record_res` call on a state whose last call has no arguments, and the
complete generator run over `T9` with the all-zeros oracle. -/
theorem record_res_underflow_witness :
    ((⟨[], [], ⟨0, [Call.new 5]⟩, oracleZ, 0, false⟩ : State).record_res 1 true =
        some ⟨[(1, (0, ArgPos.Ret))], [], ⟨0, [Call.new 5]⟩, oracleZ, 0, true⟩ ∧
      (⟨[(1, (0, ArgPos.Ret))], [], ⟨0, [Call.new 5]⟩, oracleZ, 0, true⟩ : State).uflow = true) ∧
    (genS T9 rs9 Config.default oracleZ 1 =
        some ⟨[(1, (0, ArgPos.Ret))], [], ⟨3, [⟨0, [], some (Arg.new 1)⟩]⟩, oracleZ, 3, true⟩ ∧
      (⟨[(1, (0, ArgPos.Ret))], [], ⟨3, [⟨0, [], some (Arg.new 1)⟩]⟩, oracleZ, 3, true⟩ : State).uflow
        = true) := by
  have h1 : (⟨[], [], ⟨0, [Call.new 5]⟩, oracleZ, 0, false⟩ : State).record_res 1 true =
      some ⟨[(1, (0, ArgPos.Ret))], [], ⟨0, [Call.new 5]⟩, oracleZ, 0, true⟩ := by
    simp [State.record_res, Call.new]
  have hseq : choose_seq (rs9.getD (oracleZ.nat 0 % rs9.length) defaultRT).2
      Config.default oracleZ 1 = some ([0], 3) := by
    simp [choose_seq, choose_seq_loop, push_deps, push_deps_row, oracleZ, rs9,
      Config.default, defaultRT]
  have h2 : genS T9 rs9 Config.default oracleZ 1 =
      some ⟨[(1, (0, ArgPos.Ret))], [], ⟨3, [⟨0, [], some (Arg.new 1)⟩]⟩, oracleZ, 3, true⟩ := by
    unfold genS
    rw [hseq]
    simp [gen_calls, gen_call, gen_args, State.add_call, State.add_ret, State.record_res,
      State.new, T9, rs9, oracleZ, Prog.new, Prog.add_call, Call.new, Arg.new,
      Target.type_of, Target.is_res, modifyLast, Config.default, List.getD, defaultRT,
      List.find?]
  exact ⟨⟨h1, record_res_underflow.1 ⟨[], [], ⟨0, [Call.new 5]⟩, oracleZ, 0, false⟩ 1 true _
      (Call.new 5) (by simp) rfl h1⟩,
    ⟨h2, record_res_underflow.2 Config.default oracleZ 1 _ h2⟩⟩
